import Mathlib

/-!
# swagger2http: default-value synthesis, request unpacking and rendering

A shallow embedding of `model.go` and `swagger.go`.

Conventions of the embedding.

* A Go `string` is a Lean `String` (the model covers well-formed UTF-8 text).
* A `lazyRaw` only ever comes out of `json.Unmarshal`, which validates the text
  of the enclosing document before it stores anything; so a non-nil `lazyRaw`
  holds the text of exactly one JSON value, and the model keeps the parse tree
  of that text (`Json`).  The nil slice is `none`.
* A `json.RawMessage` built from a Go string (`json.RawMessage(child)`) is
  arbitrary text, and is kept as text: `encoding/json` scans it when it is
  marshalled or indented, and the model scans it with the same state machine
  (`Scanner`).
* A Go `map[string]T` is an association list with distinct keys (`GoMap`).
  The order in which `range` visits a map is unspecified in Go; every loop over
  a map takes the visiting order from a parameter `ord`, and theorems about
  such loops quantify over `ord`.
* `GetDefault` is recursive without a bound in the source; the model carries a
  fuel argument and answers `none` when the fuel is used up.
-/

set_option linter.dupNamespace false

namespace Swagger2http

/-! ## Constants of `model.go` and `swagger.go` -/

def ETypeObject : String := "object"
def ETypeString : String := "string"
def ETypeBoolean : String := "boolean"
def ETypeArray : String := "array"
def ETypeInteger : String := "integer"
def EFormatJSON : String := "json"
def EFormatString : String := "string"
def swaggerVersion : String := "2.0"

/-! ## JSON values, errors, maps -/

/-- Parse tree of one JSON value; the members of an object are kept in
document order, duplicates included. -/
inductive Json where
  | null : Json
  | bool (b : Bool) : Json
  | num (text : String) : Json
  | str (s : String) : Json
  | arr (xs : List Json) : Json
  | obj (kvs : List (String × Json)) : Json

/-- The Go type `lazyRaw`: `none` is the nil slice. -/
abbrev lazyRaw := Option Json

/-- Errors the program can return. -/
inductive Err where
  /-- the file could not be read -/
  | readFile : Err
  /-- `json.Unmarshal`: the text is not JSON (`*json.SyntaxError`) -/
  | syntaxError : Err
  /-- `json.Unmarshal`: a value does not fit the Go type (`*json.UnmarshalTypeError`) -/
  | unmarshalType : Err
  /-- `json.Marshal`: a `RawMessage` is not valid JSON (`*json.MarshalerError`) -/
  | marshaler : Err
  /-- the error value `errInvalidSwaggerVersion` -/
  | errInvalidSwaggerVersion : Err
  deriving DecidableEq, Repr

/-- A Go `map[string]α`: association list, first binding of a key wins on lookup. -/
abbrev GoMap (α : Type) := List (String × α)

/-- The expression `m[k]` with the comma-ok result. -/
def GoMap.get? {α : Type} : GoMap α → String → Option α
  | [], _ => none
  | (k, v) :: rest, key => if k = key then some v else GoMap.get? rest key

/-- The statement `m[k] = v`: overwrite the binding of `k`, or add one. -/
def GoMap.set {α : Type} : GoMap α → String → α → GoMap α
  | [], key, v => [(key, v)]
  | (k, w) :: rest, key, v =>
      if k = key then (k, v) :: rest else (k, w) :: GoMap.set rest key v

/-- The expression `refs[key]` for a map of `lazyRaw`: an absent key gives the
zero value, the nil slice. -/
def GoMap.index (m : GoMap Json) (key : String) : lazyRaw := GoMap.get? m key

/-! ## Records of `model.go` -/

/-- The anonymous struct of the field `Param.Schema`. -/
structure ParamSchema where
  Ref : String := ""

/-- The anonymous struct of the field `Param.Items`. -/
structure ParamItems where
  Ref : String := ""
  Title : String := ""
  Typ : String := ""
  Enum : List String := []
  Default : String := ""

/-- The struct `Param`; the field `Type` is spelled `Typ`. -/
structure Param where
  In : String := ""
  Typ : String := ""
  Name : String := ""
  Default : String := ""
  Required : lazyRaw := none
  Schema : ParamSchema := {}
  Ref : String := ""
  Format : String := ""
  Enum : List String := []
  Items : ParamItems := {}
  Example : String := ""
  Properties : lazyRaw := none

/-- The struct `Request`. -/
structure Request where
  Method : String := ""
  Tags : List String := []
  Summary : String := ""
  Description : String := ""
  OperationId : String := ""
  Produces : List String := []
  Params : List Param := []
  Responses : lazyRaw := none
  Security : List lazyRaw := []

/-! ## `json.Unmarshal` into the records

`encoding/json` stores an object member into the struct field whose JSON name
equals the key, or equals it under case folding.  A JSON `null` leaves a
string or struct untouched and sets a slice to nil.  A value of the wrong
shape leaves the field untouched and saves an `UnmarshalTypeError`; decoding
goes on and the saved error is returned at the end.  Each decoder below
returns the new value and whether an error was saved. -/

/-- Case folding of one rune as `encoding/json` does it for field names:
ASCII letters to upper case, and the two non-ASCII runes whose simple fold
orbit contains an ASCII letter. -/
def foldRune (c : Char) : Char :=
  if 'a'.toNat ≤ c.toNat ∧ c.toNat ≤ 'z'.toNat then Char.ofNat (c.toNat - 32)
  else if c.toNat = 0x17F then 'S'
  else if c.toNat = 0x212A then 'K'
  else c

/-- Folded form of a key or field name. -/
def foldName (s : String) : String := String.mk (s.data.map foldRune)

/-- Does the object key `key` select the field whose JSON name is `field`? -/
def keyMatches (key field : String) : Bool := foldName key == foldName field

/-- Store a JSON value into a Go `string`. -/
def decodeString (j : Json) (old : String) : String × Bool :=
  match j with
  | .str s => (s, false)
  | .null => (old, false)
  | _ => (old, true)

/-- Store the elements of a JSON array into the elements of a slice, `dec`
storing one element: element `i` is decoded into the old element `i` when
there is one, else into a fresh zero value. -/
def decodeElems {α : Type} (dec : Json → α → α × Bool) (zero : α) :
    List Json → List α → List α × Bool
  | [], _ => ([], false)
  | j :: js, old =>
      let r := dec j (old.headD zero)
      let rs := decodeElems dec zero js old.tail
      (r.1 :: rs.1, r.2 || rs.2)

/-- Store a JSON value into a slice: an array element by element, `null` as
the nil slice, anything else is an error. -/
def decodeSlice {α : Type} (dec : Json → α → α × Bool) (zero : α)
    (j : Json) (old : List α) : List α × Bool :=
  match j with
  | .arr xs => decodeElems dec zero xs old
  | .null => ([], false)
  | _ => (old, true)

/-- Store a JSON value into a `[]string`. -/
def decodeStringSlice (j : Json) (old : List String) : List String × Bool :=
  decodeSlice decodeString "" j old

/-- Store a JSON value into a `lazyRaw`: `UnmarshalJSON` copies the text,
whatever the value is (`null` included). -/
def decodeLazyRaw (j : Json) : lazyRaw := some j

/-- Store one object member into the struct of `Param.Schema`. -/
def setSchemaField (s : ParamSchema) (key : String) (v : Json) : ParamSchema × Bool :=
  if keyMatches key "$ref" then
    let r := decodeString v s.Ref
    ({ s with Ref := r.1 }, r.2)
  else (s, false)

/-- Store one object member into the struct of `Param.Items`. -/
def setItemsField (s : ParamItems) (key : String) (v : Json) : ParamItems × Bool :=
  if keyMatches key "$ref" then
    let r := decodeString v s.Ref
    ({ s with Ref := r.1 }, r.2)
  else if keyMatches key "Title" then
    let r := decodeString v s.Title
    ({ s with Title := r.1 }, r.2)
  else if keyMatches key "Type" then
    let r := decodeString v s.Typ
    ({ s with Typ := r.1 }, r.2)
  else if keyMatches key "Enum" then
    let r := decodeStringSlice v s.Enum
    ({ s with Enum := r.1 }, r.2)
  else if keyMatches key "Default" then
    let r := decodeString v s.Default
    ({ s with Default := r.1 }, r.2)
  else (s, false)

/-- Store the members of an object, one after the other, with `setField`. -/
def decodeMembers {α : Type} (setField : α → String → Json → α × Bool) :
    List (String × Json) → α → α × Bool
  | [], a => (a, false)
  | (k, v) :: rest, a =>
      let r := setField a k v
      let rs := decodeMembers setField rest r.1
      (rs.1, r.2 || rs.2)

/-- Store a JSON value into a struct whose members are stored by `setField`. -/
def decodeStruct {α : Type} (setField : α → String → Json → α × Bool)
    (j : Json) (old : α) : α × Bool :=
  match j with
  | .obj kvs => decodeMembers setField kvs old
  | .null => (old, false)
  | _ => (old, true)

/-- Store one object member into a `Param`. -/
def setParamField (p : Param) (key : String) (v : Json) : Param × Bool :=
  if keyMatches key "In" then
    let r := decodeString v p.In
    ({ p with In := r.1 }, r.2)
  else if keyMatches key "Type" then
    let r := decodeString v p.Typ
    ({ p with Typ := r.1 }, r.2)
  else if keyMatches key "Name" then
    let r := decodeString v p.Name
    ({ p with Name := r.1 }, r.2)
  else if keyMatches key "Default" then
    let r := decodeString v p.Default
    ({ p with Default := r.1 }, r.2)
  else if keyMatches key "Required" then
    ({ p with Required := decodeLazyRaw v }, false)
  else if keyMatches key "Schema" then
    let r := decodeStruct setSchemaField v p.Schema
    ({ p with Schema := r.1 }, r.2)
  else if keyMatches key "$ref" then
    let r := decodeString v p.Ref
    ({ p with Ref := r.1 }, r.2)
  else if keyMatches key "Format" then
    let r := decodeString v p.Format
    ({ p with Format := r.1 }, r.2)
  else if keyMatches key "Enum" then
    let r := decodeStringSlice v p.Enum
    ({ p with Enum := r.1 }, r.2)
  else if keyMatches key "Items" then
    let r := decodeStruct setItemsField v p.Items
    ({ p with Items := r.1 }, r.2)
  else if keyMatches key "Example" then
    let r := decodeString v p.Example
    ({ p with Example := r.1 }, r.2)
  else if keyMatches key "Properties" then
    ({ p with Properties := decodeLazyRaw v }, false)
  else (p, false)

/-- Store a JSON value into a `Param`. -/
def decodeParam (j : Json) (old : Param) : Param × Bool :=
  decodeStruct setParamField j old

/-- Store one object member into a `Request`. -/
def setRequestField (r : Request) (key : String) (v : Json) : Request × Bool :=
  if keyMatches key "Method" then
    let d := decodeString v r.Method
    ({ r with Method := d.1 }, d.2)
  else if keyMatches key "Tags" then
    let d := decodeStringSlice v r.Tags
    ({ r with Tags := d.1 }, d.2)
  else if keyMatches key "Summary" then
    let d := decodeString v r.Summary
    ({ r with Summary := d.1 }, d.2)
  else if keyMatches key "Description" then
    let d := decodeString v r.Description
    ({ r with Description := d.1 }, d.2)
  else if keyMatches key "operationId" then
    let d := decodeString v r.OperationId
    ({ r with OperationId := d.1 }, d.2)
  else if keyMatches key "Produces" then
    let d := decodeStringSlice v r.Produces
    ({ r with Produces := d.1 }, d.2)
  else if keyMatches key "parameters" then
    let d := decodeSlice decodeParam {} v r.Params
    ({ r with Params := d.1 }, d.2)
  else if keyMatches key "Responses" then
    ({ r with Responses := decodeLazyRaw v }, false)
  else if keyMatches key "Security" then
    let d := decodeSlice (fun j _ => (decodeLazyRaw j, false)) none v r.Security
    ({ r with Security := d.1 }, d.2)
  else (r, false)

/-- Store a JSON value into a `Request`. -/
def decodeRequest (j : Json) (old : Request) : Request × Bool :=
  decodeStruct setRequestField j old

/-- Store a JSON value into a `[]Param`. -/
def decodeParams (j : Json) (old : List Param) : List Param × Bool :=
  decodeSlice decodeParam {} j old

/-- Turn the saved-error flag of a decoder into the error `json.Unmarshal` returns. -/
def toErr (saved : Bool) : Option Err := if saved then some Err.unmarshalType else none

/-- The method `lazyRaw.UnpackTo`, the target `v` being a pointer to a value
that `dec` decodes: nil decodes nothing and returns nil; otherwise
`json.Unmarshal` stores what fits into the old value and returns the saved
error. -/
def UnpackTo {α : Type} (dec : Json → α → α × Bool) (l : lazyRaw) (old : α) : α × Option Err :=
  match l with
  | none => (old, none)
  | some j =>
      let r := dec j old
      (r.1, toErr r.2)

/-- Store the members of an object into a `map[string]lazyRaw`: a repeated
key overwrites the earlier binding. -/
def decodeMapMembers : List (String × Json) → GoMap Json → GoMap Json
  | [], m => m
  | (k, v) :: rest, m => decodeMapMembers rest (GoMap.set m k v)

/-- The method `lazyRaw.UnpackToMap`: nil gives the nil map and no error; a
JSON `null` gives the nil map; an object gives its members; anything else is
an `UnmarshalTypeError`.  The nil map and the empty map are both `[]`: the
callers only range over the result. -/
def UnpackToMap (l : lazyRaw) : GoMap Json × Option Err :=
  match l with
  | none => ([], none)
  | some (.obj kvs) => (decodeMapMembers kvs [], none)
  | some .null => ([], none)
  | some _ => ([], some Err.unmarshalType)

/-! ## The scanner of `encoding/json`

`json.Marshal` (for a `RawMessage`) and `json.Indent` run the text through the
scanner state machine of `encoding/json`; the model follows it state by state.
The library scans bytes.  Every byte of a non-ASCII rune is at least `0x80`
and the scanner treats all such bytes alike, so scanning runes gives the same
verdict and the same output. -/

/-- Result codes of one scanner step, in the order of the library constants. -/
inductive ScanOp where
  | scanContinue | scanBeginLiteral | scanBeginObject | scanObjectKey
  | scanObjectValue | scanEndObject | scanBeginArray | scanArrayValue
  | scanEndArray | scanSkipSpace | scanEnd | scanError
  deriving DecidableEq, Repr

/-- The test `v >= scanSkipSpace`. -/
def ScanOp.geSkipSpace : ScanOp → Bool
  | .scanSkipSpace | .scanEnd | .scanError => true
  | _ => false

/-- Entries of the scanner's parse stack. -/
inductive ParseState where
  | parseObjectKey | parseObjectValue | parseArrayValue
  deriving DecidableEq, Repr

/-- The step functions of the scanner.  The states that spell out `true`,
`false` and `null` letter by letter are `stateLit rest`, `rest` being the
letters still expected; the four states of a `\u` escape are
`stateInStringEscU n`, `n` being the number of hex digits already read. -/
inductive StepFn where
  | stateBeginValue | stateBeginValueOrEmpty | stateBeginStringOrEmpty
  | stateBeginString | stateEndValue | stateEndTop
  | stateInString | stateInStringEsc | stateInStringEscU (n : Nat)
  | stateNeg | state0 | state1 | stateDot | stateDot0
  | stateE | stateESign | stateE0
  | stateLit (rest : List Char)
  | stateError
  deriving DecidableEq, Repr

/-- The scanner: current step function, parse stack (innermost first), and the
flags `err != nil` and `endTop`. -/
structure Scanner where
  step : StepFn
  parseState : List ParseState
  err : Bool
  endTop : Bool
  deriving DecidableEq, Repr

/-- The scanner after `reset`. -/
def newScanner : Scanner :=
  ⟨StepFn.stateBeginValue, [], false, false⟩

def maxNestingDepth : Nat := 10000

def isSpace (c : Char) : Bool := c == ' ' || c == '\t' || c == '\r' || c == '\n'

def isDigit (c : Char) : Bool := '0'.toNat ≤ c.toNat && c.toNat ≤ '9'.toNat

def isDigit19 (c : Char) : Bool := '1'.toNat ≤ c.toNat && c.toNat ≤ '9'.toNat

def isHex (c : Char) : Bool :=
  isDigit c || ('a'.toNat ≤ c.toNat && c.toNat ≤ 'f'.toNat)
    || ('A'.toNat ≤ c.toNat && c.toNat ≤ 'F'.toNat)

/-- The method `scanner.error`. -/
def Scanner.error (s : Scanner) : Scanner × ScanOp :=
  ({ s with step := StepFn.stateError, err := true }, ScanOp.scanError)

/-- The method `pushParseState`. -/
def Scanner.pushParseState (s : Scanner) (newParseState : ParseState)
    (successState : ScanOp) : Scanner × ScanOp :=
  let s1 := { s with parseState := newParseState :: s.parseState }
  if s1.parseState.length ≤ maxNestingDepth then (s1, successState) else s1.error

/-- The method `popParseState`. -/
def Scanner.popParseState (s : Scanner) : Scanner :=
  let rest := s.parseState.tail
  if rest.length = 0 then { s with parseState := rest, step := StepFn.stateEndTop, endTop := true }
  else { s with parseState := rest, step := StepFn.stateEndValue }

/-- The step function `stateEndTop`: a non-space rune records an error, and
the step still answers `scanEnd`. -/
def stateEndTop (s : Scanner) (c : Char) : Scanner × ScanOp :=
  if !isSpace c then (s.error.1, ScanOp.scanEnd) else (s, ScanOp.scanEnd)

/-- The step function `stateEndValue`. -/
def stateEndValue (s : Scanner) (c : Char) : Scanner × ScanOp :=
  match s.parseState with
  | [] => stateEndTop { s with step := StepFn.stateEndTop, endTop := true } c
  | ps :: rest =>
      if isSpace c then ({ s with step := StepFn.stateEndValue }, ScanOp.scanSkipSpace)
      else match ps with
        | .parseObjectKey =>
            if c == ':' then
              ({ s with parseState := ParseState.parseObjectValue :: rest,
                        step := StepFn.stateBeginValue }, ScanOp.scanObjectKey)
            else s.error
        | .parseObjectValue =>
            if c == ',' then
              ({ s with parseState := ParseState.parseObjectKey :: rest,
                        step := StepFn.stateBeginString }, ScanOp.scanObjectValue)
            else if c == '}' then (s.popParseState, ScanOp.scanEndObject)
            else s.error
        | .parseArrayValue =>
            if c == ',' then ({ s with step := StepFn.stateBeginValue }, ScanOp.scanArrayValue)
            else if c == ']' then (s.popParseState, ScanOp.scanEndArray)
            else s.error

/-- The step function `stateBeginValue`. -/
def stateBeginValue (s : Scanner) (c : Char) : Scanner × ScanOp :=
  if isSpace c then (s, ScanOp.scanSkipSpace)
  else if c == '{' then
    Scanner.pushParseState { s with step := StepFn.stateBeginStringOrEmpty }
      ParseState.parseObjectKey ScanOp.scanBeginObject
  else if c == '[' then
    Scanner.pushParseState { s with step := StepFn.stateBeginValueOrEmpty }
      ParseState.parseArrayValue ScanOp.scanBeginArray
  else if c == '"' then ({ s with step := StepFn.stateInString }, ScanOp.scanBeginLiteral)
  else if c == '-' then ({ s with step := StepFn.stateNeg }, ScanOp.scanBeginLiteral)
  else if c == '0' then ({ s with step := StepFn.state0 }, ScanOp.scanBeginLiteral)
  else if c == 't' then
    ({ s with step := StepFn.stateLit ['r', 'u', 'e'] }, ScanOp.scanBeginLiteral)
  else if c == 'f' then
    ({ s with step := StepFn.stateLit ['a', 'l', 's', 'e'] }, ScanOp.scanBeginLiteral)
  else if c == 'n' then
    ({ s with step := StepFn.stateLit ['u', 'l', 'l'] }, ScanOp.scanBeginLiteral)
  else if isDigit19 c then ({ s with step := StepFn.state1 }, ScanOp.scanBeginLiteral)
  else s.error

/-- The step function `stateBeginString`. -/
def stateBeginString (s : Scanner) (c : Char) : Scanner × ScanOp :=
  if isSpace c then (s, ScanOp.scanSkipSpace)
  else if c == '"' then ({ s with step := StepFn.stateInString }, ScanOp.scanBeginLiteral)
  else s.error

/-- The step function `state0`. -/
def state0 (s : Scanner) (c : Char) : Scanner × ScanOp :=
  if c == '.' then ({ s with step := StepFn.stateDot }, ScanOp.scanContinue)
  else if c == 'e' || c == 'E' then ({ s with step := StepFn.stateE }, ScanOp.scanContinue)
  else stateEndValue s c

/-- The step function `stateESign`. -/
def stateESign (s : Scanner) (c : Char) : Scanner × ScanOp :=
  if isDigit c then ({ s with step := StepFn.stateE0 }, ScanOp.scanContinue) else s.error

/-- One call `s.step(s, c)`: dispatch on the current step function. -/
def Scanner.doStep (s : Scanner) (c : Char) : Scanner × ScanOp :=
  match s.step with
  | .stateBeginValue => stateBeginValue s c
  | .stateBeginValueOrEmpty =>
      if isSpace c then (s, ScanOp.scanSkipSpace)
      else if c == ']' then stateEndValue s c
      else stateBeginValue s c
  | .stateBeginStringOrEmpty =>
      if isSpace c then (s, ScanOp.scanSkipSpace)
      else if c == '}' then
        stateEndValue { s with parseState := ParseState.parseObjectValue :: s.parseState.tail } c
      else stateBeginString s c
  | .stateBeginString => stateBeginString s c
  | .stateEndValue => stateEndValue s c
  | .stateEndTop => stateEndTop s c
  | .stateInString =>
      if c == '"' then ({ s with step := StepFn.stateEndValue }, ScanOp.scanContinue)
      else if c == '\\' then ({ s with step := StepFn.stateInStringEsc }, ScanOp.scanContinue)
      else if c.toNat < 0x20 then s.error
      else (s, ScanOp.scanContinue)
  | .stateInStringEsc =>
      if c == 'b' || c == 'f' || c == 'n' || c == 'r' || c == 't' || c == '\\' || c == '/'
          || c == '"' then
        ({ s with step := StepFn.stateInString }, ScanOp.scanContinue)
      else if c == 'u' then ({ s with step := StepFn.stateInStringEscU 0 }, ScanOp.scanContinue)
      else s.error
  | .stateInStringEscU n =>
      if isHex c then
        if n < 3 then ({ s with step := StepFn.stateInStringEscU (n + 1) }, ScanOp.scanContinue)
        else ({ s with step := StepFn.stateInString }, ScanOp.scanContinue)
      else s.error
  | .stateNeg =>
      if c == '0' then ({ s with step := StepFn.state0 }, ScanOp.scanContinue)
      else if isDigit19 c then ({ s with step := StepFn.state1 }, ScanOp.scanContinue)
      else s.error
  | .state1 =>
      if isDigit c then ({ s with step := StepFn.state1 }, ScanOp.scanContinue) else state0 s c
  | .state0 => state0 s c
  | .stateDot =>
      if isDigit c then ({ s with step := StepFn.stateDot0 }, ScanOp.scanContinue) else s.error
  | .stateDot0 =>
      if isDigit c then (s, ScanOp.scanContinue)
      else if c == 'e' || c == 'E' then ({ s with step := StepFn.stateE }, ScanOp.scanContinue)
      else stateEndValue s c
  | .stateE =>
      if c == '+' || c == '-' then ({ s with step := StepFn.stateESign }, ScanOp.scanContinue)
      else stateESign s c
  | .stateESign => stateESign s c
  | .stateE0 => if isDigit c then (s, ScanOp.scanContinue) else stateEndValue s c
  | .stateLit [] => s.error
  | .stateLit (x :: rest) =>
      if c == x then
        match rest with
        | [] => ({ s with step := StepFn.stateEndValue }, ScanOp.scanContinue)
        | _ => ({ s with step := StepFn.stateLit rest }, ScanOp.scanContinue)
      else s.error
  | .stateError => (s, ScanOp.scanError)

/-- The method `eof`, as the test `scan.eof() == scanError`. -/
def Scanner.eofIsError (s : Scanner) : Bool :=
  if s.err then true
  else if s.endTop then false
  else !(s.doStep ' ').1.endTop

/-- The function `json.Valid`, on text. -/
def scanValidFrom : Scanner → List Char → Bool
  | s, [] => !s.eofIsError
  | s, c :: cs =>
      let r := s.doStep c
      if r.2 = ScanOp.scanError then false else scanValidFrom r.1 cs

def Valid (text : String) : Bool := scanValidFrom newScanner text.data

/-! ## `json.Marshal` of a `map[string]json.RawMessage` -/

/-- Lower-case hex digit of a number below 16. -/
def hexDigit (n : Nat) : Char := "0123456789abcdef".data.getD n '0'

/-- The escape `\u00XX` of a rune below `0x100`. -/
def escapeU00 (c : Char) : List Char :=
  ['\\', 'u', '0', '0', hexDigit (c.toNat / 16), hexDigit (c.toNat % 16)]

/-- What `appendCompact` (with `escape` set) writes in place of a rune that it
escapes: `<`, `>`, `&`, U+2028 and U+2029. -/
def compactEscape (c : Char) : Option (List Char) :=
  if c == '<' || c == '>' || c == '&' then some (escapeU00 c)
  else if c.toNat = 0x2028 then some ['\\', 'u', '2', '0', '2', '8']
  else if c.toNat = 0x2029 then some ['\\', 'u', '2', '0', '2', '9']
  else none

/-- The loop of `appendCompact`: a rune is dropped when the scanner answers
`scanSkipSpace` or more, replaced when it is escaped, copied otherwise; a
scanner error, or an error at the end of the text, discards everything. -/
def appendCompact : Scanner → List Char → Option (List Char)
  | s, [] => if s.eofIsError then none else some []
  | s, c :: cs =>
      let r := s.doStep c
      if r.2 = ScanOp.scanError then none
      else
        let out : List Char :=
          match compactEscape c with
          | some e => e
          | none => if r.2.geSkipSpace then [] else [c]
        (appendCompact r.1 cs).map (fun rest => out ++ rest)

/-- Encoding of a `json.RawMessage` made from a Go string (never nil): the
text, compacted, or a `MarshalerError`. -/
def compactRaw (text : String) : Option String :=
  (appendCompact newScanner text.data).map String.mk

/-- One rune of a string under `appendString` with HTML escaping. -/
def appendStringRune (c : Char) : List Char :=
  if c == '\\' || c == '"' then ['\\', c]
  else if c.toNat = 0x08 then ['\\', 'b']
  else if c.toNat = 0x0C then ['\\', 'f']
  else if c == '\n' then ['\\', 'n']
  else if c == '\r' then ['\\', 'r']
  else if c == '\t' then ['\\', 't']
  else if c.toNat < 0x20 || c == '<' || c == '>' || c == '&' then escapeU00 c
  else if c.toNat = 0x2028 then ['\\', 'u', '2', '0', '2', '8']
  else if c.toNat = 0x2029 then ['\\', 'u', '2', '0', '2', '9']
  else [c]

/-- The function `appendString`: a Go string as a JSON string literal. -/
def appendString (src : String) : String :=
  String.mk ('"' :: (src.data.flatMap appendStringRune ++ ['"']))

/-- Lexicographic order of rune sequences by code point; on well-formed UTF-8
it is the byte order `strings.Compare` uses. -/
def ltChars : List Char → List Char → Bool
  | _, [] => false
  | [], _ :: _ => true
  | a :: as, b :: bs =>
      if a.toNat < b.toNat then true
      else if b.toNat < a.toNat then false
      else ltChars as bs

/-- The order in which the map encoder sorts keys. -/
def keyLt (a b : String) : Bool := ltChars a.data b.data

/-- Insert a binding into a list sorted by key. -/
def insertByKey (kv : String × String) : List (String × String) → List (String × String)
  | [] => [kv]
  | x :: xs => if keyLt kv.1 x.1 then kv :: x :: xs else x :: insertByKey kv xs

/-- The bindings of a map sorted by key, as the map encoder sorts them. -/
def sortByKey (n : List (String × String)) : List (String × String) :=
  n.foldr insertByKey []

/-- Encode the sorted bindings; the first value that is not valid JSON stops
the encoding. -/
def encodeMembers : List (String × String) → Option (List String)
  | [] => some []
  | (k, v) :: rest =>
      match compactRaw v with
      | none => none
      | some cv => (encodeMembers rest).map (fun out => (appendString k ++ ":" ++ cv) :: out)

/-- The call `json.Marshal(n)` for `n : map[string]json.RawMessage` (non-nil),
followed by `string(nb)`: keys sorted, `key:value` pairs joined by commas; on
error the bytes are nil and the text is empty. -/
def Marshal (n : GoMap String) : String × Option Err :=
  match encodeMembers (sortByKey n) with
  | none => ("", some Err.marshaler)
  | some members => ("\x7b" ++ ",".intercalate members ++ "\x7d", none)

/-! ## `Param.GetDefault` -/

/-- The deferred function of `GetDefault`: it rewrites the named result `ret`
after the body has returned. -/
def deferred (p : Param) (format ret : String) : String :=
  if format ≠ EFormatJSON ∨ ret = "" then ret
  else if p.Typ = ETypeArray then "[\"" ++ ret ++ "\"]"
  else if p.Typ = ETypeString then "\"" ++ ret ++ "\""
  else if p.Typ = EFormatJSON then "<OBJECT>"
  else ret

/-- The loop `for k, raw := range m` of the object case, over the bindings in
visiting order; `synth` is the recursive call `np.GetDefault(refs, format)`.
The answer is `none` when a recursive call runs out of fuel, else the map `n`
built so far and the error that stopped the loop, if any. -/
def propertiesLoop (synth : Param → Option (String × Option Err)) :
    List (String × Json) → GoMap String → Option (GoMap String × Option Err)
  | [], n => some (n, none)
  | (k, raw) :: rest, n =>
      let d := UnpackTo decodeParam (some raw) {}
      match d.2 with
      | some e => some (n, some e)
      | none =>
          match synth d.1 with
          | none => none
          | some (_, some e) => some (n, some e)
          | some (child, none) => propertiesLoop synth rest (GoMap.set n k child)

/-- The method `Param.GetDefault`.  `ord m` is the order in which `range`
visits the map `m`; the first argument is the fuel, and `none` means that the
fuel ran out. -/
def GetDefault (ord : GoMap Json → List (String × Json)) :
    Nat → Param → GoMap Json → String → Option (String × Option Err)
  | 0, _, _, _ => none
  | fuel + 1, p, refs, format =>
      let body : Option (String × Option Err) :=
        if p.Default ≠ "" then some (p.Default, none)
        else if p.Ref ≠ "" then
          let d := UnpackTo decodeParam (GoMap.index refs p.Ref) {}
          if d.2.isSome then some ("", none)
          else GetDefault ord fuel d.1 refs format
        else if p.Schema.Ref ≠ "" then
          let d := UnpackTo decodeParam (GoMap.index refs p.Schema.Ref) {}
          if d.2.isSome then some ("", none)
          else GetDefault ord fuel d.1 refs format
        else if p.Typ = ETypeString then
          if p.Format = "int64" then some ("0", none)
          else match p.Enum with
            | e :: _ => some (e, none)
            | [] => if p.Example ≠ "" then some (p.Example, none) else some (ETypeString, none)
        else if p.Typ = ETypeBoolean then some ("false", none)
        else if p.Typ = ETypeInteger then some ("0", none)
        else if p.Typ = ETypeArray then
          if p.Items.Default ≠ "" then some (p.Items.Default, none)
          else match p.Items.Enum with
            | e :: _ => some (e, none)
            | [] => if p.Items.Typ = ETypeInteger then some ("0", none)
                    else some (ETypeString, none)
        else if p.Typ = ETypeObject then
          if p.Properties.isNone then some ("\x7b\x7d", none)
          else
            let m := UnpackToMap p.Properties
            match m.2 with
            | some e => some ("", some e)
            | none =>
                match propertiesLoop (fun np => GetDefault ord fuel np refs format) (ord m.1) [] with
                | none => none
                | some (_, some e) => some ("", some e)
                | some (n, none) => some (Marshal n)
        else some ("", none)
      body.map (fun r => (deferred p format r.1, r.2))

/-! ## Library functions used by `swagger.go` -/

/-- The loop of `strings.ReplaceAll` for a non-empty `old`: `skip` runes of a
match just replaced are still to be passed over. -/
def replaceGo (old new : List Char) : Nat → List Char → List Char
  | _, [] => []
  | skip + 1, _ :: cs => replaceGo old new skip cs
  | 0, c :: cs =>
      if old.isPrefixOf (c :: cs) then new ++ replaceGo old new (old.length - 1) cs
      else c :: replaceGo old new 0 cs

/-- The function `strings.ReplaceAll`: non-overlapping matches of `old`, from
the left, are replaced by `new`; an empty `old` matches before every rune and
at the end. -/
def ReplaceAll (s old new : String) : String :=
  if old.data.isEmpty then String.mk (new.data ++ s.data.flatMap (fun c => c :: new.data))
  else String.mk (replaceGo old.data new.data 0 s.data)

/-- The function `strings.ToUpper`; `unicodeUpper` is the upper-case mapping
of the Unicode tables for runes outside ASCII. -/
def ToUpper (unicodeUpper : Char → Char) (s : String) : String :=
  String.mk (s.data.map (fun c =>
    if c.toNat < 0x80 then
      (if 'a'.toNat ≤ c.toNat ∧ c.toNat ≤ 'z'.toNat then Char.ofNat (c.toNat - 32) else c)
    else unicodeUpper c))

/-- The UTF-8 encoding of a rune, as byte values. -/
def utf8Bytes (c : Char) : List Nat :=
  let n := c.toNat
  if n < 0x80 then [n]
  else if n < 0x800 then [0xC0 + n / 64, 0x80 + n % 64]
  else if n < 0x10000 then [0xE0 + n / 4096, 0x80 + n / 64 % 64, 0x80 + n % 64]
  else [0xF0 + n / 262144, 0x80 + n / 4096 % 64, 0x80 + n / 64 % 64, 0x80 + n % 64]

/-- Upper-case hex digit of a number below 16. -/
def upperHexDigit (n : Nat) : Char := "0123456789ABCDEF".data.getD n '0'

/-- The function `shouldEscape` of `net/url` in the mode `encodeQueryComponent`. -/
def shouldEscape (b : Nat) : Bool :=
  if ('a'.toNat ≤ b && b ≤ 'z'.toNat) || ('A'.toNat ≤ b && b ≤ 'Z'.toNat)
      || ('0'.toNat ≤ b && b ≤ '9'.toNat) then false
  else if b = '-'.toNat || b = '_'.toNat || b = '.'.toNat || b = '~'.toNat then false
  else true

/-- One byte under `url.QueryEscape`. -/
def escapeByte (b : Nat) : List Char :=
  if shouldEscape b then
    if b = ' '.toNat then ['+'] else ['%', upperHexDigit (b / 16), upperHexDigit (b % 16)]
  else [Char.ofNat b]

/-- The function `url.QueryEscape`. -/
def QueryEscape (s : String) : String :=
  String.mk ((s.data.flatMap utf8Bytes).flatMap escapeByte)

/-- The method `url.Values.Add`. -/
def valuesAdd (v : GoMap (List String)) (key value : String) : GoMap (List String) :=
  GoMap.set v key ((GoMap.get? v key).getD [] ++ [value])

/-- Insert a key into a sorted list of keys. -/
def insertKey (k : String) : List String → List String
  | [] => [k]
  | x :: xs => if keyLt k x then k :: x :: xs else x :: insertKey k xs

/-- The inner loop of `url.Values.Encode` over the values of one key. -/
def encodeValues (keyEscaped : String) : List String → String → String
  | [], buf => buf
  | v :: vs, buf =>
      let buf1 := if buf.length > 0 then buf ++ "&" else buf
      encodeValues keyEscaped vs (buf1 ++ keyEscaped ++ "=" ++ QueryEscape v)

/-- The outer loop of `url.Values.Encode` over the sorted keys. -/
def encodeKeys (v : GoMap (List String)) : List String → String → String
  | [], buf => buf
  | k :: ks, buf =>
      encodeKeys v ks (encodeValues (QueryEscape k) ((GoMap.get? v k).getD []) buf)

/-- The method `url.Values.Encode`. -/
def valuesEncode (v : GoMap (List String)) : String :=
  if v.length = 0 then "" else encodeKeys v ((v.map Prod.fst).foldr insertKey []) ""

/-- The function `appendNewline` of `encoding/json`. -/
def appendNewline (pre ind : List Char) (depth : Nat) : List Char :=
  '\n' :: (pre ++ (List.replicate depth ind).flatten)

/-- The loop of `appendIndent`: the output for the rest of the text, or `none`
when the text is not valid JSON (every byte written is then discarded). -/
def appendIndent (pre ind : List Char) : Scanner → Bool → Nat → List Char → Option (List Char)
  | s, _, _, [] => if s.eofIsError then none else some []
  | s, needIndent, depth, c :: cs =>
      let r := s.doStep c
      if r.2 = ScanOp.scanSkipSpace then appendIndent pre ind r.1 needIndent depth cs
      else if r.2 = ScanOp.scanError then none
      else
        let open1 := needIndent && r.2 != ScanOp.scanEndObject && r.2 != ScanOp.scanEndArray
        let out1 := if open1 then appendNewline pre ind (depth + 1) else []
        let needIndent1 := if open1 then false else needIndent
        let depth1 := if open1 then depth + 1 else depth
        if r.2 = ScanOp.scanContinue then
          (appendIndent pre ind r.1 needIndent1 depth1 cs).map (fun rest => out1 ++ c :: rest)
        else if c == '{' || c == '[' then
          (appendIndent pre ind r.1 true depth1 cs).map (fun rest => out1 ++ c :: rest)
        else if c == ',' then
          (appendIndent pre ind r.1 needIndent1 depth1 cs).map
            (fun rest => out1 ++ c :: (appendNewline pre ind depth1 ++ rest))
        else if c == ':' then
          (appendIndent pre ind r.1 needIndent1 depth1 cs).map
            (fun rest => out1 ++ c :: ' ' :: rest)
        else if c == '}' || c == ']' then
          if needIndent1 then
            (appendIndent pre ind r.1 false depth1 cs).map (fun rest => out1 ++ c :: rest)
          else
            (appendIndent pre ind r.1 false (depth1 - 1) cs).map
              (fun rest => out1 ++ (appendNewline pre ind (depth1 - 1) ++ c :: rest))
        else
          (appendIndent pre ind r.1 needIndent1 depth1 cs).map (fun rest => out1 ++ c :: rest)

/-- The call `json.Indent(&dst, src, pre, ind)` on an empty buffer `dst`,
followed by `dst.String()`; the error of `Indent` is the second component.
A nil or empty `src` is not valid JSON and leaves `dst` empty. -/
def Indent (src : String) (pre ind : String) : String × Option Err :=
  match appendIndent pre.data ind.data newScanner false 0 src.data with
  | none => ("", some Err.syntaxError)
  | some out => (String.mk out, none)

/-! ## Records and methods of `swagger.go` -/

/-- The struct `Info`. -/
structure Info where
  Version : String := ""
  Description : String := ""
  Title : String := ""

/-- The struct `Tag`. -/
structure Tag where
  Name : String := ""
  Description : String := ""

/-- The struct `Swagger`; a nil map and an empty map are both `[]`. -/
structure Swagger where
  Swagger : String := ""
  Info : Info := {}
  Host : String := ""
  BasePath : String := ""
  Schemes : List String := []
  Tags : List Tag := []
  Paths : lazyRaw := none
  SecurityDefinitions : lazyRaw := none
  Definitions : lazyRaw := none
  Parameters : lazyRaw := none
  refs : GoMap Json := []
  securities : GoMap Json := []

/-- Store one object member into an `Info`. -/
def setInfoField (i : Info) (key : String) (v : Json) : Info × Bool :=
  if keyMatches key "version" then
    let d := decodeString v i.Version
    ({ i with Version := d.1 }, d.2)
  else if keyMatches key "description" then
    let d := decodeString v i.Description
    ({ i with Description := d.1 }, d.2)
  else if keyMatches key "title" then
    let d := decodeString v i.Title
    ({ i with Title := d.1 }, d.2)
  else (i, false)

/-- Store one object member into a `Tag`. -/
def setTagField (t : Tag) (key : String) (v : Json) : Tag × Bool :=
  if keyMatches key "name" then
    let d := decodeString v t.Name
    ({ t with Name := d.1 }, d.2)
  else if keyMatches key "description" then
    let d := decodeString v t.Description
    ({ t with Description := d.1 }, d.2)
  else (t, false)

/-- Store one object member into a `Swagger`; the unexported fields `refs` and
`securities` are not reachable from JSON. -/
def setSwaggerField (s : Swagger) (key : String) (v : Json) : Swagger × Bool :=
  if keyMatches key "swagger" then
    let d := decodeString v s.Swagger
    ({ s with Swagger := d.1 }, d.2)
  else if keyMatches key "info" then
    let d := decodeStruct setInfoField v s.Info
    ({ s with Info := d.1 }, d.2)
  else if keyMatches key "host" then
    let d := decodeString v s.Host
    ({ s with Host := d.1 }, d.2)
  else if keyMatches key "basePath" then
    let d := decodeString v s.BasePath
    ({ s with BasePath := d.1 }, d.2)
  else if keyMatches key "schemes" then
    let d := decodeStringSlice v s.Schemes
    ({ s with Schemes := d.1 }, d.2)
  else if keyMatches key "tags" then
    let d := decodeSlice (decodeStruct setTagField) {} v s.Tags
    ({ s with Tags := d.1 }, d.2)
  else if keyMatches key "paths" then
    ({ s with Paths := decodeLazyRaw v }, false)
  else if keyMatches key "securityDefinitions" then
    ({ s with SecurityDefinitions := decodeLazyRaw v }, false)
  else if keyMatches key "definitions" then
    ({ s with Definitions := decodeLazyRaw v }, false)
  else if keyMatches key "parameters" then
    ({ s with Parameters := decodeLazyRaw v }, false)
  else (s, false)

/-- Store a JSON value into a `Swagger`. -/
def decodeSwagger (j : Json) (old : Swagger) : Swagger × Bool :=
  decodeStruct setSwaggerField j old

/-- The bytes of a file as `json.Unmarshal` sees them: text that is not
well-formed JSON, or the text of one JSON value. -/
inductive FileText where
  | malformed : FileText
  | wellFormed (j : Json) : FileText

/-- The function `json.Unmarshal` on the bytes of a file: malformed text is a
`SyntaxError` and stores nothing; well-formed text is stored as far as it fits. -/
def Unmarshal {α : Type} (dec : Json → α → α × Bool) (t : FileText) (old : α) : α × Option Err :=
  match t with
  | .malformed => (old, some Err.syntaxError)
  | .wellFormed j =>
      let r := dec j old
      (r.1, toErr r.2)

/-- The method `Swagger.Load`; `file` is the outcome of `ioutil.ReadFile`.
The result is the receiver after the call and the error returned. -/
def Load (s : Swagger) (file : Except Err FileText) : Swagger × Option Err :=
  match file with
  | .error e => (s, some e)
  | .ok t =>
      let r := Unmarshal decodeSwagger t s
      if r.2 = none then (r.1, none)
      else if r.1.Swagger ≠ swaggerVersion then (r.1, some Err.errInvalidSwaggerVersion)
      else ({ r.1 with refs := [] }, none)

/-- The method `Swagger.selectScheme`. -/
def selectScheme (s : Swagger) : String :=
  match s.Schemes with
  | x :: _ => x
  | [] => "http"

/-- The method `Swagger.getPaths`. -/
def getPaths (s : Swagger) : GoMap Json × Option Err := UnpackToMap s.Paths

/-- A loop `for r := range m { dst[keyPrefix+r] = m[r] }` of `loadRef`, over
the keys in visiting order. -/
def loadLoop (keyPre : String) (m : GoMap Json) : List String → GoMap Json → GoMap Json
  | [], dst => dst
  | r :: rest, dst =>
      match GoMap.get? m r with
      | some v => loadLoop keyPre m rest (GoMap.set dst (keyPre ++ r) v)
      | none => loadLoop keyPre m rest dst

/-- The method `Swagger.loadRef`: the receiver after the call and the error. -/
def loadRef (ord : GoMap Json → List (String × Json)) (s : Swagger) : Swagger × Option Err :=
  let defs := UnpackToMap s.Definitions
  match defs.2 with
  | some e => (s, some e)
  | none =>
      let refs1 := loadLoop "#/definitions/" defs.1 ((ord defs.1).map Prod.fst) []
      let ps := UnpackToMap s.Parameters
      match ps.2 with
      | some e => ({ s with refs := refs1 }, some e)
      | none =>
          let refs2 := loadLoop "#/parameters/" ps.1 ((ord ps.1).map Prod.fst) refs1
          let ss := UnpackToMap s.SecurityDefinitions
          let secs := loadLoop "" ss.1 ((ord ss.1).map Prod.fst) []
          ({ s with refs := refs2, securities := secs }, none)

/-- The loop `for method := range reqs` of `unpackRequest`, over the keys in
visiting order; `rs` and `params` are the two slices the loop appends to.
Slices are lists here: `append` yields a new list. -/
def unpackLoop (reqs : GoMap Json) :
    List String → List Request → List Param → List Request × Option Err
  | [], rs, _ => (rs, none)
  | method :: rest, rs, params =>
      if method = "parameters" then
        let d := UnpackTo decodeParams (GoMap.index reqs method) []
        match d.2 with
        | some e => ([], some e)
        | none => unpackLoop reqs rest rs (params ++ d.1)
      else
        let d := UnpackTo decodeRequest (GoMap.index reqs method) {}
        match d.2 with
        | some e => ([], some e)
        | none =>
            let r := { d.1 with Params := params ++ d.1.Params, Method := method }
            unpackLoop reqs rest (rs ++ [r]) params

/-- The method `Swagger.unpackRequest`; `ord m` is the order in which `range`
visits the map `m`. -/
def unpackRequest (ord : GoMap Json → List (String × Json)) (raw : lazyRaw) :
    List Request × Option Err :=
  let reqs := UnpackToMap raw
  match reqs.2 with
  | some e => ([], some e)
  | none => unpackLoop reqs.1 ((ord reqs.1).map Prod.fst) [] []

/-- The method `Swagger.writeHead`, writing to a buffer: the text written. -/
def writeHead (s : Swagger) : String :=
  (if s.Info.Title ≠ "" then "# " ++ s.Info.Title ++ "\n" else "")
    ++ (if s.Info.Version ≠ "" then "# " ++ s.Info.Version ++ "\n" else "")
    ++ (if s.Info.Description ≠ "" then "# " ++ s.Info.Description ++ "\n" else "")
    ++ "\n"

/-- The comment lines `writeRequest` writes first. -/
def writeComments (req : Request) : String :=
  "###\n"
    ++ ("# " ++ ", ".intercalate req.Tags ++ "." ++ req.OperationId ++ "\n")
    ++ ("# " ++ ReplaceAll req.Summary "\n" "\n# " ++ "\n")
    ++ (if req.Description ≠ "" then "# " ++ ReplaceAll req.Description "\n" "\n# " ++ "\n" else "")

/-- The first loop of `writeRequest` over the parameters: query values are
collected, path placeholders are replaced.  `synth p` is
`p.GetDefault(s.refs, EFormatString)`. -/
def queryPathLoop (synth : Param → Option (String × Option Err)) :
    List Param → GoMap (List String) → String →
      Option ((GoMap (List String) × String) × Option Err)
  | [], queries, path => some ((queries, path), none)
  | p :: ps, queries, path =>
      if p.In = "query" then
        match synth p with
        | none => none
        | some (_, some e) => some ((queries, path), some e)
        | some (val, none) => queryPathLoop synth ps (valuesAdd queries p.Name val) path
      else if p.In = "path" then
        match synth p with
        | none => none
        | some (_, some e) => some ((queries, path), some e)
        | some (val, none) =>
            queryPathLoop synth ps queries (ReplaceAll path ("\x7b" ++ p.Name ++ "\x7d") val)
      else queryPathLoop synth ps queries path

/-- The statement `if p.Ref != "" { err := s.refs[p.Ref].UnpackTo(&p) ... }`:
the loop variable after it, and the error. -/
def resolveRef (refs : GoMap Json) (p : Param) : Param × Option Err :=
  if p.Ref ≠ "" then UnpackTo decodeParam (GoMap.index refs p.Ref) p else (p, none)

/-- The second loop of `writeRequest`: header lines.  The result is the text
written and the error. -/
def headerLoop (refs : GoMap Json) : List Param → String → String × Option Err
  | [], out => (out, none)
  | p :: ps, out =>
      let d := resolveRef refs p
      match d.2 with
      | some e => (out, some e)
      | none =>
          if d.1.In = "header" then
            let v := "_header_" ++ ReplaceAll d.1.Name "-" "_"
            headerLoop refs ps (out ++ (d.1.Name ++ ": \x7b\x7b" ++ v ++ "\x7d\x7d\n"))
          else headerLoop refs ps out

/-- The loop `for k := range m` over the scheme names of one security
requirement. -/
def schemeLoop (securities : GoMap Json) : List String → String → String × Option Err
  | [], out => (out, none)
  | k :: ks, out =>
      match GoMap.get? securities k with
      | none => schemeLoop securities ks out
      | some sr =>
          let d := UnpackTo decodeParam (some sr) {}
          match d.2 with
          | some e => (out, some e)
          | none =>
              if d.1.In = "header" then
                let v := "_auth_" ++ ReplaceAll d.1.Name "-" "_"
                schemeLoop securities ks (out ++ (d.1.Name ++ ": \x7b\x7b" ++ v ++ "\x7d\x7d\n"))
              else schemeLoop securities ks out

/-- The loop `for _, p := range req.Security` of `writeRequest`. -/
def securityLoop (ord : GoMap Json → List (String × Json)) (securities : GoMap Json) :
    List lazyRaw → String → String × Option Err
  | [], out => (out, none)
  | p :: ps, out =>
      let m := UnpackToMap p
      match m.2 with
      | some e => (out, some e)
      | none =>
          let r := schemeLoop securities ((ord m.1).map Prod.fst) out
          match r.2 with
          | some e => (r.1, some e)
          | none => securityLoop ord securities ps r.1

/-- The conversion `json.RawMessage(val)` of a Go string: a non-nil slice,
also for the empty string.  `none` is the nil slice. -/
def rawMessageOfString (val : String) : Option String := some val

/-- The text written for one body value: the statements from
`pa := json.RawMessage(val)` to `out.WriteString("\n\n")`. -/
def writeBody (val : String) : String :=
  let pa := rawMessageOfString val
  let pa1 := if pa.isNone then some "\x7b\x7d" else pa
  (Indent (pa1.getD "") "" "    ").1 ++ "\n\n"

/-- The last loop of `writeRequest`: bodies.  `synth p` is
`p.GetDefault(s.refs, EFormatJSON)`. -/
def bodyLoop (synth : Param → Option (String × Option Err)) (refs : GoMap Json) :
    List Param → String → Option (String × Option Err)
  | [], out => some (out, none)
  | p :: ps, out =>
      let d := resolveRef refs p
      match d.2 with
      | some e => some (out, some e)
      | none =>
          if d.1.In = "body" then
            let d2 :=
              if d.1.Schema.Ref ≠ "" then
                UnpackTo decodeParam (GoMap.index refs d.1.Schema.Ref) d.1
              else (d.1, none)
            match d2.2 with
            | some e => some (out, some e)
            | none =>
                match synth d2.1 with
                | none => none
                | some (_, some e) => some (out, some e)
                | some (val, none) => bodyLoop synth refs ps (out ++ writeBody val)
          else bodyLoop synth refs ps out

/-- The method `Swagger.writeRequest`.  `out` is the buffer before the call;
the result is the buffer after the call and the error returned, or `none`
when a call of `GetDefault` ran out of `fuel`. -/
def writeRequest (unicodeUpper : Char → Char) (ord : GoMap Json → List (String × Json))
    (fuel : Nat) (s : Swagger) (out : String) (path : String) (req : Request) :
    Option (String × Option Err) :=
  let method := ToUpper unicodeUpper req.Method
  let out1 := out ++ writeComments req
  match queryPathLoop (fun p => GetDefault ord fuel p s.refs EFormatString) req.Params [] path with
  | none => none
  | some (_, some e) => some (out1, some e)
  | some ((queries, path1), none) =>
      let out2 := out1 ++ (method ++ " " ++ selectScheme s ++ "://" ++ s.Host ++ s.BasePath
        ++ path1 ++ "\n")
      let out3 := if queries.length > 0 then out2 ++ (" ?" ++ valuesEncode queries ++ "\n") else out2
      let h := headerLoop s.refs req.Params out3
      match h.2 with
      | some e => some (h.1, some e)
      | none =>
          let a := securityLoop ord s.securities req.Security h.1
          match a.2 with
          | some e => some (a.1, some e)
          | none =>
              let out4 := a.1 ++ "Content-Type: application/json\n" ++ "\n"
              match bodyLoop (fun p => GetDefault ord fuel p s.refs EFormatJSON) s.refs
                  req.Params out4 with
              | none => none
              | some (out5, some e) => some (out5, some e)
              | some (out5, none) => some (out5 ++ "\n", none)

/-- The loop `for _, r := range rs` of `Dump`. -/
def requestsLoop (unicodeUpper : Char → Char) (ord : GoMap Json → List (String × Json))
    (fuel : Nat) (s : Swagger) (path : String) :
    List Request → String → Option (String × Option Err)
  | [], out => some (out, none)
  | r :: rs, out =>
      match writeRequest unicodeUpper ord fuel s out path r with
      | none => none
      | some (out1, some e) => some (out1, some e)
      | some (out1, none) => requestsLoop unicodeUpper ord fuel s path rs out1

/-- The loop `for path := range paths` of `Dump`. -/
def pathsLoop (unicodeUpper : Char → Char) (ord : GoMap Json → List (String × Json))
    (fuel : Nat) (s : Swagger) (paths : GoMap Json) :
    List String → String → Option (String × Option Err)
  | [], out => some (out, none)
  | path :: rest, out =>
      let rs := unpackRequest ord (GoMap.index paths path)
      match rs.2 with
      | some e => some (out, some e)
      | none =>
          match requestsLoop unicodeUpper ord fuel s path rs.1 out with
          | none => none
          | some (out1, some e) => some (out1, some e)
          | some (out1, none) => pathsLoop unicodeUpper ord fuel s paths rest out1

/-- The method `Swagger.Dump`: the buffer returned (`none` is the nil pointer
returned with an error) and the error; the outer `none` means out of fuel. -/
def Dump (unicodeUpper : Char → Char) (ord : GoMap Json → List (String × Json))
    (fuel : Nat) (s : Swagger) : Option (Option String × Option Err) :=
  let out := writeHead s
  let paths := getPaths s
  match paths.2 with
  | some e => some (none, some e)
  | none =>
      let l := if paths.1.length > 0 then loadRef ord s else (s, none)
      match l.2 with
      | some e => some (none, some e)
      | none =>
          match pathsLoop unicodeUpper ord fuel l.1 paths.1 ((ord paths.1).map Prod.fst) out with
          | none => none
          | some (_, some e) => some (none, some e)
          | some (out1, none) => some (some out1, none)

/-- Bindings in strictly ascending key order, the order in which the map
encoder writes them. -/
abbrev KeySorted {α : Type} (l : List (String × α)) : Prop :=
  l.Pairwise (fun a b => keyLt a.1 b.1 = true)

/-! ## Specification side: the lines of a text -/

/-- Specification side of the comment lines: a rune sequence split at every
newline.  A text without newline is one line, and a text that ends with a
newline has an empty last line. -/
def splitNL : List Char → List (List Char)
  | [] => [[]]
  | c :: cs =>
      if c = '\n' then [] :: splitNL cs
      else match splitNL cs with
        | l :: ls => (c :: l) :: ls
        | [] => [[c]]

/-- Specification side of the comment lines: the physical lines of a text. -/
def physicalLines (text : String) : List String := (splitNL text.data).map String.mk

/-- Specification side of the comment lines: every line with the comment
prefix in front and a newline behind, one after the other. -/
def commentLines (text : String) : String :=
  (physicalLines text).foldr (fun l acc => "# " ++ l ++ "\n" ++ acc) ""

/-- Specification side of the security lines: the line for the scheme name
`k`, empty when `k` is not a key of the security table or the scheme is not
located in a header. -/
def authLine (securities : GoMap Json) (k : String) : String :=
  match GoMap.get? securities k with
  | none => ""
  | some sr =>
      if (UnpackTo decodeParam (some sr) {}).1.In = "header" then
        (UnpackTo decodeParam (some sr) {}).1.Name ++ ": \x7b\x7b_auth_"
          ++ ReplaceAll (UnpackTo decodeParam (some sr) {}).1.Name "-" "_" ++ "\x7d\x7d\n"
      else ""

/-- Specification side of the security lines: the lines for all scheme names
of all security requirements, requirement after requirement, the names of one
requirement in the order `ord` visits them. -/
def authLines (ord : GoMap Json → List (String × Json)) (securities : GoMap Json)
    (reqs : List lazyRaw) : String :=
  (reqs.flatMap (fun r => ((ord (UnpackToMap r).1).map Prod.fst).map (authLine securities))).foldr
    (fun l acc => l ++ acc) ""

/-! ## The recursion of `GetDefault` as a relation -/

/-- The recursive calls of `GetDefault`: `Calls refs p q` holds when the body
of `GetDefault`, run on `p` with the table `refs`, calls `GetDefault` on `q`.
That is the case when `p` has no default and `q` is what the node of `Ref`
decodes to, or (`Ref` being empty) what the node of `Schema.Ref` decodes to,
or (both being empty and the type being `object`) what a property of the
decoded property map decodes to.  A node that fails to decode is not called. -/
def Calls (refs : GoMap Json) (p q : Param) : Prop :=
  p.Default = ""
  ∧ ((p.Ref ≠ "" ∧ UnpackTo decodeParam (GoMap.index refs p.Ref) {} = (q, none))
    ∨ (p.Ref = "" ∧ p.Schema.Ref ≠ ""
        ∧ UnpackTo decodeParam (GoMap.index refs p.Schema.Ref) {} = (q, none))
    ∨ (p.Ref = "" ∧ p.Schema.Ref = "" ∧ p.Typ = ETypeObject
        ∧ (UnpackToMap p.Properties).2 = none
        ∧ ∃ kv ∈ (UnpackToMap p.Properties).1,
            UnpackTo decodeParam (some kv.2) {} = (q, none)))

/-! # Theorems -/

/-! ## The deferred wrapping -/

theorem deferred_plain (p : Param) (ret : String) : deferred p EFormatString ret = ret := by
  have h : EFormatString ≠ EFormatJSON := by decide
  simp [deferred, h]

theorem deferred_empty (p : Param) (format : String) : deferred p format "" = "" := by
  simp [deferred]

theorem deferred_json_array (p : Param) (ret : String) (ht : p.Typ = ETypeArray)
    (hr : ret ≠ "") : deferred p EFormatJSON ret = "[\"" ++ ret ++ "\"]" := by
  simp [deferred, hr, ht]

theorem deferred_json_string (p : Param) (ret : String) (ht : p.Typ = ETypeString)
    (hr : ret ≠ "") : deferred p EFormatJSON ret = "\"" ++ ret ++ "\"" := by
  have h : ETypeString ≠ ETypeArray := by decide
  simp [deferred, hr, ht, h]

theorem deferred_json_other (p : Param) (ret : String) (h1 : p.Typ ≠ ETypeArray)
    (h2 : p.Typ ≠ ETypeString) (h3 : p.Typ ≠ EFormatJSON) :
    deferred p EFormatJSON ret = ret := by
  simp [deferred, h1, h2, h3]

/-! ## Explicit defaults and dangling references -/

/-- C1.  A parameter with a non-empty `Default` synthesizes to that default,
without error, whatever `Ref`, `Schema.Ref`, the other fields and the
reference table are: unchanged in the plain context; in the JSON context
quoted for type `string`, as a one-element list literal for type `array`, and
unchanged for the types `integer`, `boolean` and `object`. -/
theorem GetDefault_explicit_default (ord : GoMap Json → List (String × Json)) (fuel : Nat)
    (p : Param) (refs : GoMap Json) (h : p.Default ≠ "") :
    GetDefault ord (fuel + 1) p refs EFormatString = some (p.Default, none)
    ∧ (p.Typ = ETypeString →
        GetDefault ord (fuel + 1) p refs EFormatJSON = some ("\"" ++ p.Default ++ "\"", none))
    ∧ (p.Typ = ETypeArray →
        GetDefault ord (fuel + 1) p refs EFormatJSON = some ("[\"" ++ p.Default ++ "\"]", none))
    ∧ (p.Typ = ETypeInteger ∨ p.Typ = ETypeBoolean ∨ p.Typ = ETypeObject →
        GetDefault ord (fuel + 1) p refs EFormatJSON = some (p.Default, none)) := by
  refine ⟨?_, ?_, ?_, ?_⟩
  · simp [GetDefault, h, deferred_plain]
  · intro ht
    simp [GetDefault, h, deferred_json_string p _ ht h]
  · intro ht
    simp [GetDefault, h, deferred_json_array p _ ht h]
  · intro ht
    have hne : p.Typ ≠ ETypeArray ∧ p.Typ ≠ ETypeString ∧ p.Typ ≠ EFormatJSON := by
      rcases ht with ht | ht | ht <;> rw [ht] <;> decide
    simp [GetDefault, h, deferred_json_other p _ hne.1 hne.2.1 hne.2.2]

/-- Witness of C1: a string-typed parameter with default `red` that also
carries a reference and a schema reference. -/
theorem GetDefault_explicit_default_witness :
    GetDefault id 1
        { Typ := "string", Default := "red", Ref := "#/parameters/x",
          Schema := { Ref := "#/definitions/y" } } [] EFormatString
      = some ("red", none)
    ∧ GetDefault id 1
        { Typ := "string", Default := "red", Ref := "#/parameters/x",
          Schema := { Ref := "#/definitions/y" } } [] EFormatJSON
      = some ("\"red\"", none) :=
  ⟨(GetDefault_explicit_default id 0
      { Typ := "string", Default := "red", Ref := "#/parameters/x",
        Schema := { Ref := "#/definitions/y" } } [] (by decide)).1,
   (GetDefault_explicit_default id 0
      { Typ := "string", Default := "red", Ref := "#/parameters/x",
        Schema := { Ref := "#/definitions/y" } } [] (by decide)).2.1 (by decide)⟩

/-- The zero `Param` synthesizes to the empty text. -/
theorem GetDefault_zero (ord : GoMap Json → List (String × Json)) (fuel : Nat)
    (refs : GoMap Json) (format : String) :
    GetDefault ord (fuel + 1) {} refs format = some ("", none) := by
  have e1 : ETypeString ≠ "" := by decide
  have e2 : ETypeBoolean ≠ "" := by decide
  have e3 : ETypeInteger ≠ "" := by decide
  have e4 : ETypeArray ≠ "" := by decide
  have e5 : ETypeObject ≠ "" := by decide
  simp [GetDefault, deferred_empty, Ne.symm e1, Ne.symm e2, Ne.symm e3, Ne.symm e4, Ne.symm e5]

/-- C2.  A parameter without default whose `Ref` is set and is not a key of
the reference table, or whose `Ref` is empty and whose `Schema.Ref` is set and
is not a key, synthesizes to the empty text without error, in every output
context and whatever its declared type. -/
theorem GetDefault_dangling_ref (ord : GoMap Json → List (String × Json)) (fuel : Nat)
    (p : Param) (refs : GoMap Json) (format : String) (hD : p.Default = "")
    (h : (p.Ref ≠ "" ∧ GoMap.get? refs p.Ref = none)
      ∨ (p.Ref = "" ∧ p.Schema.Ref ≠ "" ∧ GoMap.get? refs p.Schema.Ref = none)) :
    GetDefault ord (fuel + 2) p refs format = some ("", none) := by
  have hz := GetDefault_zero ord fuel refs format
  rcases h with ⟨hr, hk⟩ | ⟨hr, hs, hk⟩
  · rw [GetDefault]
    simp [hD, hr, GoMap.index, hk, UnpackTo, hz, deferred_empty]
  · rw [GetDefault]
    simp [hD, hr, hs, GoMap.index, hk, UnpackTo, hz, deferred_empty]

/-- Witness of C2: a string-typed parameter pointing at a definition that the
table does not hold. -/
theorem GetDefault_dangling_ref_witness :
    GetDefault id 2 { Typ := "string", Ref := "#/definitions/Missing" }
        [("#/definitions/Pet", Json.obj [])] EFormatJSON
      = some ("", none) :=
  GetDefault_dangling_ref id 0 { Typ := "string", Ref := "#/definitions/Missing" }
    [("#/definitions/Pet", Json.obj [])] EFormatJSON (by decide)
    (Or.inl ⟨by decide, rfl⟩)

/-! ## The key order of the map encoder -/

theorem ltChars_irrefl (a : List Char) : ltChars a a = false := by
  induction a with
  | nil => rfl
  | cons x xs ih => simp [ltChars, ih]

theorem ltChars_total : ∀ (a b : List Char), ltChars a b = false → ltChars b a = false → a = b
  | [], [], _, _ => rfl
  | [], _ :: _, h, _ => by simp [ltChars] at h
  | _ :: _, [], _, h => by simp [ltChars] at h
  | x :: xs, y :: ys, h1, h2 => by
      simp only [ltChars] at h1 h2
      by_cases hxy : x.toNat < y.toNat
      · simp [hxy] at h1
      · by_cases hyx : y.toNat < x.toNat
        · simp [hyx] at h2
        · simp only [hxy, hyx, if_false] at h1 h2
          have hn : x.toNat = y.toNat := by omega
          have hc : x = y := Char.ext (UInt32.ext (by simpa [Char.toNat] using hn))
          rw [hc, ltChars_total xs ys h1 h2]

theorem ltChars_trans : ∀ (a b c : List Char), ltChars a b = true → ltChars b c = true →
    ltChars a c = true
  | _, [], _, h, _ => by cases ‹List Char› <;> simp [ltChars] at h
  | _, _ :: _, [], _, h => by simp [ltChars] at h
  | [], _ :: _, _ :: _, _, _ => by simp [ltChars]
  | x :: xs, y :: ys, z :: zs, h1, h2 => by
      simp only [ltChars] at h1 h2 ⊢
      by_cases hxy : x.toNat < y.toNat
      · by_cases hyz : y.toNat < z.toNat
        · have : x.toNat < z.toNat := by omega
          simp [this]
        · by_cases hzy : z.toNat < y.toNat
          · simp [hyz, hzy] at h2
          · have : x.toNat < z.toNat := by omega
            simp [this]
      · by_cases hyx : y.toNat < x.toNat
        · simp [hxy, hyx] at h1
        · simp only [hxy, hyx, if_false] at h1
          by_cases hyz : y.toNat < z.toNat
          · have : x.toNat < z.toNat := by omega
            simp [this]
          · by_cases hzy : z.toNat < y.toNat
            · simp [hyz, hzy] at h2
            · simp only [hyz, hzy, if_false] at h2
              have h3 : ¬ x.toNat < z.toNat := by omega
              have h4 : ¬ z.toNat < x.toNat := by omega
              simp only [h3, h4, if_false]
              exact ltChars_trans xs ys zs h1 h2

theorem keyLt_irrefl (a : String) : keyLt a a = false := ltChars_irrefl a.data

theorem keyLt_total (a b : String) (h1 : keyLt a b = false) (h2 : keyLt b a = false) : a = b :=
  String.ext (ltChars_total a.data b.data h1 h2)

theorem keyLt_trans (a b c : String) (h1 : keyLt a b = true) (h2 : keyLt b c = true) :
    keyLt a c = true := ltChars_trans _ _ _ h1 h2

theorem insertByKey_perm (kv : String × String) (l : List (String × String)) :
    (insertByKey kv l).Perm (kv :: l) := by
  induction l with
  | nil => simp [insertByKey]
  | cons x xs ih =>
      simp only [insertByKey]
      split
      · exact List.Perm.refl _
      · exact (List.Perm.cons x ih).trans (List.Perm.swap kv x xs)

theorem sortByKey_perm (l : List (String × String)) : (sortByKey l).Perm l := by
  induction l with
  | nil => exact List.Perm.refl _
  | cons x xs ih =>
      have h : sortByKey (x :: xs) = insertByKey x (sortByKey xs) := rfl
      rw [h]
      exact (insertByKey_perm x _).trans (List.Perm.cons x ih)

theorem insertByKey_sorted (kv : String × String) (l : List (String × String))
    (hs : KeySorted l) (hn : ∀ x ∈ l, x.1 ≠ kv.1) : KeySorted (insertByKey kv l) := by
  induction l with
  | nil => simp [insertByKey, KeySorted]
  | cons x xs ih =>
      simp only [insertByKey]
      have hs' := List.pairwise_cons.mp hs
      by_cases hlt : keyLt kv.1 x.1 = true
      · rw [if_pos hlt]
        refine List.pairwise_cons.mpr ⟨?_, hs⟩
        intro y hy
        rcases List.mem_cons.mp hy with rfl | hy
        · exact hlt
        · exact keyLt_trans _ _ _ hlt (hs'.1 y hy)
      · rw [if_neg hlt]
        have hxk : keyLt x.1 kv.1 = true := by
          by_contra hcon
          have := keyLt_total kv.1 x.1 (by simpa using hlt) (by simpa using hcon)
          exact hn x (List.mem_cons_self _ _) this.symm
        refine List.pairwise_cons.mpr ⟨?_, ih hs'.2 (fun y hy => hn y (List.mem_cons_of_mem _ hy))⟩
        intro y hy
        rcases List.mem_cons.mp ((insertByKey_perm kv xs).subset hy) with rfl | hy
        · exact hxk
        · exact hs'.1 y hy

theorem sortByKey_sorted (l : List (String × String)) (hn : (l.map Prod.fst).Nodup) :
    KeySorted (sortByKey l) := by
  induction l with
  | nil => simp [sortByKey, KeySorted]
  | cons x xs ih =>
      have h : sortByKey (x :: xs) = insertByKey x (sortByKey xs) := rfl
      rw [h]
      simp only [List.map_cons, List.nodup_cons] at hn
      refine insertByKey_sorted x _ (ih hn.2) ?_
      intro y hy hyx
      exact hn.1 (hyx ▸ List.mem_map_of_mem Prod.fst ((sortByKey_perm xs).subset hy))

theorem keySorted_unique {α : Type} : ∀ (l1 l2 : List (String × α)), l1.Perm l2 →
    KeySorted l1 → KeySorted l2 → l1 = l2 := by
  intro l1 l2 hp h1 h2
  haveI : IsAntisymm (String × α) (fun a b => keyLt a.1 b.1 = true) :=
    ⟨fun a b hab hba => by
      have := keyLt_trans _ _ _ hab hba
      rw [keyLt_irrefl] at this
      exact absurd this (by simp)⟩
  exact List.eq_of_perm_of_sorted hp h1 h2

theorem sortByKey_congr (l1 l2 : List (String × String)) (hp : l1.Perm l2)
    (hn : (l1.map Prod.fst).Nodup) : sortByKey l1 = sortByKey l2 := by
  have hn2 : (l2.map Prod.fst).Nodup := (hp.map Prod.fst).nodup_iff.mp hn
  exact keySorted_unique _ _ (((sortByKey_perm l1).trans hp).trans (sortByKey_perm l2).symm)
    (sortByKey_sorted l1 hn) (sortByKey_sorted l2 hn2)

/-! ## Maps as association lists -/

theorem GoMap.set_keys {α : Type} (m : GoMap α) (k : String) (v : α) :
    (GoMap.set m k v).map Prod.fst
      = if k ∈ m.map Prod.fst then m.map Prod.fst else m.map Prod.fst ++ [k] := by
  induction m with
  | nil => simp [GoMap.set]
  | cons x xs ih =>
      obtain ⟨a, b⟩ := x
      simp only [GoMap.set]
      by_cases h : a = k
      · simp [h]
      · have h' : ¬ k = a := fun e => h e.symm
        simp only [h, if_false, List.map_cons, ih, List.mem_cons, h', false_or]
        split <;> simp

theorem GoMap.set_keys_nodup {α : Type} (m : GoMap α) (k : String) (v : α)
    (h : (m.map Prod.fst).Nodup) : ((GoMap.set m k v).map Prod.fst).Nodup := by
  rw [GoMap.set_keys]
  split
  · exact h
  · rename_i hk
    exact List.Nodup.append h (List.nodup_singleton k) (by simpa using hk)

theorem GoMap.set_of_not_mem {α : Type} (m : GoMap α) (k : String) (v : α)
    (h : k ∉ m.map Prod.fst) : GoMap.set m k v = m ++ [(k, v)] := by
  induction m with
  | nil => rfl
  | cons x xs ih =>
      obtain ⟨a, b⟩ := x
      simp only [List.map_cons, List.mem_cons, not_or] at h
      have ha : ¬ a = k := fun e => h.1 e.symm
      simp [GoMap.set, ha, ih h.2]

theorem decodeMapMembers_nodup (kvs : List (String × Json)) :
    ∀ m : GoMap Json, (m.map Prod.fst).Nodup → ((decodeMapMembers kvs m).map Prod.fst).Nodup := by
  induction kvs with
  | nil => intro m h; exact h
  | cons x xs ih =>
      intro m h
      obtain ⟨k, v⟩ := x
      exact ih _ (GoMap.set_keys_nodup m k v h)

/-- The keys of a map that `UnpackToMap` returns are distinct. -/
theorem UnpackToMap_nodup (l : lazyRaw) : ((UnpackToMap l).1.map Prod.fst).Nodup := by
  unfold UnpackToMap
  split
  · simp
  · exact decodeMapMembers_nodup _ [] (by simp)
  · simp
  · simp

/-- Storing bindings with distinct fresh keys, one after the other, appends them. -/
theorem foldl_set_eq {α β : Type} (f : String × α → β) :
    ∀ (l : List (String × α)) (n : GoMap β),
      (n.map Prod.fst ++ l.map Prod.fst).Nodup →
      l.foldl (fun n kv => GoMap.set n kv.1 (f kv)) n = n ++ l.map (fun kv => (kv.1, f kv)) := by
  intro l
  induction l with
  | nil => intro n _; simp
  | cons x xs ih =>
      intro n h
      have hx : x.1 ∉ n.map Prod.fst := by
        intro hm
        have := (List.nodup_append.mp h).2.2
        exact this hm (by simp)
      simp only [List.foldl_cons, GoMap.set_of_not_mem n x.1 (f x) hx]
      rw [ih]
      · simp
      · simpa [List.append_assoc] using h

/-! ## The loop over the properties -/

theorem propertiesLoop_ok (synth : Param → Option (String × Option Err))
    (child : String × Json → String) :
    ∀ (l : List (String × Json)) (n : GoMap String),
      (∀ kv ∈ l, (UnpackTo decodeParam (some kv.2) {}).2 = none
        ∧ synth (UnpackTo decodeParam (some kv.2) {}).1 = some (child kv, none)) →
      propertiesLoop synth l n
        = some (l.foldl (fun n kv => GoMap.set n kv.1 (child kv)) n, none) := by
  intro l
  induction l with
  | nil => intro n _; rfl
  | cons x xs ih =>
      intro n h
      obtain ⟨k, raw⟩ := x
      have hx := h (k, raw) (List.mem_cons_self _ _)
      simp only [propertiesLoop, hx.1, hx.2, List.foldl_cons]
      exact ih _ (fun kv hkv => h kv (List.mem_cons_of_mem _ hkv))

theorem propertiesLoop_inv (synth : Param → Option (String × Option Err)) :
    ∀ (l : List (String × Json)) (n n' : GoMap String),
      propertiesLoop synth l n = some (n', none) →
      ∀ kv ∈ l, (UnpackTo decodeParam (some kv.2) {}).2 = none
        ∧ ∃ c, synth (UnpackTo decodeParam (some kv.2) {}).1 = some (c, none) := by
  intro l
  induction l with
  | nil => intro n n' _ kv hkv; simp at hkv
  | cons x xs ih =>
      intro n n' h kv hkv
      obtain ⟨k, raw⟩ := x
      simp only [propertiesLoop] at h
      split at h
      · simp at h
      · rename_i hdec
        split at h
        · simp at h
        · simp at h
        · rename_i c hs
          rcases List.mem_cons.mp hkv with rfl | hkv
          · exact ⟨hdec, c, hs⟩
          · exact ih _ _ h kv hkv

/-- When every property is processed to the end and one of them fails, the
loop stops with the error of a property: its decode error or the error its
synthesis returned. -/
theorem propertiesLoop_err (synth : Param → Option (String × Option Err)) :
    ∀ (l : List (String × Json)) (n : GoMap String),
      (∀ kv ∈ l, (UnpackTo decodeParam (some kv.2) {}).2 ≠ none
        ∨ synth (UnpackTo decodeParam (some kv.2) {}).1 ≠ none) →
      (∃ kv ∈ l, (UnpackTo decodeParam (some kv.2) {}).2 ≠ none
        ∨ ∃ c e, synth (UnpackTo decodeParam (some kv.2) {}).1 = some (c, some e)) →
      ∃ n' e, propertiesLoop synth l n = some (n', some e)
        ∧ ∃ kv ∈ l, (UnpackTo decodeParam (some kv.2) {}).2 = some e
          ∨ ∃ c, synth (UnpackTo decodeParam (some kv.2) {}).1 = some (c, some e) := by
  intro l
  induction l with
  | nil => intro n _ h; simp at h
  | cons x xs ih =>
      intro n hall hex
      obtain ⟨k, raw⟩ := x
      simp only [propertiesLoop]
      cases hdec : (UnpackTo decodeParam (some raw) {}).2 with
      | some e =>
          exact ⟨n, e, rfl, (k, raw), List.mem_cons_self _ _, Or.inl hdec⟩
      | none =>
          have hx := hall (k, raw) (List.mem_cons_self _ _)
          simp only [hdec, ne_eq, not_true_eq_false, false_or] at hx
          cases hs : synth (UnpackTo decodeParam (some raw) {}).1 with
          | none => exact absurd hs hx
          | some r =>
              obtain ⟨c, oe⟩ := r
              cases oe with
              | some e =>
                  exact ⟨n, e, rfl, (k, raw), List.mem_cons_self _ _, Or.inr ⟨c, hs⟩⟩
              | none =>
                  have hex' : ∃ kv ∈ xs, (UnpackTo decodeParam (some kv.2) {}).2 ≠ none
                      ∨ ∃ c e, synth (UnpackTo decodeParam (some kv.2) {}).1 = some (c, some e) := by
                    obtain ⟨kv, hkv, hq⟩ := hex
                    rcases List.mem_cons.mp hkv with rfl | hkv
                    · rcases hq with hq | ⟨c', e', hq⟩
                      · exact absurd hdec hq
                      · rw [hs] at hq; simp at hq
                    · exact ⟨kv, hkv, hq⟩
                  obtain ⟨n', e, h1, kv, hkv, h2⟩ :=
                    ih (GoMap.set n k c) (fun kv hkv => hall kv (List.mem_cons_of_mem _ hkv)) hex'
                  exact ⟨n', e, h1, kv, List.mem_cons_of_mem _ hkv, h2⟩

/-! ## The map encoder -/

theorem encodeMembers_ok (cc : String × String → String) :
    ∀ l : List (String × String), (∀ kv ∈ l, compactRaw kv.2 = some (cc kv)) →
      encodeMembers l = some (l.map (fun kv => appendString kv.1 ++ ":" ++ cc kv)) := by
  intro l
  induction l with
  | nil => intro _; rfl
  | cons x xs ih =>
      intro h
      obtain ⟨k, v⟩ := x
      have hx := h (k, v) (List.mem_cons_self _ _)
      simp only at hx
      simp only [encodeMembers, hx, ih (fun kv hkv => h kv (List.mem_cons_of_mem _ hkv))]
      rfl

theorem encodeMembers_none :
    ∀ l : List (String × String), (∃ kv ∈ l, compactRaw kv.2 = none) → encodeMembers l = none := by
  intro l
  induction l with
  | nil => intro h; simp at h
  | cons x xs ih =>
      intro h
      obtain ⟨k, v⟩ := x
      simp only [encodeMembers]
      cases hc : compactRaw v with
      | none => rfl
      | some cv =>
          obtain ⟨kv, hkv, hq⟩ := h
          rcases List.mem_cons.mp hkv with rfl | hkv
          · simp only at hq; rw [hc] at hq; simp at hq
          · simp [ih ⟨kv, hkv, hq⟩]

theorem appendCompact_isSome : ∀ (cs : List Char) (s : Scanner),
    (appendCompact s cs).isSome = scanValidFrom s cs := by
  intro cs
  induction cs with
  | nil => intro s; simp only [appendCompact, scanValidFrom]; split <;> simp_all
  | cons c cs ih =>
      intro s
      simp only [appendCompact, scanValidFrom]
      split
      · rfl
      · simp [ih]

/-- A `RawMessage` is encoded without error exactly when its text is valid JSON. -/
theorem compactRaw_isSome (text : String) : (compactRaw text).isSome = Valid text := by
  simp [compactRaw, Valid, appendCompact_isSome]

theorem deferred_object (p : Param) (format ret : String) (ht : p.Typ = ETypeObject) :
    deferred p format ret = ret := by
  have e1 : ETypeObject ≠ ETypeArray := by decide
  have e2 : ETypeObject ≠ ETypeString := by decide
  have e3 : ETypeObject ≠ EFormatJSON := by decide
  simp [deferred, ht, e1, e2, e3]

/-- The object case of the type switch, with the deferred function applied. -/
theorem GetDefault_object_eq (ord : GoMap Json → List (String × Json)) (fuel : Nat) (p : Param)
    (refs : GoMap Json) (format : String)
    (hD : p.Default = "") (hR : p.Ref = "") (hS : p.Schema.Ref = "") (hT : p.Typ = ETypeObject) :
    GetDefault ord (fuel + 1) p refs format
      = if p.Properties.isNone then some ("\x7b\x7d", none)
        else match (UnpackToMap p.Properties).2 with
          | some e => some ("", some e)
          | none =>
              match propertiesLoop (fun np => GetDefault ord fuel np refs format)
                  (ord (UnpackToMap p.Properties).1) [] with
              | none => none
              | some (_, some e) => some ("", some e)
              | some (n, none) => some (Marshal n) := by
  have e1 : ETypeObject ≠ ETypeString := by decide
  have e2 : ETypeObject ≠ ETypeBoolean := by decide
  have e3 : ETypeObject ≠ ETypeInteger := by decide
  have e4 : ETypeObject ≠ ETypeArray := by decide
  rw [GetDefault]
  simp only [hD, hR, hS, hT, e1, e2, e3, e4, ne_eq, not_true_eq_false, if_false, if_true]
  split
  · simp [deferred_object p _ _ hT]
  · split
    · simp [deferred_object p _ _ hT]
    · split
      · rfl
      · simp [deferred_object p _ _ hT]
      · simp [deferred_object p _ _ hT]

/-! ## Object-typed parameters -/

/-- The map encoder does not depend on the order of the bindings it is given. -/
theorem Marshal_perm (n1 n2 : GoMap String) (hp : n1.Perm n2)
    (hn : (n1.map Prod.fst).Nodup) : Marshal n1 = Marshal n2 := by
  simp only [Marshal, sortByKey_congr n1 n2 hp hn]

/-- The object case when every property decodes and synthesizes without error:
the properties, each bound to its child text, go through the map encoder. -/
theorem GetDefault_object_ok (ord : GoMap Json → List (String × Json)) (fuel : Nat) (p : Param)
    (refs : GoMap Json) (format : String)
    (hD : p.Default = "") (hR : p.Ref = "") (hS : p.Schema.Ref = "") (hT : p.Typ = ETypeObject)
    (hP : p.Properties ≠ none) (hM : (UnpackToMap p.Properties).2 = none)
    (hord : (ord (UnpackToMap p.Properties).1).Perm (UnpackToMap p.Properties).1)
    (child : String × Json → String)
    (hchild : ∀ kv ∈ (UnpackToMap p.Properties).1,
      (UnpackTo decodeParam (some kv.2) {}).2 = none
      ∧ GetDefault ord fuel (UnpackTo decodeParam (some kv.2) {}).1 refs format
          = some (child kv, none)) :
    GetDefault ord (fuel + 1) p refs format
      = some (Marshal ((UnpackToMap p.Properties).1.map (fun kv => (kv.1, child kv)))) := by
  have hP' : p.Properties.isNone = false := by
    cases hp : p.Properties with
    | none => exact absurd hp hP
    | some j => rfl
  rw [GetDefault_object_eq ord fuel p refs format hD hR hS hT]
  simp only [hP', hM]
  have hloop := propertiesLoop_ok (fun np => GetDefault ord fuel np refs format) child
    (ord (UnpackToMap p.Properties).1) [] (fun kv hkv => hchild kv (hord.subset hkv))
  have hnd : ((ord (UnpackToMap p.Properties).1).map Prod.fst).Nodup :=
    (hord.map Prod.fst).nodup_iff.mpr (UnpackToMap_nodup p.Properties)
  rw [foldl_set_eq child _ [] (by simpa using hnd)] at hloop
  simp only [hloop, List.nil_append]
  have hk : ((ord (UnpackToMap p.Properties).1).map (fun kv => (kv.1, child kv))).map Prod.fst
      = (ord (UnpackToMap p.Properties).1).map Prod.fst := by
    simp [List.map_map, Function.comp_def]
  rw [Marshal_perm _ _ (hord.map _) (by rw [hk]; exact hnd)]
  simp

/-- The text `json.Marshal` returns for bindings whose values are all valid JSON. -/
theorem Marshal_valid (n : GoMap String) (hv : ∀ kv ∈ n, Valid kv.2 = true) :
    Marshal n
      = ("\x7b" ++ ",".intercalate ((sortByKey n).map
          (fun kv => appendString kv.1 ++ ":" ++ (compactRaw kv.2).getD "")) ++ "\x7d", none) := by
  have h := encodeMembers_ok (fun kv => (compactRaw kv.2).getD "") (sortByKey n) (by
    intro kv hkv
    have hval := hv kv ((sortByKey_perm n).subset hkv)
    rw [← compactRaw_isSome] at hval
    obtain ⟨v, hv'⟩ := Option.isSome_iff_exists.mp hval
    simp [hv'])
  simp only [Marshal, h]

/-- The map encoder fails as soon as one value is not valid JSON. -/
theorem Marshal_invalid (n : GoMap String) (hv : ∃ kv ∈ n, Valid kv.2 = false) :
    Marshal n = ("", some Err.marshaler) := by
  have h := encodeMembers_none (sortByKey n) (by
    obtain ⟨kv, hkv, hval⟩ := hv
    refine ⟨kv, (sortByKey_perm n).symm.subset hkv, ?_⟩
    rw [← compactRaw_isSome] at hval
    cases hc : compactRaw kv.2 with
    | none => rfl
    | some v => rw [hc] at hval; simp at hval)
  simp only [Marshal, h]

/-! ## What compaction does to a text -/

/-- A scanner that has recorded an error rejects every text. -/
theorem appendCompact_dead (s : Scanner) (hs : s.err = true) (hstep : s.step = StepFn.stateError) :
    ∀ cs, appendCompact s cs = none := by
  intro cs
  cases cs with
  | nil => simp [appendCompact, Scanner.eofIsError, hs]
  | cons c cs => simp [appendCompact, Scanner.doStep, hstep]

theorem error_not_space (s : Scanner) :
    s.error.2.geSkipSpace = false ∨ s.error.2 = ScanOp.scanError
      ∨ (s.error.1.err = true ∧ s.error.1.step = StepFn.stateError) :=
  Or.inr (Or.inl rfl)

theorem stateEndTop_not_space (s : Scanner) (c : Char) (hc : isSpace c = false) :
    (stateEndTop s c).2.geSkipSpace = false ∨ (stateEndTop s c).2 = ScanOp.scanError
      ∨ ((stateEndTop s c).1.err = true ∧ (stateEndTop s c).1.step = StepFn.stateError) := by
  simp [stateEndTop, hc, Scanner.error]

theorem stateEndValue_not_space (s : Scanner) (c : Char) (hc : isSpace c = false) :
    (stateEndValue s c).2.geSkipSpace = false ∨ (stateEndValue s c).2 = ScanOp.scanError
      ∨ ((stateEndValue s c).1.err = true ∧ (stateEndValue s c).1.step = StepFn.stateError) := by
  unfold stateEndValue
  split
  · exact stateEndTop_not_space _ c hc
  · simp only [hc, Bool.false_eq_true, if_false]
    split <;> (repeat' split) <;> simp [ScanOp.geSkipSpace, Scanner.error]

theorem stateBeginValue_not_space (s : Scanner) (c : Char) (hc : isSpace c = false) :
    (stateBeginValue s c).2.geSkipSpace = false ∨ (stateBeginValue s c).2 = ScanOp.scanError
      ∨ ((stateBeginValue s c).1.err = true
          ∧ (stateBeginValue s c).1.step = StepFn.stateError) := by
  unfold stateBeginValue
  simp only [hc, Bool.false_eq_true, if_false, Scanner.pushParseState]
  (repeat' split) <;> simp [ScanOp.geSkipSpace, Scanner.error]

theorem stateBeginString_not_space (s : Scanner) (c : Char) (hc : isSpace c = false) :
    (stateBeginString s c).2.geSkipSpace = false ∨ (stateBeginString s c).2 = ScanOp.scanError
      ∨ ((stateBeginString s c).1.err = true
          ∧ (stateBeginString s c).1.step = StepFn.stateError) := by
  unfold stateBeginString
  simp only [hc, Bool.false_eq_true, if_false]
  (repeat' split) <;> simp [ScanOp.geSkipSpace, Scanner.error]

theorem state0_not_space (s : Scanner) (c : Char) (hc : isSpace c = false) :
    (state0 s c).2.geSkipSpace = false ∨ (state0 s c).2 = ScanOp.scanError
      ∨ ((state0 s c).1.err = true ∧ (state0 s c).1.step = StepFn.stateError) := by
  unfold state0
  split
  · simp [ScanOp.geSkipSpace]
  · split
    · simp [ScanOp.geSkipSpace]
    · exact stateEndValue_not_space _ c hc

theorem stateESign_not_space (s : Scanner) (c : Char) :
    (stateESign s c).2.geSkipSpace = false ∨ (stateESign s c).2 = ScanOp.scanError
      ∨ ((stateESign s c).1.err = true ∧ (stateESign s c).1.step = StepFn.stateError) := by
  unfold stateESign
  split <;> simp [ScanOp.geSkipSpace, Scanner.error]

/-- A step on a rune that is not white space answers below `scanSkipSpace`,
or answers `scanError`, or leaves the scanner with an error recorded. -/
theorem doStep_not_space (s : Scanner) (c : Char) (hc : isSpace c = false) :
    (s.doStep c).2.geSkipSpace = false ∨ (s.doStep c).2 = ScanOp.scanError
      ∨ ((s.doStep c).1.err = true ∧ (s.doStep c).1.step = StepFn.stateError) := by
  unfold Scanner.doStep
  split
  · exact stateBeginValue_not_space s c hc
  · simp only [hc, Bool.false_eq_true, if_false]
    split
    · exact stateEndValue_not_space _ c hc
    · exact stateBeginValue_not_space s c hc
  · simp only [hc, Bool.false_eq_true, if_false]
    split
    · exact stateEndValue_not_space _ c hc
    · exact stateBeginString_not_space s c hc
  · exact stateBeginString_not_space s c hc
  · exact stateEndValue_not_space s c hc
  · exact stateEndTop_not_space s c hc
  · (repeat' split) <;> simp [ScanOp.geSkipSpace, Scanner.error]
  · (repeat' split) <;> simp [ScanOp.geSkipSpace, Scanner.error]
  · (repeat' split) <;> simp [ScanOp.geSkipSpace, Scanner.error]
  · (repeat' split) <;> simp [ScanOp.geSkipSpace, Scanner.error]
  · split
    · simp [ScanOp.geSkipSpace]
    · exact state0_not_space s c hc
  · exact state0_not_space s c hc
  · (repeat' split) <;> simp [ScanOp.geSkipSpace, Scanner.error]
  · split
    · simp [ScanOp.geSkipSpace]
    · split
      · simp [ScanOp.geSkipSpace]
      · exact stateEndValue_not_space s c hc
  · split
    · simp [ScanOp.geSkipSpace]
    · exact stateESign_not_space s c
  · exact stateESign_not_space s c
  · split
    · simp [ScanOp.geSkipSpace]
    · exact stateEndValue_not_space s c hc
  · simp [ScanOp.geSkipSpace, Scanner.error]
  · (repeat' split) <;> simp [ScanOp.geSkipSpace, Scanner.error]
  · simp

theorem hexDigit_not_space (n : Nat) : isSpace (hexDigit n) = false := by
  unfold hexDigit
  rcases Nat.lt_or_ge n 16 with h | h
  · interval_cases n <;> decide
  · have hlen : "0123456789abcdef".data.length ≤ n := h
    rw [List.getD_eq_default _ _ hlen]
    decide

/-- The escapes that compaction writes hold no white space. -/
theorem compactEscape_not_space (c : Char) (e : List Char) (h : compactEscape c = some e) :
    e.filter (fun x => !isSpace x) = e := by
  unfold compactEscape at h
  split at h
  · simp only [Option.some.injEq] at h
    subst h
    have h1 := hexDigit_not_space (c.toNat / 16)
    have h2 := hexDigit_not_space (c.toNat % 16)
    have e1 : isSpace '\\' = false := by decide
    have e2 : isSpace 'u' = false := by decide
    have e3 : isSpace '0' = false := by decide
    simp [escapeU00, List.filter, h1, h2, e1, e2, e3]
  · split at h
    · simp only [Option.some.injEq] at h
      subst h
      decide
    · split at h
      · simp only [Option.some.injEq] at h
        subst h
        decide
      · simp at h

/-- White space is never escaped. -/
theorem compactEscape_space (c : Char) (h : isSpace c = true) : compactEscape c = none := by
  have hc : ((c = ' ' ∨ c = '\t') ∨ c = '\r') ∨ c = '\n' := by
    simpa [isSpace] using h
  rcases hc with ((rfl | rfl) | rfl) | rfl <;> decide

/-- Compaction drops white space only and rewrites only the runes it escapes:
with the white space left out on both sides, the compacted text is the text
in which every escaped rune is replaced by its escape. -/
theorem appendCompact_filter : ∀ (cs : List Char) (s : Scanner) (out : List Char),
    appendCompact s cs = some out →
    out.filter (fun c => !isSpace c)
      = (cs.filter (fun c => !isSpace c)).flatMap (fun c => (compactEscape c).getD [c]) := by
  intro cs
  induction cs with
  | nil =>
      intro s out h
      simp only [appendCompact] at h
      split at h
      · simp at h
      · simp only [Option.some.injEq] at h
        subst h
        rfl
  | cons c cs ih =>
      intro s out h
      simp only [appendCompact] at h
      split at h
      · simp at h
      · rename_i hne
        cases hrest : appendCompact (s.doStep c).1 cs with
        | none => rw [hrest] at h; simp at h
        | some rest =>
            rw [hrest] at h
            simp only [Option.map_some', Option.some.injEq] at h
            subst h
            have hih := ih _ _ hrest
            cases hsp : isSpace c with
            | true =>
                have hesc := compactEscape_space c hsp
                simp only [hesc, List.filter_append, hih, List.filter_cons, hsp, Bool.not_true,
                  Bool.false_eq_true, if_false]
                split <;> simp [hsp]
            | false =>
                cases hesc : compactEscape c with
                | some e =>
                    simp only [List.filter_append, hih, List.filter_cons, hsp, Bool.not_false,
                      if_true, List.flatMap_cons, hesc, Option.getD_some,
                      compactEscape_not_space c e hesc]
                | none =>
                    rcases doStep_not_space s c hsp with hge | herr | hdead
                    · simp only [hge, Bool.false_eq_true, if_false, List.filter_append, hih,
                        List.filter_cons, hsp, Bool.not_false, if_true, List.flatMap_cons, hesc,
                        Option.getD_none, List.filter_nil]
                    · exact absurd herr hne
                    · rw [appendCompact_dead _ hdead.1 hdead.2] at hrest
                      simp at hrest

/-- Compaction leaves a text as it is when the text holds no white space and
no rune that is escaped. -/
theorem appendCompact_plain : ∀ (cs : List Char) (s : Scanner) (out : List Char),
    (∀ c ∈ cs, isSpace c = false ∧ compactEscape c = none) →
    appendCompact s cs = some out → out = cs := by
  intro cs
  induction cs with
  | nil =>
      intro s out _ h
      simp only [appendCompact] at h
      split at h
      · simp at h
      · simp only [Option.some.injEq] at h
        exact h.symm
  | cons c cs ih =>
      intro s out hp h
      have hc := hp c (List.mem_cons_self _ _)
      simp only [appendCompact] at h
      split at h
      · simp at h
      · rename_i hne
        cases hrest : appendCompact (s.doStep c).1 cs with
        | none => rw [hrest] at h; simp at h
        | some rest =>
            rw [hrest] at h
            simp only [Option.map_some', Option.some.injEq] at h
            subst h
            have hih := ih _ _ (fun x hx => hp x (List.mem_cons_of_mem _ hx)) hrest
            rcases doStep_not_space s c hc.1 with hge | herr | hdead
            · simp [hc.2, hge, hih]
            · exact absurd herr hne
            · rw [appendCompact_dead _ hdead.1 hdead.2] at hrest
              simp at hrest

/-- The encoding of a `RawMessage` whose text holds no white space and none of
`<`, `>`, `&`, U+2028, U+2029 is the text itself. -/
theorem compactRaw_plain (text v : String)
    (hp : ∀ c ∈ text.data, isSpace c = false ∧ compactEscape c = none)
    (h : compactRaw text = some v) : v = text := by
  unfold compactRaw at h
  cases hc : appendCompact newScanner text.data with
  | none => rw [hc] at h; simp at h
  | some out =>
      rw [hc] at h
      simp only [Option.map_some', Option.some.injEq] at h
      subst h
      rw [appendCompact_plain _ _ _ hp hc]

/-- The encoding of a `RawMessage`, white space left out on both sides, is the
text with `<`, `>`, `&`, U+2028, U+2029 replaced by their escapes. -/
theorem compactRaw_filter (text v : String) (h : compactRaw text = some v) :
    v.data.filter (fun c => !isSpace c)
      = (text.data.filter (fun c => !isSpace c)).flatMap
          (fun c => (compactEscape c).getD [c]) := by
  unfold compactRaw at h
  cases hc : appendCompact newScanner text.data with
  | none => rw [hc] at h; simp at h
  | some out =>
      rw [hc] at h
      simp only [Option.map_some', Option.some.injEq] at h
      subst h
      exact appendCompact_filter _ _ _ hc

/-- The loop over the properties stops at the first property, in visiting
order, that fails to decode or whose synthesis returns an error, and answers
that error. -/
theorem propertiesLoop_first_failure (synth : Param → Option (String × Option Err))
    (kv : String × Json) (post : List (String × Json)) (e : Err)
    (hkv : (UnpackTo decodeParam (some kv.2) {}).2 = some e
      ∨ ((UnpackTo decodeParam (some kv.2) {}).2 = none
          ∧ ∃ c, synth (UnpackTo decodeParam (some kv.2) {}).1 = some (c, some e))) :
    ∀ (pre : List (String × Json)) (n : GoMap String),
      (∀ x ∈ pre, (UnpackTo decodeParam (some x.2) {}).2 = none
        ∧ ∃ c, synth (UnpackTo decodeParam (some x.2) {}).1 = some (c, none)) →
      ∃ n', propertiesLoop synth (pre ++ kv :: post) n = some (n', some e) := by
  intro pre
  induction pre with
  | nil =>
      intro n _
      obtain ⟨k, raw⟩ := kv
      simp only [List.nil_append, propertiesLoop]
      rcases hkv with h | ⟨h, c, hs⟩
      · simp only at h
        simp [h]
      · simp only at h hs
        simp [h, hs]
  | cons x xs ih =>
      intro n h
      obtain ⟨k, raw⟩ := x
      obtain ⟨hd, c, hs⟩ := h (k, raw) (List.mem_cons_self _ _)
      simp only at hd hs
      simp only [List.cons_append, propertiesLoop, hd, hs]
      exact ih _ (fun y hy => h y (List.mem_cons_of_mem _ hy))

/-- C3 (amended).  An object-typed parameter without default and references:
(1) with no property map it synthesizes to the empty object literal; (2) in
the JSON context, when the property map decodes and every property decodes
and synthesizes without error to a valid JSON text, the result is an object
literal `key:value,...` whose keys are the property names, each once, and
whose value for the key `k` is the child text of `k` compacted as
`json.Marshal` compacts a `RawMessage`: white space left out, the value is the
child text with `<`, `>`, `&`, U+2028, U+2029 replaced by their escapes, and
it is the child text itself when that holds no white space and none of these
runes; (3) a property map that does not decode returns its decode error;
(4) the first property, in visiting order, that fails to decode or whose
synthesis returns an error ends the synthesis with that error; (5) so the
error of a property's synthesis is returned when every other property decodes
and synthesizes without error; (6) and when the synthesis of every property
that decodes returns and some property fails, the result is the error of a
property: its decode error or the error of its synthesis. -/
theorem GetDefault_object (ord : GoMap Json → List (String × Json))
    (hord : ∀ m, (ord m).Perm m) (fuel : Nat) (p : Param) (refs : GoMap Json)
    (hD : p.Default = "") (hR : p.Ref = "") (hS : p.Schema.Ref = "") (hT : p.Typ = ETypeObject) :
    (p.Properties = none →
      ∀ format, GetDefault ord (fuel + 1) p refs format = some ("\x7b\x7d", none))
    ∧ (p.Properties ≠ none → (UnpackToMap p.Properties).2 = none →
        (∀ kv ∈ (UnpackToMap p.Properties).1,
          (UnpackTo decodeParam (some kv.2) {}).2 = none
          ∧ ∃ child, GetDefault ord fuel (UnpackTo decodeParam (some kv.2) {}).1 refs EFormatJSON
                = some (child, none) ∧ Valid child = true) →
        ∃ members : List (String × String),
          GetDefault ord (fuel + 1) p refs EFormatJSON
            = some ("\x7b" ++ ",".intercalate
                (members.map (fun kv => appendString kv.1 ++ ":" ++ kv.2)) ++ "\x7d", none)
          ∧ (members.map Prod.fst).Perm ((UnpackToMap p.Properties).1.map Prod.fst)
          ∧ ∀ kv ∈ (UnpackToMap p.Properties).1, ∃ child v,
              GetDefault ord fuel (UnpackTo decodeParam (some kv.2) {}).1 refs EFormatJSON
                = some (child, none)
              ∧ compactRaw child = some v ∧ (kv.1, v) ∈ members
              ∧ v.data.filter (fun c => !isSpace c)
                  = (child.data.filter (fun c => !isSpace c)).flatMap
                      (fun c => (compactEscape c).getD [c])
              ∧ ((∀ c ∈ child.data, isSpace c = false ∧ compactEscape c = none) → v = child))
    ∧ (∀ format e, p.Properties ≠ none → (UnpackToMap p.Properties).2 = some e →
        GetDefault ord (fuel + 1) p refs format = some ("", some e))
    ∧ (∀ format pre kv post e, p.Properties ≠ none → (UnpackToMap p.Properties).2 = none →
        ord (UnpackToMap p.Properties).1 = pre ++ kv :: post →
        (∀ x ∈ pre, (UnpackTo decodeParam (some x.2) {}).2 = none
          ∧ ∃ c, GetDefault ord fuel (UnpackTo decodeParam (some x.2) {}).1 refs format
              = some (c, none)) →
        ((UnpackTo decodeParam (some kv.2) {}).2 = some e
          ∨ ((UnpackTo decodeParam (some kv.2) {}).2 = none
              ∧ ∃ c, GetDefault ord fuel (UnpackTo decodeParam (some kv.2) {}).1 refs format
                  = some (c, some e))) →
        GetDefault ord (fuel + 1) p refs format = some ("", some e))
    ∧ (∀ format kv c e, p.Properties ≠ none → (UnpackToMap p.Properties).2 = none →
        kv ∈ (UnpackToMap p.Properties).1 →
        (UnpackTo decodeParam (some kv.2) {}).2 = none →
        GetDefault ord fuel (UnpackTo decodeParam (some kv.2) {}).1 refs format
          = some (c, some e) →
        (∀ x ∈ (UnpackToMap p.Properties).1, x ≠ kv →
          (UnpackTo decodeParam (some x.2) {}).2 = none
          ∧ ∃ c, GetDefault ord fuel (UnpackTo decodeParam (some x.2) {}).1 refs format
              = some (c, none)) →
        GetDefault ord (fuel + 1) p refs format = some ("", some e))
    ∧ (∀ format, p.Properties ≠ none → (UnpackToMap p.Properties).2 = none →
        (∀ kv ∈ (UnpackToMap p.Properties).1,
          (UnpackTo decodeParam (some kv.2) {}).2 = none →
          GetDefault ord fuel (UnpackTo decodeParam (some kv.2) {}).1 refs format ≠ none) →
        (∃ kv ∈ (UnpackToMap p.Properties).1,
          (UnpackTo decodeParam (some kv.2) {}).2 ≠ none
          ∨ ∃ c e, GetDefault ord fuel (UnpackTo decodeParam (some kv.2) {}).1 refs format
              = some (c, some e)) →
        ∃ kv ∈ (UnpackToMap p.Properties).1, ∃ e,
          ((UnpackTo decodeParam (some kv.2) {}).2 = some e
            ∨ ∃ c, GetDefault ord fuel (UnpackTo decodeParam (some kv.2) {}).1 refs format
                = some (c, some e))
          ∧ GetDefault ord (fuel + 1) p refs format = some ("", some e)) := by
  have hisNone : p.Properties ≠ none → p.Properties.isNone = false := by
    intro hP
    cases hp : p.Properties with
    | none => exact absurd hp hP
    | some j => rfl
  have hfirst : ∀ format pre kv post e, p.Properties ≠ none →
      (UnpackToMap p.Properties).2 = none →
      ord (UnpackToMap p.Properties).1 = pre ++ kv :: post →
      (∀ x ∈ pre, (UnpackTo decodeParam (some x.2) {}).2 = none
        ∧ ∃ c, GetDefault ord fuel (UnpackTo decodeParam (some x.2) {}).1 refs format
            = some (c, none)) →
      ((UnpackTo decodeParam (some kv.2) {}).2 = some e
        ∨ ((UnpackTo decodeParam (some kv.2) {}).2 = none
            ∧ ∃ c, GetDefault ord fuel (UnpackTo decodeParam (some kv.2) {}).1 refs format
                = some (c, some e))) →
      GetDefault ord (fuel + 1) p refs format = some ("", some e) := by
    intro format pre kv post e hP hM hsplit hpre hkv
    obtain ⟨n', hloop⟩ := propertiesLoop_first_failure
      (fun np => GetDefault ord fuel np refs format) kv post e hkv pre [] hpre
    rw [GetDefault_object_eq ord fuel p refs format hD hR hS hT]
    simp only [hisNone hP, hM, hsplit, hloop]
    simp
  refine ⟨?_, ?_, ?_, hfirst, ?_, ?_⟩
  · intro hP format
    rw [GetDefault_object_eq ord fuel p refs format hD hR hS hT]
    simp [hP]
  · intro hP hM hch
    let child : String × Json → String := fun kv =>
      ((GetDefault ord fuel (UnpackTo decodeParam (some kv.2) {}).1 refs EFormatJSON).getD
        ("", none)).1
    have hchild : ∀ kv ∈ (UnpackToMap p.Properties).1,
        (UnpackTo decodeParam (some kv.2) {}).2 = none
        ∧ GetDefault ord fuel (UnpackTo decodeParam (some kv.2) {}).1 refs EFormatJSON
            = some (child kv, none) := by
      intro kv hkv
      obtain ⟨h1, c, h2, _⟩ := hch kv hkv
      exact ⟨h1, by simp [child, h2]⟩
    have hvalid : ∀ kv ∈ (UnpackToMap p.Properties).1, Valid (child kv) = true := by
      intro kv hkv
      obtain ⟨_, c, h2, h3⟩ := hch kv hkv
      simpa [child, h2] using h3
    have hres := GetDefault_object_ok ord fuel p refs EFormatJSON hD hR hS hT hP hM (hord _)
      child hchild
    rw [Marshal_valid _ (by
      intro kv hkv
      obtain ⟨x, hx, rfl⟩ := List.mem_map.mp hkv
      exact hvalid x hx)] at hres
    refine ⟨(sortByKey ((UnpackToMap p.Properties).1.map (fun kv => (kv.1, child kv)))).map
      (fun kv => (kv.1, (compactRaw kv.2).getD "")), ?_, ?_, ?_⟩
    · rw [hres]
      simp [List.map_map, Function.comp_def]
    · have h1 := (sortByKey_perm
        ((UnpackToMap p.Properties).1.map (fun kv => (kv.1, child kv)))).map Prod.fst
      simpa [List.map_map, Function.comp_def] using h1
    · intro kv hkv
      have hv := hvalid kv hkv
      rw [← compactRaw_isSome] at hv
      obtain ⟨v, hv'⟩ := Option.isSome_iff_exists.mp hv
      refine ⟨child kv, v, (hchild kv hkv).2, hv', ?_, compactRaw_filter _ _ hv',
        fun hp => compactRaw_plain _ _ hp hv'⟩
      refine List.mem_map.mpr ⟨(kv.1, child kv), ?_, by simp [hv']⟩
      exact (sortByKey_perm _).symm.subset (List.mem_map.mpr ⟨kv, hkv, rfl⟩)
  · intro format e hP hM
    rw [GetDefault_object_eq ord fuel p refs format hD hR hS hT]
    simp [hisNone hP, hM]
  · intro format kv c e hP hM hkv hdec hsyn hothers
    have hmem : kv ∈ ord (UnpackToMap p.Properties).1 := (hord _).symm.subset hkv
    obtain ⟨pre, post, hsplit⟩ := List.append_of_mem hmem
    have hnd : (ord (UnpackToMap p.Properties).1).Nodup :=
      List.Nodup.of_map Prod.fst
        ((hord _).map Prod.fst |>.nodup_iff.mpr (UnpackToMap_nodup p.Properties))
    rw [hsplit] at hnd
    have hnotin : kv ∉ pre := by
      intro hin
      have := (List.nodup_append.mp hnd).2.2
      exact this hin (List.mem_cons_self _ _)
    refine hfirst format pre kv post e hP hM hsplit ?_ (Or.inr ⟨hdec, c, hsyn⟩)
    intro x hx
    have hx' : x ∈ (UnpackToMap p.Properties).1 :=
      (hord _).subset (by rw [hsplit]; exact List.mem_append_left _ hx)
    exact hothers x hx' (fun hxe => hnotin (hxe ▸ hx))
  · intro format hP hM hall hex
    obtain ⟨n', e, hloop, kv, hkv, hq⟩ :=
      propertiesLoop_err (fun np => GetDefault ord fuel np refs format)
        (ord (UnpackToMap p.Properties).1) []
        (fun kv hkv => by
          by_cases hd : (UnpackTo decodeParam (some kv.2) {}).2 = none
          · exact Or.inr (hall kv ((hord _).subset hkv) hd)
          · exact Or.inl hd)
        (by
          obtain ⟨kv, hkv, h⟩ := hex
          exact ⟨kv, (hord _).symm.subset hkv, h⟩)
    refine ⟨kv, (hord _).subset hkv, e, hq, ?_⟩
    rw [GetDefault_object_eq ord fuel p refs format hD hR hS hT]
    simp only [hisNone hP, hM, hloop]
    simp

/-- Counterexample to C3 as stated.  The value in the literal is not always
the child text: the property `k` synthesizes to the valid JSON text `"<"`, and
the literal holds the escaped text `"\u003c"`; an integer property with the
default `7` followed by a blank synthesizes to that text, and the literal
holds `7`.  The error returned is not the error of every failing property:
the synthesis of the property `a` (an object whose property map is a JSON
string) returns a type error, the synthesis of the property `b` (an object
with a property of the type `file`) returns a marshaler error, and the object
of `a` and `b` returns the type error when `a` is visited first and the
marshaler error when `b` is visited first; a property `a` that fails to decode
and is visited first hides the error of `b` in the same way. -/
theorem GetDefault_object_value_not_verbatim :
    GetDefault id 1 { Typ := "string", Default := "<" } [] EFormatJSON = some ("\"<\"", none)
    ∧ Valid "\"<\"" = true
    ∧ GetDefault id 2
        { Typ := "object",
          Properties := some (.obj [("k", .obj [("type", .str "string"), ("default", .str "<")])]) }
        [] EFormatJSON
      = some ("\x7b\"k\":\"\\u003c\"\x7d", none)
    ∧ GetDefault id 2
        { Typ := "object",
          Properties := some (.obj [("k", .obj [("type", .str "string"), ("default", .str "<")])]) }
        [] EFormatJSON
      ≠ some ("\x7b" ++ "\"k\"" ++ ":" ++ "\"<\"" ++ "\x7d", none)
    ∧ GetDefault id 1 { Typ := "integer", Default := "7 " } [] EFormatJSON = some ("7 ", none)
    ∧ Valid "7 " = true
    ∧ GetDefault id 2
        { Typ := "object",
          Properties := some (.obj [("k", .obj [("type", .str "integer"), ("default", .str "7 ")])]) }
        [] EFormatJSON
      = some ("\x7b\"k\":7\x7d", none)
    ∧ GetDefault id 2 { Typ := "object", Properties := some (.str "oops") } [] EFormatJSON
      = some ("", some Err.unmarshalType)
    ∧ GetDefault id 2
        { Typ := "object", Properties := some (.obj [("x", .obj [("type", .str "file")])]) }
        [] EFormatJSON
      = some ("", some Err.marshaler)
    ∧ GetDefault id 3
        { Typ := "object",
          Properties := some (.obj
            [("a", .obj [("type", .str "object"), ("properties", .str "oops")]),
             ("b", .obj [("type", .str "object"),
                         ("properties", .obj [("x", .obj [("type", .str "file")])])])]) }
        [] EFormatJSON
      = some ("", some Err.unmarshalType)
    ∧ GetDefault List.reverse 3
        { Typ := "object",
          Properties := some (.obj
            [("a", .obj [("type", .str "object"), ("properties", .str "oops")]),
             ("b", .obj [("type", .str "object"),
                         ("properties", .obj [("x", .obj [("type", .str "file")])])])]) }
        [] EFormatJSON
      = some ("", some Err.marshaler)
    ∧ Err.unmarshalType ≠ Err.marshaler
    ∧ (UnpackTo decodeParam (some (Json.str "oops")) {}).2 = some Err.unmarshalType
    ∧ GetDefault id 3
        { Typ := "object",
          Properties := some (.obj
            [("a", .str "oops"),
             ("b", .obj [("type", .str "object"),
                         ("properties", .obj [("x", .obj [("type", .str "file")])])])]) }
        [] EFormatJSON
      = some ("", some Err.unmarshalType) := by
  decide

/-- Witness of C3: the properties `a: integer` and `b: boolean`, declared as
`b` then `a`, give the literal with `a:0` and `b:false`. -/
theorem GetDefault_object_witness :
    GetDefault id 2
        { Typ := "object",
          Properties := some (.obj [("b", .obj [("type", .str "boolean")]),
                                    ("a", .obj [("type", .str "integer")])]) }
        [] EFormatJSON
      = some ("\x7b\"a\":0,\"b\":false\x7d", none)
    ∧ ∃ members : List (String × String),
        GetDefault id 2
            { Typ := "object",
              Properties := some (.obj [("b", .obj [("type", .str "boolean")]),
                                        ("a", .obj [("type", .str "integer")])]) }
            [] EFormatJSON
          = some ("\x7b" ++ ",".intercalate
              (members.map (fun kv => appendString kv.1 ++ ":" ++ kv.2)) ++ "\x7d", none)
        ∧ (members.map Prod.fst).Perm ["b", "a"] := by
  refine ⟨by decide, ?_⟩
  obtain ⟨members, h1, h2, _⟩ :=
    (GetDefault_object id (fun m => List.Perm.refl m) 1
      { Typ := "object",
        Properties := some (.obj [("b", .obj [("type", .str "boolean")]),
                                  ("a", .obj [("type", .str "integer")])]) }
      [] rfl rfl rfl rfl).2.1 (by simp) rfl (by
        intro kv hkv
        have hm : kv = ("b", Json.obj [("type", .str "boolean")])
            ∨ kv = ("a", Json.obj [("type", .str "integer")]) := by
          simpa [UnpackToMap, decodeMapMembers, GoMap.set] using hkv
        rcases hm with rfl | rfl
        · exact ⟨rfl, "false", by decide, by decide⟩
        · exact ⟨rfl, "0", by decide, by decide⟩)
  exact ⟨members, h1, h2⟩

theorem encodeMembers_some :
    ∀ (l : List (String × String)) (ms : List String), encodeMembers l = some ms →
      ms = l.map (fun kv => appendString kv.1 ++ ":" ++ (compactRaw kv.2).getD "") := by
  intro l
  induction l with
  | nil => intro ms h; simpa [encodeMembers] using h.symm
  | cons x xs ih =>
      intro ms h
      obtain ⟨k, v⟩ := x
      simp only [encodeMembers] at h
      cases hc : compactRaw v with
      | none => rw [hc] at h; simp at h
      | some cv =>
          rw [hc] at h
          cases hr : encodeMembers xs with
          | none => rw [hr] at h; simp at h
          | some out =>
              rw [hr] at h
              simp only [Option.map_some', Option.some.injEq] at h
              rw [← h, ih out hr]
              simp [hc]

/-- C4 (amended).  Whenever `GetDefault` returns a text without error for an
object-typed parameter with a declared property map, the text is an object
literal whose keys are the property names in strictly ascending byte order
(`json.Marshal` sorts the keys of a map): neither the declaration order nor
the order in which `range` visits the properties shows in the result. -/
theorem GetDefault_object_keys_sorted (ord : GoMap Json → List (String × Json))
    (hord : ∀ m, (ord m).Perm m) (fuel : Nat) (p : Param) (refs : GoMap Json) (format : String)
    (hD : p.Default = "") (hR : p.Ref = "") (hS : p.Schema.Ref = "") (hT : p.Typ = ETypeObject)
    (hP : p.Properties ≠ none) (text : String)
    (hres : GetDefault ord (fuel + 1) p refs format = some (text, none)) :
    ∃ members : List (String × String),
      text = "\x7b" ++ ",".intercalate
          (members.map (fun kv => appendString kv.1 ++ ":" ++ kv.2)) ++ "\x7d"
      ∧ members.Pairwise (fun a b => keyLt a.1 b.1 = true)
      ∧ (members.map Prod.fst).Perm ((UnpackToMap p.Properties).1.map Prod.fst) := by
  have hP' : p.Properties.isNone = false := by
    cases hp : p.Properties with
    | none => exact absurd hp hP
    | some j => rfl
  rw [GetDefault_object_eq ord fuel p refs format hD hR hS hT] at hres
  simp only [hP', Bool.false_eq_true, if_false] at hres
  cases hM : (UnpackToMap p.Properties).2 with
  | some e => rw [hM] at hres; simp at hres
  | none =>
    rw [hM] at hres
    simp only at hres
    cases hl : propertiesLoop (fun np => GetDefault ord fuel np refs format)
        (ord (UnpackToMap p.Properties).1) [] with
    | none => rw [hl] at hres; simp at hres
    | some r =>
      obtain ⟨n, oe⟩ := r
      cases oe with
      | some e => rw [hl] at hres; simp at hres
      | none =>
        rw [hl] at hres
        simp only [Option.some.injEq] at hres
        have hinv := propertiesLoop_inv _ _ _ _ hl
        let child : String × Json → String := fun kv =>
          ((GetDefault ord fuel (UnpackTo decodeParam (some kv.2) {}).1 refs format).getD
            ("", none)).1
        have hok := propertiesLoop_ok (fun np => GetDefault ord fuel np refs format) child
          (ord (UnpackToMap p.Properties).1) [] (by
            intro kv hkv
            obtain ⟨h1, c, h2⟩ := hinv kv hkv
            exact ⟨h1, by simp [child, h2]⟩)
        have hnd : ((ord (UnpackToMap p.Properties).1).map Prod.fst).Nodup :=
          ((hord _).map Prod.fst).nodup_iff.mpr (UnpackToMap_nodup p.Properties)
        rw [foldl_set_eq child _ [] (by simpa using hnd), hl] at hok
        simp only [List.nil_append, Option.some.injEq, Prod.mk.injEq, and_true] at hok
        have hkeys : n.map Prod.fst = (ord (UnpackToMap p.Properties).1).map Prod.fst := by
          rw [hok]; simp [List.map_map, Function.comp_def]
        have hndn : (n.map Prod.fst).Nodup := by rw [hkeys]; exact hnd
        simp only [Marshal] at hres
        cases he : encodeMembers (sortByKey n) with
        | none => rw [he] at hres; simp at hres
        | some ms =>
          rw [he] at hres
          simp only [Prod.mk.injEq, and_true] at hres
          have hms := encodeMembers_some _ _ he
          refine ⟨(sortByKey n).map (fun kv => (kv.1, (compactRaw kv.2).getD "")), ?_, ?_, ?_⟩
          · rw [← hres, hms]
            simp [List.map_map, Function.comp_def]
          · exact List.Pairwise.map _ (fun a b h => h) (sortByKey_sorted n hndn)
          · have h1 := (sortByKey_perm n).map Prod.fst
            rw [hkeys] at h1
            have h2 := h1.trans ((hord _).map Prod.fst)
            simpa [List.map_map, Function.comp_def] using h2

/-- Counterexample to C4 as stated: the properties declared as `name` then
`age` come out as `age` then `name`. -/
theorem GetDefault_object_not_declaration_order :
    GetDefault id 2
        { Typ := "object",
          Properties := some (.obj [("name", .obj [("type", .str "string")]),
                                    ("age", .obj [("type", .str "integer")])]) }
        [] EFormatJSON
      = some ("\x7b\"age\":0,\"name\":\"string\"\x7d", none)
    ∧ GetDefault id 2
        { Typ := "object",
          Properties := some (.obj [("name", .obj [("type", .str "string")]),
                                    ("age", .obj [("type", .str "integer")])]) }
        [] EFormatJSON
      ≠ some ("\x7b\"name\":\"string\",\"age\":0\x7d", none) := by
  decide

/-- Witness of C4: the properties declared as `name` then `age`. -/
theorem GetDefault_object_keys_sorted_witness :
    ∃ members : List (String × String),
      "\x7b\"age\":0,\"name\":\"string\"\x7d" = "\x7b" ++ ",".intercalate
          (members.map (fun kv => appendString kv.1 ++ ":" ++ kv.2)) ++ "\x7d"
      ∧ members.Pairwise (fun a b => keyLt a.1 b.1 = true)
      ∧ (members.map Prod.fst).Perm
          ((UnpackToMap (some (.obj [("name", .obj [("type", .str "string")]),
                                     ("age", .obj [("type", .str "integer")])]))).1.map Prod.fst) :=
  GetDefault_object_keys_sorted id (fun m => List.Perm.refl m) 1
    { Typ := "object",
      Properties := some (.obj [("name", .obj [("type", .str "string")]),
                                ("age", .obj [("type", .str "integer")])]) }
    [] EFormatJSON rfl rfl rfl rfl (by simp) _ (by decide)

/-! ## Request unpacking, loading, gaps inside objects, bodies -/

/-- C5, the code at the failing input: a path item whose `get` operation has
the parameter `id` and whose shared parameter is `limit`.  When `range` visits
`get` before `parameters`, the request of `get` carries only its own
parameter `id`; the shared parameter `limit` is missing.  When `parameters`
is visited first the request carries `limit` then `id`. -/
theorem unpackRequest_drops_shared_params :
    ((unpackRequest id (some (.obj
          [("get", .obj [("parameters", .arr [.obj [("name", .str "id"), ("in", .str "path")]])]),
           ("parameters", .arr [.obj [("name", .str "limit"), ("in", .str "query")]])]))).1.map
        (fun r => r.Params.map (fun p => p.Name)) = [["id"]])
    ∧ (unpackRequest id (some (.obj
          [("get", .obj [("parameters", .arr [.obj [("name", .str "id"), ("in", .str "path")]])]),
           ("parameters", .arr [.obj [("name", .str "limit"), ("in", .str "query")]])]))).2 = none
    ∧ ((unpackRequest List.reverse (some (.obj
          [("get", .obj [("parameters", .arr [.obj [("name", .str "id"), ("in", .str "path")]])]),
           ("parameters", .arr [.obj [("name", .str "limit"), ("in", .str "query")]])]))).1.map
        (fun r => r.Params.map (fun p => p.Name)) = [["limit", "id"]]) := by
  decide

/-- C6, the code at the failing inputs: a well-formed document of version
`3.0` is loaded without error, and so is a document of version `2.0` whose
`host` is a number, although `json.Unmarshal` returns an error for it. -/
theorem Load_accepts_wrong_version :
    (Load {} (.ok (.wellFormed (.obj [("swagger", .str "3.0")])))).2 = none
    ∧ (Unmarshal decodeSwagger
          (.wellFormed (.obj [("swagger", .str "2.0"), ("host", .num "5")])) {}).2
        = some Err.unmarshalType
    ∧ (Load {} (.ok (.wellFormed (.obj [("swagger", .str "2.0"), ("host", .num "5")])))).2
        = none := by
  decide

/-- C7, the code at the failing inputs: a dangling reference alone
synthesizes to the empty text without error, but inside an object (next to an
integer property, or as a property of an unknown type) the empty child text
makes `json.Marshal` fail, and `GetDefault` returns that error. -/
theorem GetDefault_object_gap_is_error :
    GetDefault id 2 { Ref := "#/definitions/Missing" } [] EFormatJSON = some ("", none)
    ∧ GetDefault id 3
        { Typ := "object",
          Properties := some (.obj [("a", .obj [("$ref", .str "#/definitions/Missing")]),
                                    ("b", .obj [("type", .str "integer")])]) }
        [] EFormatJSON
      = some ("", some Err.marshaler)
    ∧ GetDefault id 3
        { Typ := "object", Properties := some (.obj [("a", .obj [("type", .str "file")])]) }
        [] EFormatJSON
      = some ("", some Err.marshaler) := by
  decide

/-- C8, the code at the failing input: a body parameter of an unknown type
synthesizes to the empty text; the conversion to `json.RawMessage` is not
nil, so the empty-object literal is not substituted, `json.Indent` fails on
the empty text, and only the blank line is written for the body. -/
theorem writeRequest_empty_body :
    GetDefault id 2 { In := "body", Name := "b", Typ := "file" } [] EFormatJSON = some ("", none)
    ∧ writeBody "" = "\n\n"
    ∧ writeRequest id id 2 {} "" "/p"
        { Method := "post", Params := [{ In := "body", Name := "b", Typ := "file" }] }
      = some ("###\n# .\n# \nPOST http:///p\nContent-Type: application/json\n\n"
          ++ "\n\n" ++ "\n", none) := by
  decide

/-! ## Array-typed and string-typed parameters -/

/-- The array case of the type switch, with the deferred function applied. -/
theorem GetDefault_array_eq (ord : GoMap Json → List (String × Json)) (fuel : Nat) (p : Param)
    (refs : GoMap Json) (format : String)
    (hD : p.Default = "") (hR : p.Ref = "") (hS : p.Schema.Ref = "") (hT : p.Typ = ETypeArray) :
    GetDefault ord (fuel + 1) p refs format
      = some (deferred p format
          (if p.Items.Default ≠ "" then p.Items.Default
           else match p.Items.Enum with
             | e :: _ => e
             | [] => if p.Items.Typ = ETypeInteger then "0" else "string"), none) := by
  have e1 : ETypeArray ≠ ETypeString := by decide
  have e2 : ETypeArray ≠ ETypeBoolean := by decide
  have e3 : ETypeArray ≠ ETypeInteger := by decide
  rw [GetDefault]
  simp only [hD, hR, hS, hT, e1, e2, e3, ne_eq, not_true_eq_false, if_false, if_true]
  by_cases h1 : p.Items.Default = ""
  · cases h2 : p.Items.Enum with
    | nil => by_cases h3 : p.Items.Typ = ETypeInteger <;> simp [h1, h3, ETypeString]
    | cons e es => simp [h1]
  · simp [h1]

/-- C9 (amended).  An array-typed parameter without default and references
synthesizes without error; in the plain context to the text `t`:
`Items.Default` if non-empty, else the first entry of `Items.Enum`, else `0`
for integer items, else the word `string`; in the JSON context to the
one-element list literal of `t`, unless `t` is empty (the first entry of
`Items.Enum` is the empty string), in which case the result is the empty
text.  The array's own `Enum`, `Example` and `Format` play no part. -/
theorem GetDefault_array (ord : GoMap Json → List (String × Json)) (fuel : Nat) (p : Param)
    (refs : GoMap Json) (t : String)
    (hD : p.Default = "") (hR : p.Ref = "") (hS : p.Schema.Ref = "") (hT : p.Typ = ETypeArray)
    (ht : t = if p.Items.Default ≠ "" then p.Items.Default
           else match p.Items.Enum with
             | e :: _ => e
             | [] => if p.Items.Typ = ETypeInteger then "0" else "string") :
    GetDefault ord (fuel + 1) p refs EFormatString = some (t, none)
    ∧ GetDefault ord (fuel + 1) p refs EFormatJSON
        = some (if t = "" then "" else "[\"" ++ t ++ "\"]", none) := by
  rw [GetDefault_array_eq ord fuel p refs _ hD hR hS hT,
    GetDefault_array_eq ord fuel p refs _ hD hR hS hT, ← ht]
  refine ⟨by rw [deferred_plain], ?_⟩
  by_cases h0 : t = ""
  · simp [h0, deferred_empty]
  · simp [h0, deferred_json_array p t hT h0]

/-- Counterexample to C9 as stated: the item enumeration begins with the
empty string; the JSON context gives the empty text, not the list literal. -/
theorem GetDefault_array_empty_enum_entry :
    GetDefault id 1 { Typ := "array", Items := { Enum := ["", "y"] } } [] EFormatString
      = some ("", none)
    ∧ GetDefault id 1 { Typ := "array", Items := { Enum := ["", "y"] } } [] EFormatJSON
      = some ("", none)
    ∧ GetDefault id 1 { Typ := "array", Items := { Enum := ["", "y"] } } [] EFormatJSON
      ≠ some ("[\"" ++ "" ++ "\"]", none) := by
  decide

/-- Witness of C9: the item enumeration `x`, `y`, with the array's own
`Enum`, `Example` and `Format` set. -/
theorem GetDefault_array_witness :
    GetDefault id 1
        { Typ := "array", Enum := ["q"], Example := "r", Format := "int64",
          Items := { Enum := ["x", "y"] } } [] EFormatString
      = some ("x", none)
    ∧ GetDefault id 1
        { Typ := "array", Enum := ["q"], Example := "r", Format := "int64",
          Items := { Enum := ["x", "y"] } } [] EFormatJSON
      = some (if "x" = "" then "" else "[\"" ++ "x" ++ "\"]", none) :=
  GetDefault_array id 0
    { Typ := "array", Enum := ["q"], Example := "r", Format := "int64",
      Items := { Enum := ["x", "y"] } } [] "x" rfl rfl rfl rfl (by decide)

/-- The string case of the type switch, with the deferred function applied. -/
theorem GetDefault_string_eq (ord : GoMap Json → List (String × Json)) (fuel : Nat) (p : Param)
    (refs : GoMap Json) (format : String)
    (hD : p.Default = "") (hR : p.Ref = "") (hS : p.Schema.Ref = "") (hT : p.Typ = ETypeString) :
    GetDefault ord (fuel + 1) p refs format
      = some (deferred p format
          (if p.Format = "int64" then "0"
           else match p.Enum with
             | e :: _ => e
             | [] => if p.Example ≠ "" then p.Example else "string"), none) := by
  rw [GetDefault]
  simp only [hD, hR, hS, hT, ne_eq, not_true_eq_false, if_false, if_true]
  by_cases h1 : p.Format = "int64"
  · simp [h1]
  · cases h2 : p.Enum with
    | nil => by_cases h3 : p.Example = "" <;> simp [h1, h3, ETypeString]
    | cons e es => simp [h1]

/-- C10 (amended).  A string-typed parameter without default and references
synthesizes without error; in the plain context to the text `t`: `0` if
`Format` is `int64`, else the first entry of `Enum`, else `Example` if
non-empty, else the word `string`; in the JSON context to `t` in one pair of
double quotes, unless `t` is empty (the first entry of `Enum` is the empty
string), in which case the result is the empty text. -/
theorem GetDefault_string (ord : GoMap Json → List (String × Json)) (fuel : Nat) (p : Param)
    (refs : GoMap Json) (t : String)
    (hD : p.Default = "") (hR : p.Ref = "") (hS : p.Schema.Ref = "") (hT : p.Typ = ETypeString)
    (ht : t = if p.Format = "int64" then "0"
           else match p.Enum with
             | e :: _ => e
             | [] => if p.Example ≠ "" then p.Example else "string") :
    GetDefault ord (fuel + 1) p refs EFormatString = some (t, none)
    ∧ GetDefault ord (fuel + 1) p refs EFormatJSON
        = some (if t = "" then "" else "\"" ++ t ++ "\"", none) := by
  rw [GetDefault_string_eq ord fuel p refs _ hD hR hS hT,
    GetDefault_string_eq ord fuel p refs _ hD hR hS hT, ← ht]
  refine ⟨by rw [deferred_plain], ?_⟩
  by_cases h0 : t = ""
  · simp [h0, deferred_empty]
  · simp [h0, deferred_json_string p t hT h0]

/-- Counterexample to C10 as stated: the enumeration begins with the empty
string; the JSON context gives the empty text, not a pair of quotes. -/
theorem GetDefault_string_empty_enum_entry :
    GetDefault id 1 { Typ := "string", Enum := ["", "asc"], Example := "e" } [] EFormatString
      = some ("", none)
    ∧ GetDefault id 1 { Typ := "string", Enum := ["", "asc"], Example := "e" } [] EFormatJSON
      = some ("", none)
    ∧ GetDefault id 1 { Typ := "string", Enum := ["", "asc"], Example := "e" } [] EFormatJSON
      ≠ some ("\"" ++ "" ++ "\"", none) := by
  decide

/-- Witness of C10: an enumeration and an example, the enumeration wins. -/
theorem GetDefault_string_witness :
    GetDefault id 1 { Typ := "string", Enum := ["asc", "desc"], Example := "e" } []
        EFormatString
      = some ("asc", none)
    ∧ GetDefault id 1 { Typ := "string", Enum := ["asc", "desc"], Example := "e" } []
        EFormatJSON
      = some (if "asc" = "" then "" else "\"" ++ "asc" ++ "\"", none) :=
  GetDefault_string id 0 { Typ := "string", Enum := ["asc", "desc"], Example := "e" } []
    "asc" rfl rfl rfl rfl (by decide)

/-! ## Booleans, integers, unknown types -/

theorem deferred_unwrapped (p : Param) (format ret : String) (h1 : p.Typ ≠ ETypeArray)
    (h2 : p.Typ ≠ ETypeString) (h3 : p.Typ ≠ EFormatJSON) : deferred p format ret = ret := by
  simp [deferred, h1, h2, h3]

/-- C11.  A parameter without default and references synthesizes to `false`
when its type is `boolean` and to `0` when its type is `integer`, without
error, in every output context and whatever `Format`, `Enum`, `Example`,
`Items` and `Properties` hold. -/
theorem GetDefault_boolean_integer (ord : GoMap Json → List (String × Json)) (fuel : Nat)
    (p : Param) (refs : GoMap Json) (format : String)
    (hD : p.Default = "") (hR : p.Ref = "") (hS : p.Schema.Ref = "") :
    (p.Typ = ETypeBoolean → GetDefault ord (fuel + 1) p refs format = some ("false", none))
    ∧ (p.Typ = ETypeInteger → GetDefault ord (fuel + 1) p refs format = some ("0", none)) := by
  constructor
  · intro hT
    have e1 : ETypeBoolean ≠ ETypeString := by decide
    have e2 : ETypeBoolean ≠ ETypeArray := by decide
    have e3 : ETypeBoolean ≠ EFormatJSON := by decide
    have hd := deferred_unwrapped p format "false" (by rw [hT]; exact e2) (by rw [hT]; exact e1)
      (by rw [hT]; exact e3)
    rw [GetDefault]
    simp only [hD, hR, hS, hT, e1, ne_eq, not_true_eq_false, if_false, if_true]
    simp [hd]
  · intro hT
    have e1 : ETypeInteger ≠ ETypeString := by decide
    have e2 : ETypeInteger ≠ ETypeArray := by decide
    have e3 : ETypeInteger ≠ EFormatJSON := by decide
    have e4 : ETypeInteger ≠ ETypeBoolean := by decide
    have hd := deferred_unwrapped p format "0" (by rw [hT]; exact e2) (by rw [hT]; exact e1)
      (by rw [hT]; exact e3)
    rw [GetDefault]
    simp only [hD, hR, hS, hT, e1, e4, ne_eq, not_true_eq_false, if_false, if_true]
    simp [hd]

/-- Witness of C11: a boolean parameter with a format, an enumeration, an
example, items and properties, in the JSON context. -/
theorem GetDefault_boolean_integer_witness :
    GetDefault id 1
        { Typ := "boolean", Format := "int64", Enum := ["yes"], Example := "true",
          Items := { Default := "1" }, Properties := some (.obj []) } [] EFormatJSON
      = some ("false", none) :=
  (GetDefault_boolean_integer id 0
    { Typ := "boolean", Format := "int64", Enum := ["yes"], Example := "true",
      Items := { Default := "1" }, Properties := some (.obj []) } [] EFormatJSON
    rfl rfl rfl).1 rfl

/-- C12.  A parameter without default and references whose type is none of
`string`, `boolean`, `integer`, `array`, `object` synthesizes to the empty
text without error, in every output context. -/
theorem GetDefault_unknown_type (ord : GoMap Json → List (String × Json)) (fuel : Nat)
    (p : Param) (refs : GoMap Json) (format : String)
    (hD : p.Default = "") (hR : p.Ref = "") (hS : p.Schema.Ref = "")
    (h1 : p.Typ ≠ ETypeString) (h2 : p.Typ ≠ ETypeBoolean) (h3 : p.Typ ≠ ETypeInteger)
    (h4 : p.Typ ≠ ETypeArray) (h5 : p.Typ ≠ ETypeObject) :
    GetDefault ord (fuel + 1) p refs format = some ("", none) := by
  rw [GetDefault]
  simp [hD, hR, hS, h1, h2, h3, h4, h5, deferred_empty]

/-- Witness of C12: the type `file`, and the empty type. -/
theorem GetDefault_unknown_type_witness :
    GetDefault id 1 { Typ := "file", Name := "upload" } [] EFormatJSON = some ("", none)
    ∧ GetDefault id 1 { Typ := "" } [] EFormatString = some ("", none) :=
  ⟨GetDefault_unknown_type id 0 { Typ := "file", Name := "upload" } [] EFormatJSON rfl rfl rfl
      (by decide) (by decide) (by decide) (by decide) (by decide),
   GetDefault_unknown_type id 0 { Typ := "" } [] EFormatString rfl rfl rfl
      (by decide) (by decide) (by decide) (by decide) (by decide)⟩

/-! ## References that resolve -/

/-- The reference case: the key that `GetDefault` resolves for `p`. -/
theorem GetDefault_ref_eq (ord : GoMap Json → List (String × Json)) (fuel : Nat) (p : Param)
    (refs : GoMap Json) (format : String) (k : String) (hD : p.Default = "")
    (hk : (p.Ref ≠ "" ∧ k = p.Ref) ∨ (p.Ref = "" ∧ p.Schema.Ref ≠ "" ∧ k = p.Schema.Ref)) :
    GetDefault ord (fuel + 1) p refs format
      = if (UnpackTo decodeParam (GoMap.index refs k) {}).2.isSome then some ("", none)
        else (GetDefault ord fuel (UnpackTo decodeParam (GoMap.index refs k) {}).1 refs format).map
          (fun r => (deferred p format r.1, r.2)) := by
  rw [GetDefault]
  rcases hk with ⟨hr, rfl⟩ | ⟨hr, hs, rfl⟩
  · simp only [hD, hr, ne_eq, not_true_eq_false, not_false_eq_true, if_false, if_true]
    split <;> simp [deferred_empty]
  · simp only [hD, hr, hs, ne_eq, not_true_eq_false, not_false_eq_true, if_false, if_true]
    split <;> simp [deferred_empty]

/-- C14 (amended).  A parameter without default whose `Ref` (or, `Ref` being
empty, whose `Schema.Ref`) is a key of the reference table bound to a node
that does not decode into a `Param` synthesizes to the empty text and no
error: the decode error is dropped. -/
theorem GetDefault_ref_decode_error (ord : GoMap Json → List (String × Json)) (fuel : Nat)
    (p : Param) (refs : GoMap Json) (format : String) (k : String) (j : Json)
    (hD : p.Default = "")
    (hk : (p.Ref ≠ "" ∧ k = p.Ref) ∨ (p.Ref = "" ∧ p.Schema.Ref ≠ "" ∧ k = p.Schema.Ref))
    (hj : GoMap.get? refs k = some j) (he : (UnpackTo decodeParam (some j) {}).2 ≠ none) :
    GetDefault ord (fuel + 1) p refs format = some ("", none) := by
  rw [GetDefault_ref_eq ord fuel p refs format k hD hk]
  have hi : GoMap.index refs k = some j := hj
  rw [hi]
  cases h : (UnpackTo decodeParam (some j) {}).2 with
  | none => exact absurd h he
  | some e => simp

/-- Counterexample to C14 as stated: the referenced node is a JSON string, or
an object whose `type` is a number; `json.Unmarshal` fails on both, and
`GetDefault` returns the empty text with no error. -/
theorem GetDefault_ref_decode_error_swallowed :
    (UnpackTo decodeParam (some (Json.str "oops")) {}).2 = some Err.unmarshalType
    ∧ GetDefault id 1 { Ref := "#/definitions/Bad" }
        [("#/definitions/Bad", Json.str "oops")] EFormatJSON = some ("", none)
    ∧ (UnpackTo decodeParam (some (Json.obj [("type", .num "5")])) {}).2 = some Err.unmarshalType
    ∧ GetDefault id 1 { Schema := { Ref := "#/definitions/Bad" } }
        [("#/definitions/Bad", Json.obj [("type", .num "5")])] EFormatString = some ("", none) := by
  decide

/-- Witness of C14: a body schema reference to a node that is a JSON string. -/
theorem GetDefault_ref_decode_error_witness :
    GetDefault id 1 { Typ := "string", Schema := { Ref := "#/definitions/Bad" } }
        [("#/definitions/Bad", Json.str "oops")] EFormatJSON = some ("", none) :=
  GetDefault_ref_decode_error id 0 { Typ := "string", Schema := { Ref := "#/definitions/Bad" } }
    [("#/definitions/Bad", Json.str "oops")] EFormatJSON "#/definitions/Bad" (Json.str "oops")
    rfl (Or.inr ⟨rfl, by decide, rfl⟩) rfl (by decide)

theorem deferred_json_marker (p : Param) (ret : String) (ht : p.Typ = EFormatJSON)
    (hr : ret ≠ "") : deferred p EFormatJSON ret = "<OBJECT>" := by
  have e1 : EFormatJSON ≠ ETypeArray := by decide
  have e2 : EFormatJSON ≠ ETypeString := by decide
  simp [deferred, hr, ht, e1, e2]

/-- In the JSON context the deferred function leaves a text as it is exactly
when the text is empty, or the type is none of `array`, `string`, `json`, or
the type is `json` and the text is already the placeholder. -/
theorem deferred_json_fixed_iff (p : Param) (t : String) :
    deferred p EFormatJSON t = t
      ↔ (t = "" ∨ (p.Typ ≠ ETypeString ∧ p.Typ ≠ ETypeArray ∧ p.Typ ≠ EFormatJSON)
          ∨ (p.Typ = EFormatJSON ∧ t = "<OBJECT>")) := by
  by_cases h0 : t = ""
  · simp [h0, deferred_empty]
  · by_cases ha : p.Typ = ETypeArray
    · have e1 : ETypeArray ≠ EFormatJSON := by decide
      rw [deferred_json_array p t ha h0]
      have hne : "[\"" ++ t ++ "\"]" ≠ t := by
        intro h
        have hl := congrArg String.length h
        have l1 : "[\"".length = 2 := by decide
        have l2 : "\"]".length = 2 := by decide
        simp only [String.length_append, l1, l2] at hl
        omega
      simp [h0, ha, hne, e1]
    · by_cases hs : p.Typ = ETypeString
      · have e1 : ETypeString ≠ EFormatJSON := by decide
        rw [deferred_json_string p t hs h0]
        have hne : "\"" ++ t ++ "\"" ≠ t := by
          intro h
          have hl := congrArg String.length h
          have l1 : "\"".length = 1 := by decide
          simp only [String.length_append, l1] at hl
          omega
        simp [h0, hs, hne, e1]
      · by_cases hj : p.Typ = EFormatJSON
        · rw [deferred_json_marker p t hj h0]
          simp only [h0, hj, false_or, ne_eq, not_true_eq_false, and_false, true_and]
          exact eq_comm
        · rw [deferred_json_other p t ha hs hj]
          simp [hs, ha, hj]

/-- C19 (amended).  A parameter `p` without default whose `Ref` (or, `Ref`
being empty, whose `Schema.Ref`) is bound in the reference table to a node
that decodes to `q` returns what `GetDefault` returns for `q`, with the
deferred wrapping for the type of `p` applied on top.  In the plain context
the two results are equal.  In the JSON context, `q` returning the text `t`,
the two texts are equal exactly when `t` is empty, or the type of `p` is none
of `string`, `array`, `json`, or the type of `p` is `json` and `t` is already
the placeholder; otherwise `t` is quoted again (type `string`), put into a
list literal again (type `array`), or replaced by the placeholder (type
`json`). -/
theorem GetDefault_ref_wrapping (ord : GoMap Json → List (String × Json)) (fuel : Nat)
    (p q : Param) (refs : GoMap Json) (k : String) (j : Json) (hD : p.Default = "")
    (hk : (p.Ref ≠ "" ∧ k = p.Ref) ∨ (p.Ref = "" ∧ p.Schema.Ref ≠ "" ∧ k = p.Schema.Ref))
    (hj : GoMap.get? refs k = some j) (hq : UnpackTo decodeParam (some j) {} = (q, none)) :
    (∀ format, GetDefault ord (fuel + 1) p refs format
        = (GetDefault ord fuel q refs format).map (fun r => (deferred p format r.1, r.2)))
    ∧ GetDefault ord (fuel + 1) p refs EFormatString = GetDefault ord fuel q refs EFormatString
    ∧ (∀ t e, GetDefault ord fuel q refs EFormatJSON = some (t, e) →
        GetDefault ord (fuel + 1) p refs EFormatJSON = some (deferred p EFormatJSON t, e)
        ∧ (deferred p EFormatJSON t = t
            ↔ (t = "" ∨ (p.Typ ≠ ETypeString ∧ p.Typ ≠ ETypeArray ∧ p.Typ ≠ EFormatJSON)
                ∨ (p.Typ = EFormatJSON ∧ t = "<OBJECT>")))
        ∧ (t ≠ "" → p.Typ = ETypeString → deferred p EFormatJSON t = "\"" ++ t ++ "\"")
        ∧ (t ≠ "" → p.Typ = ETypeArray → deferred p EFormatJSON t = "[\"" ++ t ++ "\"]")
        ∧ (t ≠ "" → p.Typ = EFormatJSON → deferred p EFormatJSON t = "<OBJECT>")) := by
  have hi : GoMap.index refs k = some j := hj
  have hall : ∀ format, GetDefault ord (fuel + 1) p refs format
      = (GetDefault ord fuel q refs format).map (fun r => (deferred p format r.1, r.2)) := by
    intro format
    rw [GetDefault_ref_eq ord fuel p refs format k hD hk, hi, hq]
    simp
  refine ⟨hall, ?_, ?_⟩
  · rw [hall]
    cases h : GetDefault ord fuel q refs EFormatString with
    | none => rfl
    | some r => simp [deferred_plain]
  · intro t e ht
    refine ⟨by rw [hall, ht]; rfl, deferred_json_fixed_iff p t, ?_, ?_, ?_⟩
    · intro h0 hs; exact deferred_json_string p t hs h0
    · intro h0 ha; exact deferred_json_array p t ha h0
    · intro h0 hm; exact deferred_json_marker p t hm h0

/-- Counterexample to C19 as stated: `p` has the type `json` and refers to a
`q` whose JSON result is the placeholder; the result of `p` is the same
non-empty text although the type of `p` is `json`. -/
theorem GetDefault_ref_wrapping_marker_fixed :
    GetDefault id 1 { Typ := "json", Default := "x" } [] EFormatJSON = some ("<OBJECT>", none)
    ∧ GetDefault id 2 { Typ := "json", Ref := "#/definitions/Q" }
        [("#/definitions/Q", Json.obj [("type", .str "json"), ("default", .str "x")])]
        EFormatJSON = some ("<OBJECT>", none)
    ∧ "<OBJECT>" ≠ ""
    ∧ ({ Typ := "json", Ref := "#/definitions/Q" } : Param).Typ = EFormatJSON := by
  decide

/-- Witness of C19: a string-typed parameter referring to a string-typed
definition without default; the JSON text is quoted twice. -/
theorem GetDefault_ref_wrapping_witness :
    GetDefault id 2 { Typ := "string", Ref := "#/definitions/Q" }
        [("#/definitions/Q", Json.obj [("type", .str "string")])] EFormatJSON
      = some (deferred { Typ := "string", Ref := "#/definitions/Q" } EFormatJSON "\"string\"", none)
    ∧ deferred { Typ := "string", Ref := "#/definitions/Q" } EFormatJSON "\"string\""
      = "\"" ++ "\"string\"" ++ "\"" := by
  have h := (GetDefault_ref_wrapping id 1 { Typ := "string", Ref := "#/definitions/Q" }
    { Typ := "string" } [("#/definitions/Q", Json.obj [("type", .str "string")])]
    "#/definitions/Q" (Json.obj [("type", .str "string")]) rfl (Or.inl ⟨by decide, rfl⟩) rfl
    rfl).2.2 "\"string\"" none (by decide)
  exact ⟨h.1, h.2.2.1 (by decide) rfl⟩

/-! ## Objects in the plain context -/

/-- When every property is processed to the end, the loop returns. -/
theorem propertiesLoop_total (synth : Param → Option (String × Option Err)) :
    ∀ (l : List (String × Json)) (n : GoMap String),
      (∀ kv ∈ l, (UnpackTo decodeParam (some kv.2) {}).2 ≠ none
        ∨ synth (UnpackTo decodeParam (some kv.2) {}).1 ≠ none) →
      propertiesLoop synth l n ≠ none := by
  intro l
  induction l with
  | nil => intro n _; simp [propertiesLoop]
  | cons x xs ih =>
      intro n hall
      obtain ⟨k, raw⟩ := x
      simp only [propertiesLoop]
      cases hdec : (UnpackTo decodeParam (some raw) {}).2 with
      | some e => simp
      | none =>
          have hx := hall (k, raw) (List.mem_cons_self _ _)
          simp only [hdec, ne_eq, not_true_eq_false, false_or] at hx
          cases hs : synth (UnpackTo decodeParam (some raw) {}).1 with
          | none => exact absurd hs hx
          | some r =>
              obtain ⟨c, oe⟩ := r
              cases oe with
              | some e => simp
              | none => exact ih _ (fun kv hkv => hall kv (List.mem_cons_of_mem _ hkv))

/-- The object case, every property being processed to the end: an error
comes back as soon as one property synthesizes without error to a text that
is not valid JSON. -/
theorem GetDefault_object_invalid_child (ord : GoMap Json → List (String × Json)) (fuel : Nat)
    (p : Param) (refs : GoMap Json) (format : String)
    (hD : p.Default = "") (hR : p.Ref = "") (hS : p.Schema.Ref = "") (hT : p.Typ = ETypeObject)
    (hP : p.Properties ≠ none) (hM : (UnpackToMap p.Properties).2 = none)
    (hord : (ord (UnpackToMap p.Properties).1).Perm (UnpackToMap p.Properties).1)
    (hall : ∀ kv ∈ (UnpackToMap p.Properties).1,
      (UnpackTo decodeParam (some kv.2) {}).2 ≠ none
      ∨ GetDefault ord fuel (UnpackTo decodeParam (some kv.2) {}).1 refs format ≠ none)
    (hbad : ∃ kv ∈ (UnpackToMap p.Properties).1, ∃ child,
      GetDefault ord fuel (UnpackTo decodeParam (some kv.2) {}).1 refs format
        = some (child, none) ∧ Valid child = false) :
    ∃ e, GetDefault ord (fuel + 1) p refs format = some ("", some e) := by
  have hP' : p.Properties.isNone = false := by
    cases hp : p.Properties with
    | none => exact absurd hp hP
    | some j => rfl
  have htot := propertiesLoop_total (fun np => GetDefault ord fuel np refs format)
    (ord (UnpackToMap p.Properties).1) [] (fun kv hkv => hall kv (hord.subset hkv))
  cases hl : propertiesLoop (fun np => GetDefault ord fuel np refs format)
      (ord (UnpackToMap p.Properties).1) [] with
  | none => exact absurd hl htot
  | some r =>
    obtain ⟨n, oe⟩ := r
    cases oe with
    | some e =>
        refine ⟨e, ?_⟩
        rw [GetDefault_object_eq ord fuel p refs format hD hR hS hT]
        simp only [hP', hM, hl]
        simp
    | none =>
        have hinv := propertiesLoop_inv _ _ _ _ hl
        let child : String × Json → String := fun kv =>
          ((GetDefault ord fuel (UnpackTo decodeParam (some kv.2) {}).1 refs format).getD
            ("", none)).1
        have hchild : ∀ kv ∈ (UnpackToMap p.Properties).1,
            (UnpackTo decodeParam (some kv.2) {}).2 = none
            ∧ GetDefault ord fuel (UnpackTo decodeParam (some kv.2) {}).1 refs format
                = some (child kv, none) := by
          intro kv hkv
          obtain ⟨h1, c, h2⟩ := hinv kv (hord.symm.subset hkv)
          exact ⟨h1, by simp [child, h2]⟩
        refine ⟨Err.marshaler, ?_⟩
        rw [GetDefault_object_ok ord fuel p refs format hD hR hS hT hP hM hord child hchild]
        rw [Marshal_invalid]
        obtain ⟨kv, hkv, c, hc, hval⟩ := hbad
        refine ⟨(kv.1, child kv), List.mem_map.mpr ⟨kv, hkv, rfl⟩, ?_⟩
        have : child kv = c := by simp [child, hc]
        simpa [this] using hval

/-- A successful object synthesis: every property decoded and synthesized
without error to a valid JSON text. -/
theorem GetDefault_object_success_inv (ord : GoMap Json → List (String × Json)) (fuel : Nat)
    (p : Param) (refs : GoMap Json) (format : String)
    (hD : p.Default = "") (hR : p.Ref = "") (hS : p.Schema.Ref = "") (hT : p.Typ = ETypeObject)
    (hP : p.Properties ≠ none)
    (hord : (ord (UnpackToMap p.Properties).1).Perm (UnpackToMap p.Properties).1)
    (text : String) (hres : GetDefault ord (fuel + 1) p refs format = some (text, none)) :
    ∀ kv ∈ (UnpackToMap p.Properties).1,
      (UnpackTo decodeParam (some kv.2) {}).2 = none
      ∧ ∃ child, GetDefault ord fuel (UnpackTo decodeParam (some kv.2) {}).1 refs format
          = some (child, none) ∧ Valid child = true := by
  have hP' : p.Properties.isNone = false := by
    cases hp : p.Properties with
    | none => exact absurd hp hP
    | some j => rfl
  have hres0 := hres
  rw [GetDefault_object_eq ord fuel p refs format hD hR hS hT] at hres
  simp only [hP', Bool.false_eq_true, if_false] at hres
  cases hM : (UnpackToMap p.Properties).2 with
  | some e => rw [hM] at hres; simp at hres
  | none =>
    rw [hM] at hres
    simp only at hres
    cases hl : propertiesLoop (fun np => GetDefault ord fuel np refs format)
        (ord (UnpackToMap p.Properties).1) [] with
    | none => rw [hl] at hres; simp at hres
    | some r =>
      obtain ⟨n, oe⟩ := r
      cases oe with
      | some e => rw [hl] at hres; simp at hres
      | none =>
        have hinv := propertiesLoop_inv _ _ _ _ hl
        intro kv hkv
        obtain ⟨h1, c, h2⟩ := hinv kv (hord.symm.subset hkv)
        refine ⟨h1, c, h2, ?_⟩
        by_contra hv
        have hv' : Valid c = false := by simpa using hv
        obtain ⟨e, he⟩ := GetDefault_object_invalid_child ord fuel p refs format hD hR hS hT hP hM
          hord (fun kv' hkv' => Or.inr (by
            obtain ⟨_, c', h'⟩ := hinv kv' (hord.symm.subset hkv')
            rw [h']; simp)) ⟨kv, hkv, c, h2, hv'⟩
        rw [he] at hres0
        simp at hres0

/-- C20 (amended).  In the plain context, for an object-typed parameter
without default and references whose property map decodes: (1) every
property being processed to the end, an error is returned whenever some
property synthesizes to a text that is not valid JSON; (2) this is the case
whenever a property is string-typed without default, references, `int64`
format, enumeration and example, its text being the bare word `string`;
(3) a result without error means that every property decoded and synthesized
without error to a valid JSON text. -/
theorem GetDefault_object_plain (ord : GoMap Json → List (String × Json))
    (hord : ∀ m, (ord m).Perm m) (fuel : Nat) (p : Param) (refs : GoMap Json)
    (hD : p.Default = "") (hR : p.Ref = "") (hS : p.Schema.Ref = "") (hT : p.Typ = ETypeObject)
    (hP : p.Properties ≠ none) (hM : (UnpackToMap p.Properties).2 = none) :
    ((∀ kv ∈ (UnpackToMap p.Properties).1,
        (UnpackTo decodeParam (some kv.2) {}).2 ≠ none
        ∨ GetDefault ord fuel (UnpackTo decodeParam (some kv.2) {}).1 refs EFormatString ≠ none) →
      (∃ kv ∈ (UnpackToMap p.Properties).1, ∃ child,
        GetDefault ord fuel (UnpackTo decodeParam (some kv.2) {}).1 refs EFormatString
          = some (child, none) ∧ Valid child = false) →
      ∃ e, GetDefault ord (fuel + 1) p refs EFormatString = some ("", some e))
    ∧ ((∀ kv ∈ (UnpackToMap p.Properties).1,
        (UnpackTo decodeParam (some kv.2) {}).2 ≠ none
        ∨ GetDefault ord fuel (UnpackTo decodeParam (some kv.2) {}).1 refs EFormatString ≠ none) →
      (∃ kv ∈ (UnpackToMap p.Properties).1,
        (UnpackTo decodeParam (some kv.2) {}).1.Default = ""
        ∧ (UnpackTo decodeParam (some kv.2) {}).1.Ref = ""
        ∧ (UnpackTo decodeParam (some kv.2) {}).1.Schema.Ref = ""
        ∧ (UnpackTo decodeParam (some kv.2) {}).1.Typ = ETypeString
        ∧ (UnpackTo decodeParam (some kv.2) {}).1.Format ≠ "int64"
        ∧ (UnpackTo decodeParam (some kv.2) {}).1.Enum = []
        ∧ (UnpackTo decodeParam (some kv.2) {}).1.Example = "") →
      ∃ e, GetDefault ord (fuel + 1) p refs EFormatString = some ("", some e))
    ∧ (∀ text, GetDefault ord (fuel + 1) p refs EFormatString = some (text, none) →
        ∀ kv ∈ (UnpackToMap p.Properties).1,
          (UnpackTo decodeParam (some kv.2) {}).2 = none
          ∧ ∃ child,
              GetDefault ord fuel (UnpackTo decodeParam (some kv.2) {}).1 refs EFormatString
                = some (child, none) ∧ Valid child = true) := by
  refine ⟨?_, ?_, ?_⟩
  · intro hall hbad
    exact GetDefault_object_invalid_child ord fuel p refs EFormatString hD hR hS hT hP hM
      (hord _) hall hbad
  · intro hall hstr
    obtain ⟨kv, hkv, h1, h2, h3, h4, h5, h6, h7⟩ := hstr
    cases fuel with
    | zero =>
        -- without fuel no property is synthesized; then its decoding failed
        rcases hall kv hkv with hdec | hsyn
        · have htot := propertiesLoop_total (fun np => GetDefault ord 0 np refs EFormatString)
            (ord (UnpackToMap p.Properties).1) []
            (fun kv' hkv' => hall kv' ((hord _).subset hkv'))
          have hP' : p.Properties.isNone = false := by
            cases hp : p.Properties with
            | none => exact absurd hp hP
            | some j => rfl
          cases hl : propertiesLoop (fun np => GetDefault ord 0 np refs EFormatString)
              (ord (UnpackToMap p.Properties).1) [] with
          | none => exact absurd hl htot
          | some r =>
            obtain ⟨n, oe⟩ := r
            cases oe with
            | some e =>
                refine ⟨e, ?_⟩
                rw [GetDefault_object_eq ord 0 p refs EFormatString hD hR hS hT]
                simp only [hP', hM, hl]
                simp
            | none =>
                have hinv := propertiesLoop_inv _ _ _ _ hl kv ((hord _).symm.subset hkv)
                exact absurd hinv.1 hdec
        · exact absurd (by simp [GetDefault]) hsyn
    | succ f =>
        refine GetDefault_object_invalid_child ord (f + 1) p refs EFormatString hD hR hS hT hP hM
          (hord _) hall ⟨kv, hkv, "string", ?_, by decide⟩
        rw [GetDefault_string_eq ord f _ refs EFormatString h1 h2 h3 h4]
        simp [h5, h6, h7, deferred_plain]
  · intro text hres
    exact GetDefault_object_success_inv ord fuel p refs EFormatString hD hR hS hT hP (hord _)
      text hres

/-- Counterexample to C20 as stated: a string-typed property without default
whose format is `int64` synthesizes to `0`, which is valid JSON, and the
object is synthesized without error in the plain context. -/
theorem GetDefault_object_plain_string_int64 :
    GetDefault id 1 { Typ := "string", Format := "int64" } [] EFormatString = some ("0", none)
    ∧ Valid "0" = true
    ∧ GetDefault id 2
        { Typ := "object",
          Properties := some (.obj [("id", .obj [("type", .str "string"),
                                                  ("format", .str "int64")])]) }
        [] EFormatString
      = some ("\x7b\"id\":0\x7d", none) := by
  decide

/-- Witness of C20: the property `name` of type `string` makes the object
fail in the plain context. -/
theorem GetDefault_object_plain_witness :
    ∃ e, GetDefault id 2
        { Typ := "object",
          Properties := some (.obj [("name", .obj [("type", .str "string")])]) }
        [] EFormatString
      = some ("", some e) :=
  (GetDefault_object_plain id (fun m => List.Perm.refl m) 1
    { Typ := "object", Properties := some (.obj [("name", .obj [("type", .str "string")])]) }
    [] rfl rfl rfl rfl (by simp) rfl).2.1
    (by
      intro kv hkv
      have hm : kv = ("name", Json.obj [("type", .str "string")]) := by
        simpa [UnpackToMap, decodeMapMembers, GoMap.set] using hkv
      subst hm
      exact Or.inr (by decide))
    ⟨("name", Json.obj [("type", .str "string")]),
      by simp [UnpackToMap, decodeMapMembers, GoMap.set],
      rfl, rfl, rfl, rfl, by decide, rfl, rfl⟩

/-! ## Comment lines -/

theorem splitNL_ne_nil (cs : List Char) : splitNL cs ≠ [] := by
  induction cs with
  | nil => simp [splitNL]
  | cons c cs ih =>
      simp only [splitNL]
      split
      · simp
      · split <;> simp

theorem replaceGo_newline (cs : List Char) :
    '#' :: ' ' :: (replaceGo ['\n'] ['\n', '#', ' '] 0 cs ++ ['\n'])
      = ((splitNL cs).map (fun l => '#' :: ' ' :: (l ++ ['\n']))).flatten := by
  induction cs with
  | nil => simp [replaceGo, splitNL]
  | cons c cs ih =>
      by_cases hc : c = '\n'
      · subst hc
        simp only [replaceGo, splitNL, List.isPrefixOf, List.length_singleton]
        simp [← ih]
      · have hp : List.isPrefixOf ['\n'] (c :: cs) = false := by
          simp [List.isPrefixOf, Ne.symm hc]
        simp only [replaceGo, hp, splitNL, hc, if_false]
        cases hs : splitNL cs with
        | nil => exact absurd hs (splitNL_ne_nil cs)
        | cons l ls =>
            rw [hs] at ih
            simp only [List.map_cons, List.flatten_cons, List.cons_append, List.cons.injEq,
              true_and] at ih ⊢
            simp [ih]

/-- The lines of `splitNL`, joined by newlines, are the text again. -/
theorem splitNL_intercalate (cs : List Char) : ['\n'].intercalate (splitNL cs) = cs := by
  induction cs with
  | nil => simp [splitNL, List.intercalate]
  | cons c cs ih =>
      cases hs : splitNL cs with
      | nil => exact absurd hs (splitNL_ne_nil cs)
      | cons l ls =>
          rw [hs] at ih
          by_cases hc : c = '\n'
          · subst hc
            simp only [splitNL, if_true, hs]
            simp only [List.intercalate, List.intersperse, List.flatten_cons, List.nil_append,
              List.singleton_append, List.cons.injEq, true_and] at ih ⊢
            exact ih
          · simp only [splitNL, hc, if_false, hs]
            cases ls with
            | nil =>
                simp only [List.intercalate, List.intersperse, List.flatten_cons,
                  List.flatten_nil, List.append_nil] at ih ⊢
                rw [ih]
            | cons l2 ls2 =>
                simp only [List.intercalate, List.intersperse, List.flatten_cons,
                  List.cons_append] at ih ⊢
                rw [ih]

/-- No line of `splitNL` holds a newline. -/
theorem splitNL_no_newline (cs : List Char) : ∀ l ∈ splitNL cs, '\n' ∉ l := by
  induction cs with
  | nil => simp [splitNL]
  | cons c cs ih =>
      cases hs : splitNL cs with
      | nil => exact absurd hs (splitNL_ne_nil cs)
      | cons l ls =>
          rw [hs] at ih
          by_cases hc : c = '\n'
          · subst hc
            simp only [splitNL, if_true, hs]
            intro x hx
            rcases List.mem_cons.mp hx with rfl | hx
            · simp
            · exact ih x hx
          · simp only [splitNL, hc, if_false, hs]
            intro x hx
            rcases List.mem_cons.mp hx with rfl | hx
            · intro hmem
              rcases List.mem_cons.mp hmem with h | h
              · exact hc h.symm
              · exact ih l (List.mem_cons_self _ _) h
            · exact ih x (List.mem_cons_of_mem _ hx)

theorem foldr_comment_data (ls : List (List Char)) :
    ((ls.map String.mk).foldr (fun l acc => "# " ++ l ++ "\n" ++ acc) "").data
      = (ls.map (fun l => '#' :: ' ' :: (l ++ ['\n']))).flatten := by
  induction ls with
  | nil => rfl
  | cons l ls ih =>
      simp only [List.map_cons, List.foldr_cons, String.data_append, ih, List.flatten_cons]
      have h1 : "# ".data = ['#', ' '] := rfl
      have h2 : "\n".data = ['\n'] := rfl
      simp [h1, h2]

/-- What `writeRequest` writes for a summary or description is the comment
lines of the text. -/
theorem commentText_eq (text : String) :
    "# " ++ ReplaceAll text "\n" "\n# " ++ "\n" = commentLines text := by
  apply String.ext
  have h0 : ("\n" : String).data.isEmpty = false := rfl
  have h1 : "# ".data = ['#', ' '] := rfl
  have h2 : "\n".data = ['\n'] := rfl
  have h3 : "\n# ".data = ['\n', '#', ' '] := rfl
  simp only [commentLines, physicalLines, foldr_comment_data, ← replaceGo_newline,
    String.data_append, ReplaceAll, h0, h1, h2, h3]
  simp

/-! ## The shape of a request block -/

theorem headerLoop_prefix (refs : GoMap Json) :
    ∀ (ps : List Param) (out : String), ∃ t, (headerLoop refs ps out).1 = out ++ t := by
  intro ps
  induction ps with
  | nil => intro out; exact ⟨"", by simp [headerLoop]⟩
  | cons p ps ih =>
      intro out
      simp only [headerLoop]
      split
      · exact ⟨"", by simp⟩
      · split
        · obtain ⟨t, ht⟩ := ih (out ++ ((resolveRef refs p).1.Name ++ ": \x7b\x7b"
            ++ ("_header_" ++ ReplaceAll (resolveRef refs p).1.Name "-" "_") ++ "\x7d\x7d\n"))
          exact ⟨_, by rw [ht, String.append_assoc]⟩
        · exact ih out

theorem schemeLoop_prefix (securities : GoMap Json) :
    ∀ (ks : List String) (out : String), ∃ t, (schemeLoop securities ks out).1 = out ++ t := by
  intro ks
  induction ks with
  | nil => intro out; exact ⟨"", by simp [schemeLoop]⟩
  | cons k ks ih =>
      intro out
      simp only [schemeLoop]
      cases hget : GoMap.get? securities k with
      | none => exact ih out
      | some sr =>
          simp only
          split
          · exact ⟨"", by simp⟩
          · split
            · obtain ⟨t, ht⟩ := ih (out ++ ((UnpackTo decodeParam (some sr) {}).1.Name
                ++ ": \x7b\x7b"
                ++ ("_auth_" ++ ReplaceAll (UnpackTo decodeParam (some sr) {}).1.Name "-" "_")
                ++ "\x7d\x7d\n"))
              exact ⟨_, by rw [ht, String.append_assoc]⟩
            · exact ih out

theorem securityLoop_prefix (ord : GoMap Json → List (String × Json)) (securities : GoMap Json) :
    ∀ (rs : List lazyRaw) (out : String),
      ∃ t, (securityLoop ord securities rs out).1 = out ++ t := by
  intro rs
  induction rs with
  | nil => intro out; exact ⟨"", by simp [securityLoop]⟩
  | cons r rs ih =>
      intro out
      simp only [securityLoop]
      split
      · exact ⟨"", by simp⟩
      · obtain ⟨t1, ht1⟩ := schemeLoop_prefix securities ((ord (UnpackToMap r).1).map Prod.fst) out
        split
        · exact ⟨t1, ht1⟩
        · obtain ⟨t2, ht2⟩ := ih (schemeLoop securities ((ord (UnpackToMap r).1).map Prod.fst) out).1
          exact ⟨t1 ++ t2, by rw [ht2, ht1, String.append_assoc]⟩

theorem bodyLoop_prefix (synth : Param → Option (String × Option Err)) (refs : GoMap Json) :
    ∀ (ps : List Param) (out res : String) (e : Option Err),
      bodyLoop synth refs ps out = some (res, e) → ∃ t, res = out ++ t := by
  intro ps
  induction ps with
  | nil =>
      intro out res e h
      simp only [bodyLoop, Option.some.injEq, Prod.mk.injEq] at h
      exact ⟨"", by simp [h.1]⟩
  | cons p ps ih =>
      intro out res e h
      simp only [bodyLoop] at h
      split at h
      · simp only [Option.some.injEq, Prod.mk.injEq] at h
        exact ⟨"", by simp [h.1]⟩
      · split at h
        · split at h
          · simp only [Option.some.injEq, Prod.mk.injEq] at h
            exact ⟨"", by simp [h.1]⟩
          · split at h
            · simp at h
            · simp only [Option.some.injEq, Prod.mk.injEq] at h
              exact ⟨"", by simp [h.1]⟩
            · rename_i val _
              obtain ⟨t, ht⟩ := ih _ _ _ h
              exact ⟨writeBody val ++ t, by rw [ht, String.append_assoc]⟩
        · exact ih _ _ _ h

/-- The first loop when every query and path parameter is synthesized without
error: the path that comes out is the template with the placeholders of the
path parameters replaced one parameter after the other. -/
theorem queryPathLoop_ok (synth : Param → Option (String × Option Err)) :
    ∀ (ps : List Param) (queries : GoMap (List String)) (path : String),
      (∀ p ∈ ps, (p.In = "query" ∨ p.In = "path") → ∃ v, synth p = some (v, none)) →
      ∃ queries1, queryPathLoop synth ps queries path
        = some ((queries1, ps.foldl (fun acc p =>
            if p.In = "path" then
              ReplaceAll acc ("\x7b" ++ p.Name ++ "\x7d") ((synth p).getD ("", none)).1
            else acc) path), none) := by
  intro ps
  induction ps with
  | nil => intro queries path _; exact ⟨queries, rfl⟩
  | cons p ps ih =>
      intro queries path h
      have hps : ∀ q ∈ ps, (q.In = "query" ∨ q.In = "path") → ∃ v, synth q = some (v, none) :=
        fun q hq => h q (List.mem_cons_of_mem _ hq)
      simp only [queryPathLoop, List.foldl_cons]
      by_cases hq : p.In = "query"
      · obtain ⟨v, hv⟩ := h p (List.mem_cons_self _ _) (Or.inl hq)
        have hnp : ¬ p.In = "path" := by rw [hq]; decide
        simp only [hq, hv, if_true]
        have hnp' : ¬ ("query" = "path") := by decide
        simp only [hnp', if_false]
        exact ih _ _ hps
      · by_cases hp : p.In = "path"
        · obtain ⟨v, hv⟩ := h p (List.mem_cons_self _ _) (Or.inr hp)
          simp only [hq, hp, hv, if_false, if_true, Option.getD_some]
          have hnq : ¬ ("path" = "query") := by decide
          simp only [hnq, if_false]
          exact ih _ _ hps
        · simp only [hq, hp, if_false]
          exact ih _ _ hps

/-- Whatever `writeRequest` returns, the buffer then holds the old buffer
followed by the comment lines. -/
theorem writeRequest_comments (unicodeUpper : Char → Char)
    (ord : GoMap Json → List (String × Json)) (fuel : Nat) (s : Swagger) (out path : String)
    (req : Request) (res : String) (e : Option Err)
    (h : writeRequest unicodeUpper ord fuel s out path req = some (res, e)) :
    ∃ tail, res = out ++ writeComments req ++ tail := by
  unfold writeRequest at h
  simp only at h
  split at h
  · simp at h
  · simp only [Option.some.injEq, Prod.mk.injEq] at h
    exact ⟨"", by simp [h.1]⟩
  · rename_i queries path1 _
    generalize hout3 : (if queries.length > 0 then
        out ++ writeComments req ++ (ToUpper unicodeUpper req.Method ++ " " ++ selectScheme s
          ++ "://" ++ s.Host ++ s.BasePath ++ path1 ++ "\n")
          ++ (" ?" ++ valuesEncode queries ++ "\n")
      else out ++ writeComments req ++ (ToUpper unicodeUpper req.Method ++ " " ++ selectScheme s
          ++ "://" ++ s.Host ++ s.BasePath ++ path1 ++ "\n")) = out3 at h
    have h3 : ∃ t, out3 = out ++ writeComments req ++ t := by
      rw [← hout3]
      split
      · exact ⟨_, by rw [String.append_assoc (out ++ writeComments req)]⟩
      · exact ⟨_, rfl⟩
    obtain ⟨t3, ht3⟩ := h3
    obtain ⟨tH, htH⟩ := headerLoop_prefix s.refs req.Params out3
    obtain ⟨tA, htA⟩ := securityLoop_prefix ord s.securities req.Security
      (headerLoop s.refs req.Params out3).1
    split at h
    · simp only [Option.some.injEq, Prod.mk.injEq] at h
      exact ⟨t3 ++ tH, by rw [← h.1, htH, ht3, String.append_assoc]⟩
    · split at h
      · simp only [Option.some.injEq, Prod.mk.injEq] at h
        exact ⟨t3 ++ tH ++ tA, by
          rw [← h.1, htA, htH, ht3]; simp only [String.append_assoc]⟩
      · split at h
        · simp at h
        · rename_i out5 e5 hb
          obtain ⟨tB, htB⟩ := bodyLoop_prefix _ _ _ _ _ _ hb
          simp only [Option.some.injEq, Prod.mk.injEq] at h
          exact ⟨t3 ++ tH ++ tA ++ "Content-Type: application/json\n" ++ "\n" ++ tB, by
            rw [← h.1, htB, htA, htH, ht3]; simp only [String.append_assoc]⟩
        · rename_i out5 hb
          obtain ⟨tB, htB⟩ := bodyLoop_prefix _ _ _ _ _ _ hb
          simp only [Option.some.injEq, Prod.mk.injEq] at h
          exact ⟨t3 ++ tH ++ tA ++ "Content-Type: application/json\n" ++ "\n" ++ tB ++ "\n", by
            rw [← h.1, htB, htA, htH, ht3]; simp only [String.append_assoc]⟩

/-- C18.  The text written for a summary, and for a non-empty description, is
the comment lines of the text: every physical line of the text (the text
split at newlines, in order) with `# ` in front and a newline behind, so the
text ends with a newline and no line lacks the prefix.  These lines follow
the separator and the tag line at the head of what `writeRequest` writes. -/
theorem writeRequest_comment_lines (unicodeUpper : Char → Char)
    (ord : GoMap Json → List (String × Json)) (fuel : Nat) (s : Swagger) (out path : String)
    (req : Request) :
    writeComments req
        = "###\n" ++ ("# " ++ ", ".intercalate req.Tags ++ "." ++ req.OperationId ++ "\n")
          ++ commentLines req.Summary
          ++ (if req.Description ≠ "" then commentLines req.Description else "")
    ∧ (∀ res e, writeRequest unicodeUpper ord fuel s out path req = some (res, e) →
        ∃ tail, res = out ++ writeComments req ++ tail)
    ∧ (∀ text : String, "# " ++ ReplaceAll text "\n" "\n# " ++ "\n" = commentLines text
        ∧ commentLines text
            = (physicalLines text).foldr (fun l acc => "# " ++ l ++ "\n" ++ acc) ""
        ∧ ['\n'].intercalate ((physicalLines text).map String.data) = text.data
        ∧ (∀ l ∈ physicalLines text, '\n' ∉ l.data)
        ∧ (commentLines text).data.getLast? = some '\n') := by
  refine ⟨?_, ?_, ?_⟩
  · simp only [writeComments, commentText_eq]
  · intro res e h
    exact writeRequest_comments unicodeUpper ord fuel s out path req res e h
  · intro text
    refine ⟨commentText_eq text, rfl, ?_, ?_, ?_⟩
    · simp only [physicalLines, List.map_map]
      have : (String.data ∘ String.mk) = id := by funext l; rfl
      rw [this, List.map_id, splitNL_intercalate]
    · intro l hl
      simp only [physicalLines, List.mem_map] at hl
      obtain ⟨x, hx, rfl⟩ := hl
      exact splitNL_no_newline _ x hx
    · rw [← commentText_eq]
      have h1 : "# ".data = ['#', ' '] := rfl
      have h2 : "\n".data = ['\n'] := rfl
      have h3 : ∀ (l : List Char), (l ++ ['\n']).getLast? = some '\n' := by
        intro l; simp
      simp only [String.data_append, h1, h2]
      exact h3 _

/-- Witness of C18: a summary of two lines and a description of one line. -/
theorem writeRequest_comment_lines_witness :
    writeComments { Summary := "List pets\nwith paging", Description := "All of them" }
        = "###\n# .\n# List pets\n# with paging\n# All of them\n"
    ∧ ∃ tail, "###\n# .\n# List pets\n# with paging\n# All of them\nGET http:///pets\nContent-Type: application/json\n\n\n"
        = "" ++ writeComments
            { Method := "get", Summary := "List pets\nwith paging", Description := "All of them" }
          ++ tail :=
  ⟨by decide,
   (writeRequest_comment_lines id id 1 {} "" "/pets"
      { Method := "get", Summary := "List pets\nwith paging",
        Description := "All of them" }).2.1 _ none (by decide)⟩

/-! ## The request line -/

/-- The buffer after `writeRequest`, the first loop having ended without
error with the path `path1`: old buffer, comment lines, request line. -/
theorem writeRequest_line (unicodeUpper : Char → Char)
    (ord : GoMap Json → List (String × Json)) (fuel : Nat) (s : Swagger) (out path : String)
    (req : Request) (res : String) (e : Option Err) (queries : GoMap (List String))
    (path1 : String)
    (hq : queryPathLoop (fun p => GetDefault ord fuel p s.refs EFormatString) req.Params [] path
      = some ((queries, path1), none))
    (h : writeRequest unicodeUpper ord fuel s out path req = some (res, e)) :
    ∃ tail, res = out ++ writeComments req
      ++ (ToUpper unicodeUpper req.Method ++ " " ++ selectScheme s ++ "://" ++ s.Host
          ++ s.BasePath ++ path1 ++ "\n") ++ tail := by
  unfold writeRequest at h
  simp only [hq] at h
  generalize hout3 : (if queries.length > 0 then
      out ++ writeComments req ++ (ToUpper unicodeUpper req.Method ++ " " ++ selectScheme s
        ++ "://" ++ s.Host ++ s.BasePath ++ path1 ++ "\n")
        ++ (" ?" ++ valuesEncode queries ++ "\n")
    else out ++ writeComments req ++ (ToUpper unicodeUpper req.Method ++ " " ++ selectScheme s
        ++ "://" ++ s.Host ++ s.BasePath ++ path1 ++ "\n")) = out3 at h
  have h3 : ∃ t, out3 = out ++ writeComments req
      ++ (ToUpper unicodeUpper req.Method ++ " " ++ selectScheme s ++ "://" ++ s.Host
          ++ s.BasePath ++ path1 ++ "\n") ++ t := by
    rw [← hout3]
    split
    · exact ⟨_, rfl⟩
    · exact ⟨"", by simp⟩
  obtain ⟨t3, ht3⟩ := h3
  obtain ⟨tH, htH⟩ := headerLoop_prefix s.refs req.Params out3
  obtain ⟨tA, htA⟩ := securityLoop_prefix ord s.securities req.Security
    (headerLoop s.refs req.Params out3).1
  split at h
  · simp only [Option.some.injEq, Prod.mk.injEq] at h
    exact ⟨t3 ++ tH, by rw [← h.1, htH, ht3, String.append_assoc]⟩
  · split at h
    · simp only [Option.some.injEq, Prod.mk.injEq] at h
      exact ⟨t3 ++ tH ++ tA, by
        rw [← h.1, htA, htH, ht3]; simp only [String.append_assoc]⟩
    · split at h
      · simp at h
      · rename_i out5 e5 hb
        obtain ⟨tB, htB⟩ := bodyLoop_prefix _ _ _ _ _ _ hb
        simp only [Option.some.injEq, Prod.mk.injEq] at h
        exact ⟨t3 ++ tH ++ tA ++ "Content-Type: application/json\n" ++ "\n" ++ tB, by
          rw [← h.1, htB, htA, htH, ht3]; simp only [String.append_assoc]⟩
      · rename_i out5 hb
        obtain ⟨tB, htB⟩ := bodyLoop_prefix _ _ _ _ _ _ hb
        simp only [Option.some.injEq, Prod.mk.injEq] at h
        exact ⟨t3 ++ tH ++ tA ++ "Content-Type: application/json\n" ++ "\n" ++ tB ++ "\n", by
          rw [← h.1, htB, htA, htH, ht3]; simp only [String.append_assoc]⟩

/-- C15.  When every query and path parameter of the request is synthesized
without error in the plain context and `writeRequest` returns, the buffer
holds, after the old buffer and the comment lines, the request line: the
method in upper case, a blank, the scheme (the first declared scheme, `http`
when none is declared), `://`, host, base path, the resolved path and a
newline.  The resolved path is the path template in which, for each
parameter located in `path`, taken in order, every occurrence of its
placeholder has been replaced by its plain value. -/
theorem writeRequest_request_line (unicodeUpper : Char → Char)
    (ord : GoMap Json → List (String × Json)) (fuel : Nat) (s : Swagger) (out path : String)
    (req : Request) (res : String) (e : Option Err)
    (hsyn : ∀ p ∈ req.Params, (p.In = "query" ∨ p.In = "path") →
      ∃ v, GetDefault ord fuel p s.refs EFormatString = some (v, none))
    (h : writeRequest unicodeUpper ord fuel s out path req = some (res, e)) :
    (∃ tail, res = out ++ writeComments req
      ++ (ToUpper unicodeUpper req.Method ++ " " ++ selectScheme s ++ "://" ++ s.Host
          ++ s.BasePath
          ++ req.Params.foldl (fun acc p =>
              if p.In = "path" then
                ReplaceAll acc ("\x7b" ++ p.Name ++ "\x7d")
                  ((GetDefault ord fuel p s.refs EFormatString).getD ("", none)).1
              else acc) path
          ++ "\n") ++ tail)
    ∧ (s.Schemes = [] → selectScheme s = "http")
    ∧ (∀ x xs, s.Schemes = x :: xs → selectScheme s = x) := by
  refine ⟨?_, ?_, ?_⟩
  · obtain ⟨queries1, hq⟩ := queryPathLoop_ok
      (fun p => GetDefault ord fuel p s.refs EFormatString) req.Params [] path hsyn
    exact writeRequest_line unicodeUpper ord fuel s out path req res e queries1 _ hq h
  · intro hs; simp [selectScheme, hs]
  · intro x xs hs; simp [selectScheme, hs]

/-- Witness of C15: host `api.example.com`, base path `/v1`, scheme `https`,
the path `/pets/{id}` and a `get` with the string path parameter `id`. -/
theorem writeRequest_request_line_witness :
    writeRequest id id 1
        { Host := "api.example.com", BasePath := "/v1", Schemes := ["https"] } "" "/pets/\x7bid\x7d"
        { Method := "get", Params := [{ In := "path", Name := "id", Typ := "string" }] }
      = some ("###\n# .\n# \nGET https://api.example.com/v1/pets/string\n"
          ++ "Content-Type: application/json\n\n\n", none)
    ∧ ∃ tail, "###\n# .\n# \nGET https://api.example.com/v1/pets/string\n"
          ++ "Content-Type: application/json\n\n\n"
        = "" ++ writeComments
            { Method := "get", Params := [{ In := "path", Name := "id", Typ := "string" }] }
          ++ (ToUpper id "get" ++ " "
              ++ selectScheme
                  { Host := "api.example.com", BasePath := "/v1", Schemes := ["https"] }
              ++ "://" ++ "api.example.com" ++ "/v1"
              ++ [({ In := "path", Name := "id", Typ := "string" } : Param)].foldl (fun acc p =>
                  if p.In = "path" then
                    ReplaceAll acc ("\x7b" ++ p.Name ++ "\x7d")
                      ((GetDefault id 1 p [] EFormatString).getD ("", none)).1
                  else acc) "/pets/\x7bid\x7d"
              ++ "\n") ++ tail :=
  ⟨by decide,
   (writeRequest_request_line id id 1
      { Host := "api.example.com", BasePath := "/v1", Schemes := ["https"] } "" "/pets/\x7bid\x7d"
      { Method := "get", Params := [{ In := "path", Name := "id", Typ := "string" }] } _ none
      (by
        intro p hp _
        have hp' : p = { In := "path", Name := "id", Typ := "string" } := by simpa using hp
        subst hp'
        exact ⟨"string", by decide⟩)
      (by decide)).1⟩

/-! ## Security lines -/

theorem schemeLoop_ok (securities : GoMap Json) :
    ∀ (ks : List String) (out : String),
      (∀ k ∈ ks, ∀ sr, GoMap.get? securities k = some sr →
        (UnpackTo decodeParam (some sr) {}).2 = none) →
      schemeLoop securities ks out
        = (out ++ (ks.map (authLine securities)).foldr (fun l acc => l ++ acc) "", none) := by
  intro ks
  induction ks with
  | nil => intro out _; simp [schemeLoop]
  | cons k ks ih =>
      intro out h
      have hks : ∀ k' ∈ ks, ∀ sr, GoMap.get? securities k' = some sr →
          (UnpackTo decodeParam (some sr) {}).2 = none :=
        fun k' hk' => h k' (List.mem_cons_of_mem _ hk')
      simp only [schemeLoop, List.map_cons, List.foldr_cons]
      cases hget : GoMap.get? securities k with
      | none =>
          simp only [authLine, hget]
          rw [ih out hks]
          simp
      | some sr =>
          have hd := h k (List.mem_cons_self _ _) sr hget
          simp only [hd, authLine, hget]
          by_cases hin : (UnpackTo decodeParam (some sr) {}).1.In = "header"
          · have hlit : ": \x7b\x7b_auth_" = ": \x7b\x7b" ++ "_auth_" := by decide
            simp only [hin, if_true]
            rw [ih _ hks, hlit]
            simp only [String.append_assoc]
          · simp only [hin, if_false]
            rw [ih _ hks]
            simp

theorem foldr_append_strings (xs ys : List String) :
    (xs ++ ys).foldr (fun l acc => l ++ acc) ""
      = xs.foldr (fun l acc => l ++ acc) "" ++ ys.foldr (fun l acc => l ++ acc) "" := by
  induction xs with
  | nil => simp
  | cons x xs ih => simp [ih, String.append_assoc]

theorem securityLoop_ok (ord : GoMap Json → List (String × Json)) (securities : GoMap Json) :
    ∀ (rs : List lazyRaw) (out : String),
      (∀ r ∈ rs, (UnpackToMap r).2 = none
        ∧ ∀ k ∈ (ord (UnpackToMap r).1).map Prod.fst, ∀ sr,
            GoMap.get? securities k = some sr → (UnpackTo decodeParam (some sr) {}).2 = none) →
      securityLoop ord securities rs out = (out ++ authLines ord securities rs, none) := by
  intro rs
  induction rs with
  | nil => intro out _; simp [securityLoop, authLines]
  | cons r rs ih =>
      intro out h
      have hr := h r (List.mem_cons_self _ _)
      simp only [securityLoop, hr.1, schemeLoop_ok securities _ out hr.2]
      rw [ih _ (fun r' hr' => h r' (List.mem_cons_of_mem _ hr'))]
      simp only [authLines, List.flatMap_cons, foldr_append_strings, String.append_assoc]

/-- The buffer after a `writeRequest` that returns no error: it ends the
security loop, started on some buffer, without error, and goes on with the
content type line. -/
theorem writeRequest_security (unicodeUpper : Char → Char)
    (ord : GoMap Json → List (String × Json)) (fuel : Nat) (s : Swagger) (out path : String)
    (req : Request) (res : String)
    (h : writeRequest unicodeUpper ord fuel s out path req = some (res, none)) :
    ∃ outH post, (securityLoop ord s.securities req.Security outH).2 = none
      ∧ res = (securityLoop ord s.securities req.Security outH).1
          ++ "Content-Type: application/json\n" ++ post := by
  unfold writeRequest at h
  simp only at h
  split at h
  · simp at h
  · simp at h
  · rename_i queries path1 _
    generalize (if queries.length > 0 then
        out ++ writeComments req ++ (ToUpper unicodeUpper req.Method ++ " " ++ selectScheme s
          ++ "://" ++ s.Host ++ s.BasePath ++ path1 ++ "\n")
          ++ (" ?" ++ valuesEncode queries ++ "\n")
      else out ++ writeComments req ++ (ToUpper unicodeUpper req.Method ++ " " ++ selectScheme s
          ++ "://" ++ s.Host ++ s.BasePath ++ path1 ++ "\n")) = out3 at h
    split at h
    · simp at h
    · split at h
      · simp at h
      · rename_i ha
        split at h
        · simp at h
        · simp at h
        · rename_i out5 hb
          obtain ⟨tB, htB⟩ := bodyLoop_prefix _ _ _ _ _ _ hb
          simp only [Option.some.injEq, Prod.mk.injEq, and_true] at h
          refine ⟨(headerLoop s.refs req.Params out3).1, "\n" ++ tB ++ "\n", ha, ?_⟩
          rw [← h, htB]
          simp only [String.append_assoc]

/-- The scheme loop stops at the first name, in visiting order, whose scheme
is in the table and fails to decode: it answers that error, and the buffer
holds the lines of the names visited before. -/
theorem schemeLoop_first_failure (securities : GoMap Json) (k : String) (post : List String)
    (sr : Json) (e : Err) (hk : GoMap.get? securities k = some sr)
    (he : (UnpackTo decodeParam (some sr) {}).2 = some e) :
    ∀ (pre : List String) (out : String),
      (∀ k' ∈ pre, ∀ sr', GoMap.get? securities k' = some sr' →
        (UnpackTo decodeParam (some sr') {}).2 = none) →
      schemeLoop securities (pre ++ k :: post) out
        = (out ++ (pre.map (authLine securities)).foldr (fun l acc => l ++ acc) "", some e) := by
  intro pre
  induction pre with
  | nil =>
      intro out _
      simp [schemeLoop, hk, he]
  | cons k' ks ih =>
      intro out h
      have hks : ∀ k'' ∈ ks, ∀ sr', GoMap.get? securities k'' = some sr' →
          (UnpackTo decodeParam (some sr') {}).2 = none :=
        fun k'' hk'' => h k'' (List.mem_cons_of_mem _ hk'')
      rw [List.cons_append]
      simp only [schemeLoop, List.map_cons, List.foldr_cons]
      cases hget : GoMap.get? securities k' with
      | none =>
          simp only [authLine, hget]
          rw [ih out hks]
          simp
      | some sr' =>
          have hd := h k' (List.mem_cons_self _ _) sr' hget
          simp only [hd, authLine, hget]
          by_cases hin : (UnpackTo decodeParam (some sr') {}).1.In = "header"
          · have hlit : ": \x7b\x7b_auth_" = ": \x7b\x7b" ++ "_auth_" := by decide
            simp only [hin, if_true]
            rw [ih _ hks, hlit]
            simp only [String.append_assoc]
          · simp only [hin, if_false]
            rw [ih _ hks]
            simp

/-- The security loop, past the requirements that decode together with their
listed schemes, goes on with the remaining requirements on the buffer that
holds their lines. -/
theorem securityLoop_append (ord : GoMap Json → List (String × Json)) (securities : GoMap Json)
    (rest : List lazyRaw) :
    ∀ (rs : List lazyRaw) (out : String),
      (∀ r ∈ rs, (UnpackToMap r).2 = none
        ∧ ∀ k ∈ (ord (UnpackToMap r).1).map Prod.fst, ∀ sr,
            GoMap.get? securities k = some sr → (UnpackTo decodeParam (some sr) {}).2 = none) →
      securityLoop ord securities (rs ++ rest) out
        = securityLoop ord securities rest (out ++ authLines ord securities rs) := by
  intro rs
  induction rs with
  | nil => intro out _; simp [authLines]
  | cons r rs ih =>
      intro out h
      have hr := h r (List.mem_cons_self _ _)
      rw [List.cons_append]
      simp only [securityLoop, hr.1, schemeLoop_ok securities _ out hr.2]
      rw [ih _ (fun r' hr' => h r' (List.mem_cons_of_mem _ hr'))]
      simp only [authLines, List.flatMap_cons, foldr_append_strings, String.append_assoc]

/-- A `writeRequest` whose security loop fails on every buffer returns an
error whenever it returns. -/
theorem writeRequest_security_failure (unicodeUpper : Char → Char)
    (ord : GoMap Json → List (String × Json)) (fuel : Nat) (s : Swagger) (out path : String)
    (req : Request)
    (hfail : ∀ outH, (securityLoop ord s.securities req.Security outH).2 ≠ none)
    (res : String) (err : Option Err)
    (h : writeRequest unicodeUpper ord fuel s out path req = some (res, err)) : err ≠ none := by
  intro hnone
  subst hnone
  obtain ⟨outH, _, hok, _⟩ := writeRequest_security unicodeUpper ord fuel s out path req res h
  exact hfail outH hok

/-- C16 (amended).  For the scheme names listed by the security requirements
of a request: (1) a name that is a key of the security table and decodes to a
scheme located in `header` with the parameter name `N` contributes the line
`N: {{_auth_N'}}`, `N'` being `N` with every hyphen replaced by an underscore;
(2) a name that is not a key of the table contributes nothing.  (3) When every
requirement decodes to a map and every listed scheme found in the table
decodes, the security loop returns no error and appends exactly these lines,
requirement after requirement, and a `writeRequest` that returns no error has
written them right before the content type line.  (4) When a requirement does
not decode to a map, the requirements before it being as in (3), the security
loop returns its decode error after the lines of the requirements before it,
and `writeRequest` returns an error whenever it returns.  (5) When a listed
scheme found in the table does not decode, the requirements before its
requirement being as in (3) and the schemes of the names visited before it in
the same requirement decoding, the security loop returns its decode error
after the lines of the requirements before and of the names visited before,
with no line for any name visited after it, and `writeRequest` returns an
error whenever it returns. -/
theorem writeRequest_auth_lines (unicodeUpper : Char → Char)
    (ord : GoMap Json → List (String × Json)) (fuel : Nat) (s : Swagger) (out path : String)
    (req : Request) :
    (∀ k sr, GoMap.get? s.securities k = some sr →
        (UnpackTo decodeParam (some sr) {}).1.In = "header" →
        authLine s.securities k
          = (UnpackTo decodeParam (some sr) {}).1.Name ++ ": \x7b\x7b_auth_"
            ++ ReplaceAll (UnpackTo decodeParam (some sr) {}).1.Name "-" "_" ++ "\x7d\x7d\n")
    ∧ (∀ k, GoMap.get? s.securities k = none → authLine s.securities k = "")
    ∧ ((∀ r ∈ req.Security, (UnpackToMap r).2 = none
          ∧ ∀ k ∈ (ord (UnpackToMap r).1).map Prod.fst, ∀ sr,
              GoMap.get? s.securities k = some sr →
              (UnpackTo decodeParam (some sr) {}).2 = none) →
        (∀ outH, securityLoop ord s.securities req.Security outH
          = (outH ++ authLines ord s.securities req.Security, none))
        ∧ (∀ res, writeRequest unicodeUpper ord fuel s out path req = some (res, none) →
            ∃ pre post, res = pre ++ authLines ord s.securities req.Security
              ++ "Content-Type: application/json\n" ++ post))
    ∧ (∀ rs1 r rs2 e, req.Security = rs1 ++ r :: rs2 →
        (∀ r' ∈ rs1, (UnpackToMap r').2 = none
          ∧ ∀ k ∈ (ord (UnpackToMap r').1).map Prod.fst, ∀ sr,
              GoMap.get? s.securities k = some sr →
              (UnpackTo decodeParam (some sr) {}).2 = none) →
        (UnpackToMap r).2 = some e →
        (∀ outH, securityLoop ord s.securities req.Security outH
          = (outH ++ authLines ord s.securities rs1, some e))
        ∧ (∀ res err, writeRequest unicodeUpper ord fuel s out path req = some (res, err) →
            err ≠ none))
    ∧ (∀ rs1 r rs2 pre k post sr e, req.Security = rs1 ++ r :: rs2 →
        (∀ r' ∈ rs1, (UnpackToMap r').2 = none
          ∧ ∀ k ∈ (ord (UnpackToMap r').1).map Prod.fst, ∀ sr,
              GoMap.get? s.securities k = some sr →
              (UnpackTo decodeParam (some sr) {}).2 = none) →
        (UnpackToMap r).2 = none →
        (ord (UnpackToMap r).1).map Prod.fst = pre ++ k :: post →
        (∀ k' ∈ pre, ∀ sr', GoMap.get? s.securities k' = some sr' →
          (UnpackTo decodeParam (some sr') {}).2 = none) →
        GoMap.get? s.securities k = some sr →
        (UnpackTo decodeParam (some sr) {}).2 = some e →
        (∀ outH, securityLoop ord s.securities req.Security outH
          = (outH ++ authLines ord s.securities rs1
              ++ (pre.map (authLine s.securities)).foldr (fun l acc => l ++ acc) "", some e))
        ∧ (∀ res err, writeRequest unicodeUpper ord fuel s out path req = some (res, err) →
            err ≠ none)) := by
  refine ⟨?_, ?_, ?_, ?_, ?_⟩
  · intro k sr hk hin
    simp [authLine, hk, hin]
  · intro k hk
    simp [authLine, hk]
  · intro hreq
    refine ⟨fun outH => securityLoop_ok ord s.securities req.Security outH hreq, ?_⟩
    intro res h
    obtain ⟨outH, post, _, hres⟩ := writeRequest_security unicodeUpper ord fuel s out path req res h
    rw [securityLoop_ok ord s.securities req.Security outH hreq] at hres
    exact ⟨outH, post, hres⟩
  · intro rs1 r rs2 e hsplit hrs1 hr
    have hloop : ∀ outH, securityLoop ord s.securities req.Security outH
        = (outH ++ authLines ord s.securities rs1, some e) := by
      intro outH
      rw [hsplit, securityLoop_append ord s.securities (r :: rs2) rs1 outH hrs1]
      simp [securityLoop, hr]
    refine ⟨hloop, ?_⟩
    intro res err h
    exact writeRequest_security_failure unicodeUpper ord fuel s out path req
      (fun outH => by rw [hloop outH]; simp) res err h
  · intro rs1 r rs2 pre k post sr e hsplit hrs1 hr hnames hpre hk he
    have hloop : ∀ outH, securityLoop ord s.securities req.Security outH
        = (outH ++ authLines ord s.securities rs1
            ++ (pre.map (authLine s.securities)).foldr (fun l acc => l ++ acc) "", some e) := by
      intro outH
      rw [hsplit, securityLoop_append ord s.securities (r :: rs2) rs1 outH hrs1]
      simp only [securityLoop, hr, hnames,
        schemeLoop_first_failure s.securities k post sr e hk he pre _ hpre]
    refine ⟨hloop, ?_⟩
    intro res err h
    exact writeRequest_security_failure unicodeUpper ord fuel s out path req
      (fun outH => by rw [hloop outH]; simp) res err h

/-- Counterexample to C16 as stated: the security table holds the header
scheme `apiKey` with the parameter name `X-API-KEY` and the scheme `bad`, a
JSON string, which does not decode; the requirement lists both.  When `bad` is
visited first, `writeRequest` returns the decode error and has written no line
for `apiKey`; when `apiKey` is visited first its line is written and the
decode error is returned.  A requirement that lists `bad` and the name
`oauth`, which the table does not hold, returns the error as well. -/
theorem writeRequest_auth_lines_decode_failure :
    (GoMap.get? [("apiKey", Json.obj [("type", .str "apiKey"), ("in", .str "header"),
                                       ("name", .str "X-API-KEY")]),
                 ("bad", Json.str "oops")] "apiKey").isSome = true
    ∧ (UnpackTo decodeParam (some (Json.obj [("type", .str "apiKey"), ("in", .str "header"),
                                             ("name", .str "X-API-KEY")])) {}).2 = none
    ∧ (UnpackTo decodeParam (some (Json.obj [("type", .str "apiKey"), ("in", .str "header"),
                                             ("name", .str "X-API-KEY")])) {}).1.In = "header"
    ∧ (UnpackTo decodeParam (some (Json.obj [("type", .str "apiKey"), ("in", .str "header"),
                                             ("name", .str "X-API-KEY")])) {}).1.Name
        = "X-API-KEY"
    ∧ writeRequest id id 1
        { securities := [("apiKey", Json.obj [("type", .str "apiKey"), ("in", .str "header"),
                                              ("name", .str "X-API-KEY")]),
                         ("bad", Json.str "oops")] }
        "" "/pets"
        { Method := "get", Security := [some (Json.obj [("bad", .arr []), ("apiKey", .arr [])])] }
      = some ("###\n# .\n# \nGET http:///pets\n", some Err.unmarshalType)
    ∧ writeRequest id List.reverse 1
        { securities := [("apiKey", Json.obj [("type", .str "apiKey"), ("in", .str "header"),
                                              ("name", .str "X-API-KEY")]),
                         ("bad", Json.str "oops")] }
        "" "/pets"
        { Method := "get", Security := [some (Json.obj [("bad", .arr []), ("apiKey", .arr [])])] }
      = some ("###\n# .\n# \nGET http:///pets\nX-API-KEY: \x7b\x7b_auth_X_API_KEY\x7d\x7d\n",
          some Err.unmarshalType)
    ∧ (GoMap.get? [("apiKey", Json.obj [("type", .str "apiKey"), ("in", .str "header"),
                                         ("name", .str "X-API-KEY")]),
                   ("bad", Json.str "oops")] "oauth").isNone = true
    ∧ writeRequest id id 1
        { securities := [("apiKey", Json.obj [("type", .str "apiKey"), ("in", .str "header"),
                                              ("name", .str "X-API-KEY")]),
                         ("bad", Json.str "oops")] }
        "" "/pets"
        { Method := "get", Security := [some (Json.obj [("oauth", .arr []), ("bad", .arr [])])] }
      = some ("###\n# .\n# \nGET http:///pets\n", some Err.unmarshalType) := by
  decide

/-- Witness of C16: the requirement names the scheme `apiKey`, a header scheme
with the parameter name `X-API-KEY`, and the scheme `oauth`, which the table
does not hold. -/
theorem writeRequest_auth_lines_witness :
    authLines id
        [("apiKey", Json.obj [("type", .str "apiKey"), ("in", .str "header"),
                              ("name", .str "X-API-KEY")])]
        [some (Json.obj [("apiKey", .arr []), ("oauth", .arr [])])]
      = "X-API-KEY: \x7b\x7b_auth_X_API_KEY\x7d\x7d\n"
    ∧ ∃ pre post, "###\n# .\n# \nGET http:///pets\nX-API-KEY: \x7b\x7b_auth_X_API_KEY\x7d\x7d\nContent-Type: application/json\n\n\n"
        = pre ++ authLines id
            [("apiKey", Json.obj [("type", .str "apiKey"), ("in", .str "header"),
                                  ("name", .str "X-API-KEY")])]
            [some (Json.obj [("apiKey", .arr []), ("oauth", .arr [])])]
          ++ "Content-Type: application/json\n" ++ post :=
  ⟨by decide,
   ((writeRequest_auth_lines id id 1
      { securities := [("apiKey", Json.obj [("type", .str "apiKey"), ("in", .str "header"),
                                            ("name", .str "X-API-KEY")])] }
      "" "/pets"
      { Method := "get", Security := [some (Json.obj [("apiKey", .arr []), ("oauth", .arr [])])] }
      ).2.2.1
      (by
        intro r hr
        have hr' : r = some (Json.obj [("apiKey", .arr []), ("oauth", .arr [])]) := by
          simpa using hr
        subst hr'
        refine ⟨rfl, ?_⟩
        intro k _ sr hk
        have hk2 : k = "apiKey" := by
          by_contra hne
          have hne' : ¬ ("apiKey" = k) := fun e => hne e.symm
          simp [GoMap.get?, hne'] at hk
        subst hk2
        have hsr : sr = Json.obj [("type", .str "apiKey"), ("in", .str "header"),
            ("name", .str "X-API-KEY")] := by
          simpa [GoMap.get?] using hk.symm
        subst hsr
        rfl)).2 _ (by decide)⟩

/-! ## The reference table -/

theorem GoMap.get?_set {α : Type} (m : GoMap α) (k key : String) (v : α) :
    GoMap.get? (GoMap.set m k v) key = if k = key then some v else GoMap.get? m key := by
  induction m with
  | nil => simp [GoMap.set, GoMap.get?]
  | cons x xs ih =>
      obtain ⟨a, b⟩ := x
      simp only [GoMap.set]
      by_cases hak : a = k
      · subst hak
        simp only [if_true, GoMap.get?]
        split <;> rfl
      · simp only [hak, if_false, GoMap.get?, ih]
        by_cases ha : a = key
        · have hk : ¬ k = key := fun e => hak (ha.trans e.symm)
          simp [ha, hk]
        · simp [ha]

theorem GoMap.get?_mem {α : Type} (m : GoMap α) (k : String) (v : α)
    (h : GoMap.get? m k = some v) : k ∈ m.map Prod.fst := by
  induction m with
  | nil => simp [GoMap.get?] at h
  | cons x xs ih =>
      obtain ⟨a, b⟩ := x
      simp only [GoMap.get?] at h
      by_cases ha : a = k
      · simp [ha]
      · simp only [ha, if_false] at h
        simp [ih h]

theorem String.append_left_cancel (a b c : String) (h : a ++ b = a ++ c) : b = c := by
  apply String.ext
  have := congrArg String.data h
  simpa [String.data_append] using this

theorem loadLoop_keep (keyPre : String) (m : GoMap Json) (r : String) (v : Json)
    (hm : GoMap.get? m r = some v) :
    ∀ (keys : List String) (dst : GoMap Json),
      GoMap.get? dst (keyPre ++ r) = some v →
      GoMap.get? (loadLoop keyPre m keys dst) (keyPre ++ r) = some v := by
  intro keys
  induction keys with
  | nil => intro dst h; exact h
  | cons r' rest ih =>
      intro dst h
      simp only [loadLoop]
      cases hr' : GoMap.get? m r' with
      | none => exact ih dst h
      | some v' =>
          refine ih _ ?_
          rw [GoMap.get?_set]
          by_cases he : keyPre ++ r' = keyPre ++ r
          · have : r' = r := String.append_left_cancel _ _ _ he
            subst this
            rw [hm] at hr'
            simp [he, hr']
          · simp [he, h]

theorem loadLoop_get_mem (keyPre : String) (m : GoMap Json) (r : String) (v : Json)
    (hm : GoMap.get? m r = some v) :
    ∀ (keys : List String) (dst : GoMap Json), r ∈ keys →
      GoMap.get? (loadLoop keyPre m keys dst) (keyPre ++ r) = some v := by
  intro keys
  induction keys with
  | nil => intro dst h; simp at h
  | cons r' rest ih =>
      intro dst h
      simp only [loadLoop]
      rcases List.mem_cons.mp h with rfl | h
      · rw [hm]
        exact loadLoop_keep keyPre m r v hm rest _ (by simp [GoMap.get?_set])
      · cases hr' : GoMap.get? m r' with
        | none => exact ih dst h
        | some v' => exact ih _ h

theorem loadLoop_get_inv (keyPre : String) (m : GoMap Json) (key : String) (v : Json) :
    ∀ (keys : List String) (dst : GoMap Json),
      GoMap.get? (loadLoop keyPre m keys dst) key = some v →
      GoMap.get? dst key = some v
        ∨ ∃ r ∈ keys, key = keyPre ++ r ∧ GoMap.get? m r = some v := by
  intro keys
  induction keys with
  | nil => intro dst h; exact Or.inl h
  | cons r' rest ih =>
      intro dst h
      simp only [loadLoop] at h
      cases hr' : GoMap.get? m r' with
      | none =>
          rw [hr'] at h
          rcases ih dst h with h1 | ⟨r, hr, h2⟩
          · exact Or.inl h1
          · exact Or.inr ⟨r, List.mem_cons_of_mem _ hr, h2⟩
      | some v' =>
          rw [hr'] at h
          rcases ih _ h with h1 | ⟨r, hr, h2⟩
          · rw [GoMap.get?_set] at h1
            by_cases he : keyPre ++ r' = key
            · simp only [he, if_true, Option.some.injEq] at h1
              subst h1
              exact Or.inr ⟨r', List.mem_cons_self _ _, he.symm, hr'⟩
            · simp only [he, if_false] at h1
              exact Or.inl h1
          · exact Or.inr ⟨r, List.mem_cons_of_mem _ hr, h2⟩

theorem loadLoop_other (keyPre : String) (m : GoMap Json) (key : String)
    (hne : ∀ r, keyPre ++ r ≠ key) :
    ∀ (keys : List String) (dst : GoMap Json),
      GoMap.get? (loadLoop keyPre m keys dst) key = GoMap.get? dst key := by
  intro keys
  induction keys with
  | nil => intro dst; rfl
  | cons r' rest ih =>
      intro dst
      simp only [loadLoop]
      cases hr' : GoMap.get? m r' with
      | none => exact ih dst
      | some v' =>
          simp only
          rw [ih, GoMap.get?_set]
          simp [hne r']

/-- The two namespaces of the reference table never collide. -/
theorem definitions_ne_parameters (a b : String) :
    "#/definitions/" ++ a ≠ "#/parameters/" ++ b := by
  intro h
  have := congrArg String.data h
  have h1 : "#/definitions/".data
      = ['#', '/', 'd', 'e', 'f', 'i', 'n', 'i', 't', 'i', 'o', 'n', 's', '/'] := rfl
  have h2 : "#/parameters/".data
      = ['#', '/', 'p', 'a', 'r', 'a', 'm', 'e', 't', 'e', 'r', 's', '/'] := rfl
  simp [String.data_append, h1, h2] at this

/-- C13.  The tables after a `loadRef` that returns no error: every name of
the definitions collection is bound, under the key `#/definitions/` + name, to
its node; every name of the reusable-parameters collection is bound, under
`#/parameters/` + name, to its node; the reference table has no other
binding, and the two namespaces never collide; the security table binds
exactly the names of the security-definitions collection, each to its node.
A missing collection decodes to the empty map without error, and `loadRef`
returns no error whenever the definitions and the parameters decode. -/
theorem loadRef_tables (ord : GoMap Json → List (String × Json))
    (hord : ∀ m, (ord m).Perm m) (s : Swagger) :
    UnpackToMap none = ([], none)
    ∧ ((UnpackToMap s.Definitions).2 = none → (UnpackToMap s.Parameters).2 = none →
        (loadRef ord s).2 = none)
    ∧ ((loadRef ord s).2 = none →
        (∀ n v, GoMap.get? (UnpackToMap s.Definitions).1 n = some v →
          GoMap.get? (loadRef ord s).1.refs ("#/definitions/" ++ n) = some v)
        ∧ (∀ n v, GoMap.get? (UnpackToMap s.Parameters).1 n = some v →
          GoMap.get? (loadRef ord s).1.refs ("#/parameters/" ++ n) = some v)
        ∧ (∀ key v, GoMap.get? (loadRef ord s).1.refs key = some v →
            (∃ n, key = "#/definitions/" ++ n
                ∧ GoMap.get? (UnpackToMap s.Definitions).1 n = some v)
            ∨ (∃ n, key = "#/parameters/" ++ n
                ∧ GoMap.get? (UnpackToMap s.Parameters).1 n = some v))
        ∧ (∀ k, GoMap.get? (loadRef ord s).1.securities k
            = GoMap.get? (UnpackToMap s.SecurityDefinitions).1 k))
    ∧ (∀ a b, "#/definitions/" ++ a ≠ "#/parameters/" ++ b) := by
  have hmem : ∀ (m : GoMap Json) (n : String) (v : Json), GoMap.get? m n = some v →
      n ∈ (ord m).map Prod.fst := fun m n v h =>
    ((hord m).map Prod.fst).symm.subset (GoMap.get?_mem m n v h)
  refine ⟨rfl, ?_, ?_, definitions_ne_parameters⟩
  · intro hd hp
    simp [loadRef, hd, hp]
  · intro hok
    cases hd : (UnpackToMap s.Definitions).2 with
    | some e => simp [loadRef, hd] at hok
    | none =>
      cases hp : (UnpackToMap s.Parameters).2 with
      | some e => simp [loadRef, hd, hp] at hok
      | none =>
        have hrefs : (loadRef ord s).1.refs
            = loadLoop "#/parameters/" (UnpackToMap s.Parameters).1
                ((ord (UnpackToMap s.Parameters).1).map Prod.fst)
                (loadLoop "#/definitions/" (UnpackToMap s.Definitions).1
                  ((ord (UnpackToMap s.Definitions).1).map Prod.fst) []) := by
          simp [loadRef, hd, hp]
        have hsecs : (loadRef ord s).1.securities
            = loadLoop "" (UnpackToMap s.SecurityDefinitions).1
                ((ord (UnpackToMap s.SecurityDefinitions).1).map Prod.fst) [] := by
          simp [loadRef, hd, hp]
        refine ⟨?_, ?_, ?_, ?_⟩
        · intro n v hn
          rw [hrefs, loadLoop_other _ _ _ (fun r => (definitions_ne_parameters n r).symm)]
          exact loadLoop_get_mem _ _ n v hn _ _ (hmem _ n v hn)
        · intro n v hn
          rw [hrefs]
          exact loadLoop_get_mem _ _ n v hn _ _ (hmem _ n v hn)
        · intro key v hkey
          rw [hrefs] at hkey
          rcases loadLoop_get_inv _ _ key v _ _ hkey with h1 | ⟨r, _, h2, h3⟩
          · rcases loadLoop_get_inv _ _ key v _ _ h1 with h0 | ⟨r, _, h2, h3⟩
            · simp [GoMap.get?] at h0
            · exact Or.inl ⟨r, h2, h3⟩
          · exact Or.inr ⟨r, h2, h3⟩
        · intro k
          rw [hsecs]
          cases hk : GoMap.get? (UnpackToMap s.SecurityDefinitions).1 k with
          | some v =>
              have := loadLoop_get_mem "" _ k v hk _ [] (hmem _ k v hk)
              simpa using this
          | none =>
              cases hl : GoMap.get? (loadLoop "" (UnpackToMap s.SecurityDefinitions).1
                  ((ord (UnpackToMap s.SecurityDefinitions).1).map Prod.fst) []) k with
              | none => rfl
              | some v =>
                  rcases loadLoop_get_inv _ _ k v _ _ hl with h0 | ⟨r, _, h2, h3⟩
                  · simp [GoMap.get?] at h0
                  · have : k = r := by simpa using h2
                    subst this
                    rw [hk] at h3
                    simp at h3

/-- Witness of C13: one definition, one reusable parameter, one security
scheme. -/
theorem loadRef_tables_witness :
    GoMap.get?
        (loadRef id
          { Definitions := some (.obj [("Pet", .obj [("type", .str "object")])]),
            Parameters := some (.obj [("limit", .obj [("in", .str "query")])]),
            SecurityDefinitions := some (.obj [("apiKey", .obj [("in", .str "header")])]) }).1.refs
        ("#/parameters/" ++ "limit")
      = some (.obj [("in", .str "query")]) :=
  ((loadRef_tables id (fun m => List.Perm.refl m)
      { Definitions := some (.obj [("Pet", .obj [("type", .str "object")])]),
        Parameters := some (.obj [("limit", .obj [("in", .str "query")])]),
        SecurityDefinitions := some (.obj [("apiKey", .obj [("in", .str "header")])]) }).2.2.1
    rfl).2.1 "limit" _ rfl

/-! ## Termination -/

theorem propertiesLoop_mono (synth synth' : Param → Option (String × Option Err))
    (hs : ∀ np r, synth np = some r → synth' np = some r) :
    ∀ (l : List (String × Json)) (n : GoMap String) (y : GoMap String × Option Err),
      propertiesLoop synth l n = some y → propertiesLoop synth' l n = some y := by
  intro l
  induction l with
  | nil => intro n y h; exact h
  | cons x xs ih =>
      intro n y h
      obtain ⟨k, raw⟩ := x
      simp only [propertiesLoop] at h ⊢
      cases hdec : (UnpackTo decodeParam (some raw) {}).2 with
      | some e => rw [hdec] at h; exact h
      | none =>
          rw [hdec] at h
          simp only at h ⊢
          cases hsy : synth (UnpackTo decodeParam (some raw) {}).1 with
          | none => rw [hsy] at h; simp at h
          | some r =>
              rw [hsy] at h
              rw [hs _ r hsy]
              obtain ⟨c, oe⟩ := r
              cases oe with
              | some e => exact h
              | none => exact ih _ _ h

/-- More fuel does not change a result. -/
theorem GetDefault_mono (ord : GoMap Json → List (String × Json)) (refs : GoMap Json)
    (format : String) :
    ∀ (fuel : Nat) (p : Param) (r : String × Option Err),
      GetDefault ord fuel p refs format = some r →
      GetDefault ord (fuel + 1) p refs format = some r := by
  intro fuel
  induction fuel with
  | zero => intro p r h; simp [GetDefault] at h
  | succ n ih =>
      intro p r h
      rw [GetDefault] at h ⊢
      simp only [Option.map_eq_some'] at h ⊢
      obtain ⟨b, hb, hr⟩ := h
      refine ⟨b, ?_, hr⟩
      by_cases hD : p.Default = ""
      · simp only [hD, ne_eq, not_true_eq_false, if_false] at hb ⊢
        by_cases hR : p.Ref = ""
        · simp only [hR, not_true_eq_false, if_false] at hb ⊢
          by_cases hS : p.Schema.Ref = ""
          · simp only [hS, not_true_eq_false, if_false] at hb ⊢
            by_cases hT1 : p.Typ = ETypeString
            · simp only [hT1, if_true] at hb ⊢; exact hb
            · simp only [hT1, if_false] at hb ⊢
              by_cases hT2 : p.Typ = ETypeBoolean
              · simp only [hT2, if_true] at hb ⊢; exact hb
              · simp only [hT2, if_false] at hb ⊢
                by_cases hT3 : p.Typ = ETypeInteger
                · simp only [hT3, if_true] at hb ⊢; exact hb
                · simp only [hT3, if_false] at hb ⊢
                  by_cases hT4 : p.Typ = ETypeArray
                  · simp only [hT4, if_true] at hb ⊢; exact hb
                  · simp only [hT4, if_false] at hb ⊢
                    by_cases hT5 : p.Typ = ETypeObject
                    · simp only [hT5, if_true] at hb ⊢
                      by_cases hP : p.Properties.isNone = true
                      · simp only [hP, if_true] at hb ⊢; exact hb
                      · simp only [hP, if_false] at hb ⊢
                        cases hM : (UnpackToMap p.Properties).2 with
                        | some e => rw [hM] at hb; exact hb
                        | none =>
                            rw [hM] at hb
                            simp only at hb ⊢
                            cases hl : propertiesLoop (fun np => GetDefault ord n np refs format)
                                (ord (UnpackToMap p.Properties).1) [] with
                            | none => rw [hl] at hb; simp at hb
                            | some y =>
                                rw [hl] at hb
                                rw [propertiesLoop_mono _
                                  (fun np => GetDefault ord (n + 1) np refs format)
                                  (fun np r h => ih np r h) _ _ y hl]
                                exact hb
                    · simp only [hT5, if_false] at hb ⊢; exact hb
          · simp only [hS, not_false_eq_true, if_true] at hb ⊢
            split at hb
            · rename_i hc; simp only [hc, if_true]; exact hb
            · rename_i hc; simp only [hc, if_false]; exact ih _ _ hb
        · simp only [hR, not_false_eq_true, if_true] at hb ⊢
          split at hb
          · rename_i hc; simp only [hc, if_true]; exact hb
          · rename_i hc; simp only [hc, if_false]; exact ih _ _ hb
      · simp only [hD, ne_eq, not_false_eq_true, if_true] at hb ⊢
        exact hb

theorem GetDefault_mono_le (ord : GoMap Json → List (String × Json)) (refs : GoMap Json)
    (format : String) (p : Param) (r : String × Option Err) (fuel fuel' : Nat)
    (hle : fuel ≤ fuel') (h : GetDefault ord fuel p refs format = some r) :
    GetDefault ord fuel' p refs format = some r := by
  induction hle with
  | refl => exact h
  | step _ ih => exact GetDefault_mono ord refs format _ p r ih

theorem GetDefault_ne_none_le (ord : GoMap Json → List (String × Json)) (refs : GoMap Json)
    (format : String) (p : Param) (fuel fuel' : Nat) (hle : fuel ≤ fuel')
    (h : GetDefault ord fuel p refs format ≠ none) :
    GetDefault ord fuel' p refs format ≠ none := by
  obtain ⟨r, hr⟩ := Option.ne_none_iff_exists'.mp h
  rw [GetDefault_mono_le ord refs format p r fuel fuel' hle hr]
  simp

/-- One step of the recursion: when every call made on `p` returns with the
fuel `fuel`, the call on `p` returns with one more. -/
theorem GetDefault_step (ord : GoMap Json → List (String × Json))
    (hord : ∀ m, (ord m).Perm m) (refs : GoMap Json) (format : String) (fuel : Nat) (p : Param)
    (h : ∀ q, Calls refs p q → GetDefault ord fuel q refs format ≠ none) :
    GetDefault ord (fuel + 1) p refs format ≠ none := by
  rw [GetDefault]
  simp only [ne_eq, Option.map_eq_none']
  by_cases hD : p.Default = ""
  · simp only [hD, ne_eq, not_true_eq_false, if_false]
    by_cases hR : p.Ref = ""
    · simp only [hR, not_true_eq_false, if_false]
      by_cases hS : p.Schema.Ref = ""
      · simp only [hS, not_true_eq_false, if_false]
        by_cases hT1 : p.Typ = ETypeString
        · simp only [hT1, if_true]
          split
          · simp
          · split
            · simp
            · split <;> simp
        · simp only [hT1, if_false]
          by_cases hT2 : p.Typ = ETypeBoolean
          · simp [hT2]
          · simp only [hT2, if_false]
            by_cases hT3 : p.Typ = ETypeInteger
            · simp [hT3]
            · simp only [hT3, if_false]
              by_cases hT4 : p.Typ = ETypeArray
              · simp only [hT4, if_true]
                split
                · simp
                · split
                  · simp
                  · split <;> simp
              · simp only [hT4, if_false]
                by_cases hT5 : p.Typ = ETypeObject
                · simp only [hT5, if_true]
                  by_cases hP : p.Properties.isNone = true
                  · simp [hP]
                  · simp only [hP, if_false]
                    cases hM : (UnpackToMap p.Properties).2 with
                    | some e => simp
                    | none =>
                        simp only
                        have htot := propertiesLoop_total
                          (fun np => GetDefault ord fuel np refs format)
                          (ord (UnpackToMap p.Properties).1) [] (by
                            intro kv hkv
                            cases hdec : (UnpackTo decodeParam (some kv.2) {}).2 with
                            | some e => exact Or.inl (by simp)
                            | none =>
                                exact Or.inr (h _ ⟨hD, Or.inr (Or.inr ⟨hR, hS, hT5, hM, kv,
                                  (hord _).subset hkv, Prod.ext rfl hdec⟩)⟩))
                        cases hl : propertiesLoop (fun np => GetDefault ord fuel np refs format)
                            (ord (UnpackToMap p.Properties).1) [] with
                        | none => exact absurd hl htot
                        | some y =>
                            obtain ⟨n, oe⟩ := y
                            cases oe <;> simp
                · simp [hT5]
      · simp only [hS, not_false_eq_true, if_true]
        split
        · simp
        · rename_i hc
          refine h _ ⟨hD, Or.inr (Or.inl ⟨hR, hS, Prod.ext rfl ?_⟩)⟩
          cases hx : (UnpackTo decodeParam (GoMap.index refs p.Schema.Ref) {}).2 with
          | none => rfl
          | some e => simp [hx] at hc
    · simp only [hR, not_false_eq_true, if_true]
      split
      · simp
      · rename_i hc
        refine h _ ⟨hD, Or.inl ⟨hR, Prod.ext rfl ?_⟩⟩
        cases hx : (UnpackTo decodeParam (GoMap.index refs p.Ref) {}).2 with
        | none => rfl
        | some e => simp [hx] at hc
  · simp [hD]

/-- The parameters that `GetDefault` can call from `p`. -/
theorem Calls_mem_list (refs : GoMap Json) (p q : Param) (h : Calls refs p q) :
    q ∈ [(UnpackTo decodeParam (GoMap.index refs p.Ref) {}).1,
          (UnpackTo decodeParam (GoMap.index refs p.Schema.Ref) {}).1]
        ++ (UnpackToMap p.Properties).1.map (fun kv => (UnpackTo decodeParam (some kv.2) {}).1) := by
  obtain ⟨_, h1 | h2 | h3⟩ := h
  · simp [h1.2]
  · simp [h2.2.2]
  · obtain ⟨_, _, _, _, kv, hkv, hq⟩ := h3
    refine List.mem_append_right _ (List.mem_map.mpr ⟨kv, hkv, ?_⟩)
    rw [hq]

theorem uniform_fuel (ord : GoMap Json → List (String × Json)) (refs : GoMap Json)
    (format : String) (C : Param → Prop) :
    ∀ L : List Param,
      (∀ q ∈ L, C q → ∃ f, GetDefault ord f q refs format ≠ none) →
      ∃ F, ∀ q ∈ L, C q → GetDefault ord F q refs format ≠ none := by
  intro L
  induction L with
  | nil => intro _; exact ⟨0, by simp⟩
  | cons x xs ih =>
      intro h
      obtain ⟨F, hF⟩ := ih (fun q hq => h q (List.mem_cons_of_mem _ hq))
      by_cases hx : C x
      · obtain ⟨f, hf⟩ := h x (List.mem_cons_self _ _) hx
        refine ⟨max f F, ?_⟩
        intro q hq hc
        rcases List.mem_cons.mp hq with rfl | hq
        · exact GetDefault_ne_none_le ord refs format _ f _ (le_max_left _ _) hf
        · exact GetDefault_ne_none_le ord refs format _ F _ (le_max_right _ _) (hF q hq hc)
      · refine ⟨F, ?_⟩
        intro q hq hc
        rcases List.mem_cons.mp hq with rfl | hq
        · exact absurd hc hx
        · exact hF q hq hc

/-- A call returns as soon as all the calls it makes return. -/
theorem terminates_of_calls (ord : GoMap Json → List (String × Json))
    (hord : ∀ m, (ord m).Perm m) (refs : GoMap Json) (format : String) (p : Param)
    (h : ∀ q, Calls refs p q → ∃ f, GetDefault ord f q refs format ≠ none) :
    ∃ f, GetDefault ord f p refs format ≠ none := by
  obtain ⟨F, hF⟩ := uniform_fuel ord refs format (Calls refs p) _
    (fun q _ hc => h q hc)
  exact ⟨F + 1, GetDefault_step ord hord refs format F p
    (fun q hq => hF q (Calls_mem_list refs p q hq) hq)⟩

/-- Where the relation of the recursive calls is accessible, the recursion
terminates. -/
theorem terminates_of_acc (ord : GoMap Json → List (String × Json))
    (hord : ∀ m, (ord m).Perm m) (refs : GoMap Json) (format : String) (p : Param)
    (h : Acc (fun q p => Calls refs p q) p) :
    ∃ f, GetDefault ord f p refs format ≠ none := by
  induction h with
  | intro p _ ih => exact terminates_of_calls ord hord refs format p (fun q hq => ih q hq)

/-! ### Properties shrink along the calls through properties -/

theorem setParamField_properties (p : Param) (key : String) (v : Json) :
    (setParamField p key v).1.Properties = p.Properties
      ∨ (setParamField p key v).1.Properties = some v := by
  unfold setParamField
  by_cases h0 : keyMatches key "In" = true
  · rw [if_pos h0]; exact Or.inl rfl
  rw [if_neg h0]
  by_cases h1 : keyMatches key "Type" = true
  · rw [if_pos h1]; exact Or.inl rfl
  rw [if_neg h1]
  by_cases h2 : keyMatches key "Name" = true
  · rw [if_pos h2]; exact Or.inl rfl
  rw [if_neg h2]
  by_cases h3 : keyMatches key "Default" = true
  · rw [if_pos h3]; exact Or.inl rfl
  rw [if_neg h3]
  by_cases h4 : keyMatches key "Required" = true
  · rw [if_pos h4]; exact Or.inl rfl
  rw [if_neg h4]
  by_cases h5 : keyMatches key "Schema" = true
  · rw [if_pos h5]; exact Or.inl rfl
  rw [if_neg h5]
  by_cases h6 : keyMatches key "$ref" = true
  · rw [if_pos h6]; exact Or.inl rfl
  rw [if_neg h6]
  by_cases h7 : keyMatches key "Format" = true
  · rw [if_pos h7]; exact Or.inl rfl
  rw [if_neg h7]
  by_cases h8 : keyMatches key "Enum" = true
  · rw [if_pos h8]; exact Or.inl rfl
  rw [if_neg h8]
  by_cases h9 : keyMatches key "Items" = true
  · rw [if_pos h9]; exact Or.inl rfl
  rw [if_neg h9]
  by_cases h10 : keyMatches key "Example" = true
  · rw [if_pos h10]; exact Or.inl rfl
  rw [if_neg h10]
  by_cases h11 : keyMatches key "Properties" = true
  · rw [if_pos h11]; exact Or.inr rfl
  rw [if_neg h11]
  exact Or.inl rfl

theorem decodeMembers_properties :
    ∀ (kvs : List (String × Json)) (p : Param),
      (decodeMembers setParamField kvs p).1.Properties = p.Properties
        ∨ ∃ kv ∈ kvs, (decodeMembers setParamField kvs p).1.Properties = some kv.2 := by
  intro kvs
  induction kvs with
  | nil => intro p; exact Or.inl rfl
  | cons x xs ih =>
      intro p
      obtain ⟨k, v⟩ := x
      simp only [decodeMembers]
      rcases ih (setParamField p k v).1 with h | ⟨kv, hkv, h⟩
      · rcases setParamField_properties p k v with h2 | h2
        · exact Or.inl (h.trans h2)
        · exact Or.inr ⟨(k, v), List.mem_cons_self _ _, h.trans h2⟩
      · exact Or.inr ⟨kv, List.mem_cons_of_mem _ hkv, h⟩

theorem member_sizeOf_lt (kvs : List (String × Json)) (kv : String × Json) (h : kv ∈ kvs) :
    sizeOf kv.2 < sizeOf (Json.obj kvs) := by
  have h1 := List.sizeOf_lt_of_mem h
  obtain ⟨k, v⟩ := kv
  simp only [Json.obj.sizeOf_spec, Prod.mk.sizeOf_spec] at h1 ⊢
  omega

/-- The property map of a parameter decoded from a node is smaller than the node. -/
theorem decoded_properties_lt (raw : Json) :
    sizeOf (UnpackTo decodeParam (some raw) {}).1.Properties < 1 + sizeOf raw := by
  simp only [UnpackTo, decodeParam, decodeStruct]
  cases raw with
  | obj kvs =>
      simp only
      rcases decodeMembers_properties kvs {} with h | ⟨kv, hkv, h⟩
      · rw [h]
        simp only [Json.obj.sizeOf_spec]
        have : sizeOf (none : Option Json) = 1 := rfl
        omega
      · rw [h]
        have := member_sizeOf_lt kvs kv hkv
        simp only [Option.some.sizeOf_spec]
        omega
  | null => simp only; have : sizeOf (none : Option Json) = 1 := rfl; simp [this]
  | bool b => simp only; have : sizeOf (none : Option Json) = 1 := rfl; simp [this]
  | num t => simp only; have : sizeOf (none : Option Json) = 1 := rfl; simp [this]
  | str t => simp only; have : sizeOf (none : Option Json) = 1 := rfl; simp [this]
  | arr xs => simp only; have : sizeOf (none : Option Json) = 1 := rfl; simp [this]

theorem GoMap.mem_set {α : Type} (m : GoMap α) (k : String) (v : α) (x : String × α)
    (h : x ∈ GoMap.set m k v) : x ∈ m ∨ x = (k, v) := by
  induction m with
  | nil => simpa [GoMap.set] using h
  | cons y ys ih =>
      obtain ⟨a, b⟩ := y
      simp only [GoMap.set] at h
      split at h
      · rename_i hak
        rcases List.mem_cons.mp h with h | h
        · exact Or.inr (by rw [h, hak])
        · exact Or.inl (List.mem_cons_of_mem _ h)
      · rcases List.mem_cons.mp h with h | h
        · exact Or.inl (by rw [h]; exact List.mem_cons_self _ _)
        · rcases ih h with h | h
          · exact Or.inl (List.mem_cons_of_mem _ h)
          · exact Or.inr h

theorem decodeMapMembers_mem (kvs : List (String × Json)) :
    ∀ (m : GoMap Json) (x : String × Json), x ∈ decodeMapMembers kvs m → x ∈ m ∨ x ∈ kvs := by
  induction kvs with
  | nil => intro m x h; exact Or.inl h
  | cons y ys ih =>
      intro m x h
      obtain ⟨k, v⟩ := y
      simp only [decodeMapMembers] at h
      rcases ih _ x h with h | h
      · rcases GoMap.mem_set m k v x h with h | h
        · exact Or.inl h
        · exact Or.inr (by rw [h]; exact List.mem_cons_self _ _)
      · exact Or.inr (List.mem_cons_of_mem _ h)

/-- A binding of the map `UnpackToMap` returns is smaller than the node. -/
theorem UnpackToMap_value_lt (l : lazyRaw) (kv : String × Json) (h : kv ∈ (UnpackToMap l).1) :
    1 + sizeOf kv.2 < sizeOf l := by
  unfold UnpackToMap at h
  split at h
  · simp at h
  · rename_i kvs
    rcases decodeMapMembers_mem kvs [] kv h with h | h
    · simp at h
    · have := member_sizeOf_lt kvs kv h
      simp only [Option.some.sizeOf_spec]
      omega
  · simp at h
  · simp at h

/-- A call through a property goes to a parameter with a smaller property map. -/
theorem property_call_lt (p q : Param) (kv : String × Json)
    (hkv : kv ∈ (UnpackToMap p.Properties).1)
    (hq : UnpackTo decodeParam (some kv.2) {} = (q, none)) :
    sizeOf q.Properties < sizeOf p.Properties := by
  have h1 := decoded_properties_lt kv.2
  have h2 := UnpackToMap_value_lt p.Properties kv hkv
  rw [hq] at h1
  simp only at h1
  omega

/-! ### From an acyclic reference graph to accessibility -/

/-- The zero parameter makes no call. -/
theorem Calls_zero (refs : GoMap Json) (q : Param) : ¬ Calls refs {} q := by
  intro h
  obtain ⟨_, h1 | h2 | h3⟩ := h
  · exact h1.1 rfl
  · exact h2.2.1 rfl
  · have : ("" : String) ≠ ETypeObject := by decide
    exact this h3.2.2.1

theorem GoMap.get?_of_mem {α : Type} (m : GoMap α) (k : String) (h : k ∈ m.map Prod.fst) :
    ∃ v, GoMap.get? m k = some v := by
  induction m with
  | nil => simp at h
  | cons x xs ih =>
      obtain ⟨a, b⟩ := x
      simp only [GoMap.get?]
      by_cases ha : a = k
      · exact ⟨b, by simp [ha]⟩
      · simp only [ha, if_false]
        simp only [List.map_cons, List.mem_cons] at h
        rcases h with h | h
        · exact absurd h.symm ha
        · exact ih h

/-- Accessibility, given it for the targets of the reference calls: calls
through properties shrink the property map. -/
theorem acc_of_ref_targets (refs : GoMap Json) (P : Param → Prop)
    (hP : ∀ p q, P p → Calls refs p q → P q)
    (hrefs : ∀ p k q, P p → p.Default = "" →
      ((p.Ref ≠ "" ∧ k = p.Ref) ∨ (p.Ref = "" ∧ p.Schema.Ref ≠ "" ∧ k = p.Schema.Ref)) →
      UnpackTo decodeParam (GoMap.index refs k) {} = (q, none) →
      Acc (fun q p => Calls refs p q) q) :
    ∀ (n : Nat) (p : Param), sizeOf p.Properties < n → P p →
      Acc (fun q p => Calls refs p q) p := by
  intro n
  induction n with
  | zero => intro p h; omega
  | succ n ih =>
      intro p hn hp
      refine Acc.intro p ?_
      intro q hq
      obtain ⟨hD, h1 | h2 | h3⟩ := hq
      · exact hrefs p p.Ref q hp hD (Or.inl ⟨h1.1, rfl⟩) h1.2
      · exact hrefs p p.Schema.Ref q hp hD (Or.inr ⟨h2.1, h2.2.1, rfl⟩) h2.2.2
      · have hcall : Calls refs p q := ⟨hD, Or.inr (Or.inr h3)⟩
        obtain ⟨_, _, _, _, kv, hkv, hqd⟩ := h3
        have hlt := property_call_lt p q kv hkv hqd
        exact ih q (by omega) (hP p q hp hcall)

/-- Every parameter is accessible for the relation of the recursive calls
when no parameter decoded from a node of the table reaches itself. -/
theorem acc_of_acyclic (refs : GoMap Json)
    (hacyc : ∀ k j q, GoMap.get? refs k = some j →
      UnpackTo decodeParam (some j) {} = (q, none) →
      ¬ Relation.TransGen (Calls refs) q q) :
    ∀ p : Param, Acc (fun q p => Calls refs p q) p := by
  -- the keys of the table, ordered by reachability of the decoded nodes
  let Key := { k : String // k ∈ refs.map Prod.fst }
  let D : Key → Param := fun k => (UnpackTo decodeParam (GoMap.index refs k.1) {}).1
  let ok : Key → Prop := fun k => (UnpackTo decodeParam (GoMap.index refs k.1) {}).2 = none
  let R : Key → Key → Prop := fun a b =>
    ok a ∧ ok b ∧ Relation.TransGen (Calls refs) (D b) (D a)
  have hirr : ∀ a, ¬ R a a := by
    intro a ⟨hoka, _, ht⟩
    obtain ⟨j, hj⟩ := GoMap.get?_of_mem refs a.1 a.2
    have hidx : GoMap.index refs a.1 = some j := hj
    refine hacyc a.1 j (D a) hj ?_ ht
    simp only [D, ok] at hoka ⊢
    rw [hidx] at hoka ⊢
    exact Prod.ext rfl hoka
  haveI : IsIrrefl Key R := ⟨hirr⟩
  haveI : IsTrans Key R := ⟨fun a b c hab hbc =>
    ⟨hab.1, hbc.2.1, Relation.TransGen.trans hbc.2.2 hab.2.2⟩⟩
  have hwf : WellFounded R := Finite.wellFounded_of_trans_of_irrefl R
  have hzero : Acc (fun q p => Calls refs p q) ({} : Param) :=
    Acc.intro _ (fun q hq => absurd hq (Calls_zero refs q))
  -- the decoded node of every key is accessible
  have hkey : ∀ a : Key, ok a → Acc (fun q p => Calls refs p q) (D a) := by
    intro a
    induction a using hwf.induction with
    | _ a iha =>
      intro hoka
      refine acc_of_ref_targets refs (fun p => Relation.ReflTransGen (Calls refs) (D a) p)
        (fun p q hp hq => Relation.ReflTransGen.tail hp hq) ?_ _ (D a) (Nat.lt_succ_self _)
        Relation.ReflTransGen.refl
      intro p k q hp hD hk hq
      have hcall : Calls refs p q := by
        rcases hk with ⟨h1, rfl⟩ | ⟨h1, h2, rfl⟩
        · exact ⟨hD, Or.inl ⟨h1, hq⟩⟩
        · exact ⟨hD, Or.inr (Or.inl ⟨h1, h2, hq⟩)⟩
      cases hidx : GoMap.index refs k with
      | none =>
          rw [hidx] at hq
          simp only [UnpackTo, Prod.mk.injEq, and_true] at hq
          rw [← hq]
          exact hzero
      | some j =>
          have hmem : k ∈ refs.map Prod.fst := GoMap.get?_mem refs k j hidx
          have hDb : D ⟨k, hmem⟩ = q := by simp only [D]; rw [hq]
          have hokb : ok ⟨k, hmem⟩ := by simp only [ok]; rw [hq]
          rw [← hDb]
          refine iha ⟨k, hmem⟩ ⟨hokb, hoka, ?_⟩ hokb
          rw [hDb]
          exact Relation.TransGen.tail' hp hcall
  intro p
  refine acc_of_ref_targets refs (fun _ => True) (fun _ _ _ _ => trivial) ?_ _ p
    (Nat.lt_succ_self _) trivial
  intro p k q _ hD hk hq
  cases hidx : GoMap.index refs k with
  | none =>
      rw [hidx] at hq
      simp only [UnpackTo, Prod.mk.injEq, and_true] at hq
      rw [← hq]
      exact hzero
  | some j =>
      have hmem : k ∈ refs.map Prod.fst := GoMap.get?_mem refs k j hidx
      have hDb : D ⟨k, hmem⟩ = q := by simp only [D]; rw [hq]
      have hokb : ok ⟨k, hmem⟩ := by simp only [ok]; rw [hq]
      rw [← hDb]
      exact hkey ⟨k, hmem⟩ hokb

/-- C17.  When the reference graph is acyclic, that is, when no parameter
decoded from a node of the reference table reaches itself through the
recursive calls of `GetDefault` (through `Ref`, `Schema.Ref` or properties),
the relation of the recursive calls is well-founded, and `GetDefault`
terminates on every parameter in every output context: some amount of fuel
gives a result, and every larger amount gives the same result. -/
theorem GetDefault_terminates (ord : GoMap Json → List (String × Json))
    (hord : ∀ m, (ord m).Perm m) (refs : GoMap Json)
    (hacyc : ∀ k j q, GoMap.get? refs k = some j →
      UnpackTo decodeParam (some j) {} = (q, none) →
      ¬ Relation.TransGen (Calls refs) q q) :
    WellFounded (fun q p => Calls refs p q)
    ∧ ∀ (p : Param) (format : String), ∃ fuel r,
        ∀ fuel', fuel ≤ fuel' → GetDefault ord fuel' p refs format = some r := by
  have hacc := acc_of_acyclic refs hacyc
  refine ⟨⟨hacc⟩, ?_⟩
  intro p format
  obtain ⟨f, hf⟩ := terminates_of_acc ord hord refs format p (hacc p)
  obtain ⟨r, hr⟩ := Option.ne_none_iff_exists'.mp hf
  exact ⟨f, r, fun fuel' hle => GetDefault_mono_le ord refs format p r f fuel' hle hr⟩

/-- Witness of C17: a table with the definitions `Tag` (a string) and `Id`
(an integer), and an object parameter whose properties refer to both. -/
theorem GetDefault_terminates_witness :
    ∃ fuel r, ∀ fuel', fuel ≤ fuel' →
      GetDefault id fuel'
        { Typ := "object",
          Properties := some (.obj [("tag", .obj [("$ref", .str "#/definitions/Tag")]),
                                    ("id", .obj [("$ref", .str "#/definitions/Id")])]) }
        [("#/definitions/Tag", Json.obj [("type", .str "string")]),
         ("#/definitions/Id", Json.obj [("type", .str "integer")])]
        EFormatJSON = some r :=
  (GetDefault_terminates id (fun m => List.Perm.refl m)
    [("#/definitions/Tag", Json.obj [("type", .str "string")]),
     ("#/definitions/Id", Json.obj [("type", .str "integer")])]
    (by
      intro k j q hk hq ht
      obtain ⟨c, hc, _⟩ := Relation.TransGen.head'_iff.mp ht
      have hleaf : q.Ref = "" ∧ q.Schema.Ref = "" ∧ q.Typ ≠ ETypeObject := by
        by_cases h1 : "#/definitions/Tag" = k
        · have hj : j = Json.obj [("type", .str "string")] := by
            simpa [GoMap.get?, h1] using hk.symm
          subst hj
          have hq' : q = (UnpackTo decodeParam
              (some (Json.obj [("type", .str "string")])) {}).1 := by rw [hq]
          rw [hq']
          exact ⟨rfl, rfl, by decide⟩
        · by_cases h2 : "#/definitions/Id" = k
          · have hj : j = Json.obj [("type", .str "integer")] := by
              simpa [GoMap.get?, h1, h2] using hk.symm
            subst hj
            have hq' : q = (UnpackTo decodeParam
                (some (Json.obj [("type", .str "integer")])) {}).1 := by rw [hq]
            rw [hq']
            exact ⟨rfl, rfl, by decide⟩
          · simp [GoMap.get?, h1, h2] at hk
      obtain ⟨_, h1 | h2 | h3⟩ := hc
      · exact h1.1 hleaf.1
      · exact h2.2.1 hleaf.2.1
      · exact hleaf.2.2 h3.2.2.1)).2 _ EFormatJSON

end Swagger2http
